import Mathlib

/-!
Verification development for the StreamPref preference/sequence core.

The definitions below are shallow embeddings of the Python sources:
  * `src/preference/interval.py`    → `Interval`
  * `src/preference/comparison.py`  → `Comparison`
  * `src/preference/rule.py`        → `CPRule`, `TCPCondition`
  * `src/preference/theory.py`      → `CPTheory` construction and search dominance
  * `src/operators/updatedata.py`   → record hierarchies
  * `src/control/sequence.py` and `src/operators/sequence.py` → sequence operators
  * `src/operators/seqtree*.py`     → sequence-tree index

Attributes are modelled as natural numbers; attribute values live in an
arbitrary linearly ordered type `V` (the sources use int/float/string values
with the natural order of the shared type).  Python dictionaries are modelled
as association lists; dictionary iteration is order-insensitive in every
embedded loop (all of them are conjunctions, disjunctions or commutative
accumulations), so a fixed list order is faithful.  Definitions named
`spec...` are modelled from the specification's wording instead (they exist
only to be compared against the code-derived definitions).
-/

namespace StreamPref

/-- Interval boundary operators `<`, `<=`, `=` (grammar.symbols) as stored in
`Interval._left_operator` / `_right_operator`. -/
inductive IOp where
  | lt
  | le
  | eq
deriving DecidableEq, Repr

/-- A boundary operator is closed when it is `=` or `<=`
(`Interval.left_closed` / `Interval.right_closed`). -/
def IOp.closed : IOp → Bool
  | .lt => false
  | .le => true
  | .eq => true

/-- `preference/interval.py`, class `Interval`: left/right limits (None for an
unbounded side) with boundary operators. -/
structure Interval (V : Type) where
  leftValue : Option V
  leftOperator : IOp
  rightOperator : IOp
  rightValue : Option V
deriving DecidableEq, Repr

variable {V : Type} [LinearOrder V]

/-- The four-element form of `Interval.__init__` including the normalization of
equal closed bounds to `=`. -/
def mkInterval (lv : Option V) (lop rop : IOp) (rv : Option V) : Interval V :=
  if lv = rv ∧ lv ≠ none ∧ rv ≠ none ∧ lop = IOp.le ∧ rop = IOp.le then
    ⟨lv, IOp.eq, IOp.eq, rv⟩
  else
    ⟨lv, lop, rop, rv⟩

/-- The two-element form `Interval(['=', v])`. -/
def eqInterval (v : V) : Interval V :=
  ⟨some v, IOp.eq, IOp.eq, some v⟩

/-- `Interval.left_closed`. -/
def Interval.leftClosed (i : Interval V) : Bool := i.leftOperator.closed

/-- `Interval.right_closed`. -/
def Interval.rightClosed (i : Interval V) : Bool := i.rightOperator.closed

/-- `Interval.left_inside`: the left limit of `other` is inside of `self`. -/
def Interval.leftInside (self other : Interval V) : Bool :=
  match other.leftValue with
  | none => false
  | some ol =>
    (match self.leftValue with
     | none => true
     | some sl => decide (sl < ol) ||
        (decide (ol = sl) && !other.leftClosed && self.leftClosed)) &&
    (match self.rightValue with
     | none => true
     | some sr => decide (sr > ol) ||
        (decide (sr = ol) && self.rightClosed && other.leftClosed))

/-- `Interval.right_inside`: the right limit of `other` is inside of `self`. -/
def Interval.rightInside (self other : Interval V) : Bool :=
  match other.rightValue with
  | none => false
  | some orv =>
    (match self.rightValue with
     | none => true
     | some sr => decide (sr > orv) ||
        (decide (orv = sr) && !other.rightClosed && self.rightClosed)) &&
    (match self.leftValue with
     | none => true
     | some sl => decide (sl < orv) ||
        (decide (sl = orv) && self.leftClosed && other.rightClosed))

/-- `Interval.is_disjoint`. -/
def Interval.isDisjoint (self other : Interval V) : Bool :=
  other.rightInside self || other.leftInside self

/-- `Interval.split_by_interval`: split `self` when a limit of `other` is
inside of `self`; the left limit is tried first. -/
def Interval.splitByInterval (self other : Interval V) : List (Interval V) :=
  if self ≠ other ∧ self.leftInside other then
    let newRop : IOp := if other.leftClosed then IOp.lt else IOp.le
    [mkInterval self.leftValue self.leftOperator newRop other.leftValue,
     mkInterval other.leftValue other.leftOperator self.rightOperator
       self.rightValue]
  else if self ≠ other ∧ self.rightInside other then
    let newLop : IOp := if other.rightClosed then IOp.lt else IOp.le
    [mkInterval self.leftValue self.leftOperator other.rightOperator
       other.rightValue,
     mkInterval other.rightValue newLop self.rightOperator self.rightValue]
  else []

/-- `Interval.is_consistent`. -/
def Interval.isConsistent (i : Interval V) : Bool :=
  match i.leftValue, i.rightValue with
  | some lv, some rv =>
    !((i.leftOperator = IOp.lt ∨ i.leftOperator = IOp.le) ∧
      (i.rightOperator = IOp.lt ∨ i.rightOperator = IOp.le) ∧ lv ≥ rv : Bool)
  | _, _ => true

/-- `Interval._after_left`. -/
def Interval.afterLeft (i : Interval V) (v : V) : Bool :=
  match i.leftValue with
  | none => true
  | some lv => decide (lv < v) || (decide (lv ≤ v) && i.leftClosed)

/-- `Interval._before_right`. -/
def Interval.beforeRight (i : Interval V) (v : V) : Bool :=
  match i.rightValue with
  | none => true
  | some rv => decide (rv > v) || (decide (rv ≥ v) && i.rightClosed)

/-- A record value is either a plain value or an interval
(`CPRule.change_record` stores the worst interval as an attribute value). -/
inductive RVal (V : Type) where
  | val (v : V)
  | itv (i : Interval V)
deriving DecidableEq, Repr

/-- `Interval.is_inside_or_equal`: interval arguments are compared for
equality, plain values are tested against both limits. -/
def Interval.isInsideOrEqual (self : Interval V) (value : RVal V) : Bool :=
  match value with
  | .itv i => decide (self = i)
  | .val v => self.afterLeft v && self.beforeRight v

/-- Attributes (`control/attribute.py`) are identified by their qualified
name; we model them by natural numbers. -/
abbrev Attr := Nat

/-- A record is a Python dictionary Attribute → value, modelled as an
association list. -/
abbrev Rec (V : Type) := List (Attr × RVal V)

/-- Dictionary lookup (first binding wins, as in a Python dict without
duplicate keys). -/
def lookupA {α β : Type} [DecidableEq α] : List (α × β) → α → Option β
  | [], _ => none
  | (k, v) :: r, a => if k = a then some v else lookupA r a

/-- Dictionary membership (`att in record`). -/
def memA {α β : Type} [DecidableEq α] (l : List (α × β)) (a : α) : Bool :=
  (lookupA l a).isSome

/-- The key list of a dictionary (`record.keys()`). -/
def keysA {α β : Type} (l : List (α × β)) : List α :=
  l.map Prod.fst

/-- `record[att] = value` (replace an existing binding in place, otherwise
append, following dict insertion order). -/
def recSet {α β : Type} [DecidableEq α] (r : List (α × β)) (a : α) (v : β) :
    List (α × β) :=
  if memA r a then r.map (fun kv => if kv.1 = a then (kv.1, v) else kv)
  else r ++ [(a, v)]

/-- `del record[att]`. -/
def recErase {α β : Type} [DecidableEq α] (r : List (α × β)) (a : α) :
    List (α × β) :=
  r.filter (fun kv => kv.1 ≠ a)

/-- A formula / condition dictionary Attribute → Interval
(`comparison.py` formulas and `CPCondition._present_condition_dict`). -/
abbrev Formula (V : Type) := List (Attr × Interval V)

/-- `rule.is_condition_valid_by_record` and
`comparison._is_formula_valid_by_record` (they are the same test). -/
def conditionValidByRecord (cond : Formula V) (r : Rec V) : Bool :=
  cond.all fun ai =>
    match lookupA r ai.1 with
    | none => false
    | some v => ai.2.isInsideOrEqual v

/-- `comparison.py`, class `Comparison`: a pair of formulas together with the
indifferent attribute set. -/
structure Comparison (V : Type) where
  best : Formula V
  worst : Formula V
  indiff : List Attr
deriving DecidableEq, Repr

/-- `Comparison.is_best_record`. -/
def Comparison.isBestRecord (c : Comparison V) (r : Rec V) : Bool :=
  conditionValidByRecord c.best r

/-- `Comparison.is_worst_record`. -/
def Comparison.isWorstRecord (c : Comparison V) (r : Rec V) : Bool :=
  conditionValidByRecord c.worst r

/-- `Comparison.dominates`: the two formulas must be satisfied and every
attribute of either record outside the indifferent set must be present in
both records with the same value. -/
def Comparison.dominates (c : Comparison V) (r1 r2 : Rec V) : Bool :=
  c.isBestRecord r1 && c.isWorstRecord r2 &&
  ((keysA r1 ++ keysA r2).all fun a =>
    decide (a ∈ c.indiff) ||
    match lookupA r1 a, lookupA r2 a with
    | some v1, some v2 => decide (v1 = v2)
    | _, _ => false)

/-- `rule.py`, class `CPPreference`: preference attribute, preferred and
non-preferred intervals, indifferent attribute set. -/
structure CPPreference (V : Type) where
  prefAtt : Attr
  bestInterval : Interval V
  worstInterval : Interval V
  indifferentSet : List Attr
deriving DecidableEq, Repr

/-- `CPPreference.is_best_valid_by_record`. -/
def CPPreference.isBestValidByRecord (p : CPPreference V) (r : Rec V) : Bool :=
  match lookupA r p.prefAtt with
  | none => false
  | some v => p.bestInterval.isInsideOrEqual v

/-- `CPPreference.is_worst_valid_by_record`. -/
def CPPreference.isWorstValidByRecord (p : CPPreference V) (r : Rec V) :
    Bool :=
  match lookupA r p.prefAtt with
  | none => false
  | some v => p.worstInterval.isInsideOrEqual v

/-- `rule.py`, class `CPRule`: condition plus preference.  The invalid
attribute list is produced during parsing; rules built directly carry `[]`. -/
structure CPRule (V : Type) where
  condition : Formula V
  preference : CPPreference V
  invalidAttributeList : List Attr := []
deriving DecidableEq, Repr

/-- `CPRule.is_consistent`: no invalid attributes, the preference attribute is
neither in the condition nor indifferent, and the indifferent attributes are
disjoint from the condition attributes. -/
def CPRule.isConsistent (ρ : CPRule V) : Bool :=
  ρ.invalidAttributeList.isEmpty &&
  !decide (ρ.preference.prefAtt ∈ keysA ρ.condition) &&
  !decide (ρ.preference.prefAtt ∈ ρ.preference.indifferentSet) &&
  ρ.preference.indifferentSet.all fun a => !decide (a ∈ keysA ρ.condition)

/-- `del new_record[att] for att in indifferent set` inside
`CPRule.change_record`. -/
def recEraseAll {α β : Type} [DecidableEq α] (r : List (α × β))
    (atts : List α) : List (α × β) :=
  atts.foldl recErase r

/-- `CPRule.change_record`: when the record satisfies the condition and its
preference-attribute value (if any) is inside the preferred interval, produce
the record with that attribute set to the worst interval and the indifferent
attributes removed; otherwise `none`. -/
def CPRule.changeRecord (ρ : CPRule V) (r : Rec V) : Option (Rec V) :=
  if conditionValidByRecord ρ.condition r &&
      (match lookupA r ρ.preference.prefAtt with
       | none => true
       | some v => ρ.preference.bestInterval.isInsideOrEqual v) then
    some (recEraseAll
      (recSet r ρ.preference.prefAtt (RVal.itv ρ.preference.worstInterval))
      ρ.preference.indifferentSet)
  else none

/-- `CPRule.record_dominates`: `r1` is preferred, `r2` is non-preferred, both
satisfy the condition, and all attributes other than the preference attribute
and the indifferent attributes coincide. -/
def CPRule.recordDominates (ρ : CPRule V) (r1 r2 : Rec V) : Bool :=
  ρ.preference.isBestValidByRecord r1 &&
  ρ.preference.isWorstValidByRecord r2 &&
  conditionValidByRecord ρ.condition r1 &&
  conditionValidByRecord ρ.condition r2 &&
  ((keysA r1 ++ keysA r2).all fun a =>
    decide (a = ρ.preference.prefAtt) ||
    decide (a ∈ ρ.preference.indifferentSet) ||
    match lookupA r1 a, lookupA r2 a with
    | some v1, some v2 => decide (v1 = v2)
    | _, _ => false)

/-- `rule.py`, class `TCPCondition`: present conditions plus the FIRST marker
and the PREVIOUS / SOME PREVIOUS / ALL PREVIOUS dictionaries. -/
structure TCPCondition (V : Type) where
  present : Formula V
  first : Bool
  previous : Formula V
  somePrevious : Formula V
  allPrevious : Formula V
deriving DecidableEq, Repr

/-- `TCPCondition.has_previous`. -/
def TCPCondition.hasPrevious (c : TCPCondition V) : Bool :=
  !c.previous.isEmpty || !c.somePrevious.isEmpty || !c.allPrevious.isEmpty

/-- `TCPCondition._is_previous_valid_by` (positions of a sequence are
records; out-of-range accesses do not occur in the verified statements). -/
def TCPCondition.isPreviousValidBy (c : TCPCondition V) (seq : List (Rec V))
    (pos : Nat) : Bool :=
  if !c.hasPrevious then true
  else if 0 < pos then
    conditionValidByRecord c.previous (seq.getD (pos - 1) [])
  else false

/-- `TCPCondition._is_some_valid_by`. -/
def TCPCondition.isSomeValidBy (c : TCPCondition V) (seq : List (Rec V))
    (pos : Nat) : Bool :=
  if !c.hasPrevious then true
  else if 0 < pos then
    (List.range pos).any fun p =>
      conditionValidByRecord c.somePrevious (seq.getD p [])
  else false

/-- `TCPCondition._is_all_valid_by`. -/
def TCPCondition.isAllValidBy (c : TCPCondition V) (seq : List (Rec V))
    (pos : Nat) : Bool :=
  if !c.hasPrevious then true
  else if 0 < pos then
    (List.range pos).all fun p =>
      conditionValidByRecord c.allPrevious (seq.getD p [])
  else false

/-- `TCPCondition.is_valid_by_position`. -/
def TCPCondition.isValidByPosition (c : TCPCondition V) (seq : List (Rec V))
    (pos : Nat) : Bool :=
  if c.first && !decide (pos = 0) then false
  else if !conditionValidByRecord c.present (seq.getD pos []) then false
  else if !c.isPreviousValidBy seq pos then false
  else if !c.isSomeValidBy seq pos then false
  else if !c.isAllValidBy seq pos then false
  else true

/-! ### Basic dictionary lemmas -/

theorem lookupA_append {α β : Type} [DecidableEq α] (l1 l2 : List (α × β))
    (a : α) :
    lookupA (l1 ++ l2) a =
      match lookupA l1 a with
      | some v => some v
      | none => lookupA l2 a := by
  induction l1 with
  | nil => rfl
  | cons kv r ih =>
    obtain ⟨k, w⟩ := kv
    by_cases h : k = a <;> simp [lookupA, h, ih]

theorem lookupA_isSome_iff_mem_keysA {α β : Type} [DecidableEq α]
    (l : List (α × β)) (a : α) :
    (lookupA l a).isSome = true ↔ a ∈ keysA l := by
  induction l with
  | nil => simp [lookupA, keysA]
  | cons kv r ih =>
    obtain ⟨k, w⟩ := kv
    by_cases h : k = a
    · subst h; simp [lookupA, keysA]
    · rw [show lookupA ((k, w) :: r) a = lookupA r a by simp [lookupA, h]]
      rw [ih]
      show _ ↔ a ∈ k :: keysA r
      rw [List.mem_cons]
      constructor
      · exact fun hm => Or.inr hm
      · rintro (hh | hm)
        · exact (h hh.symm).elim
        · exact hm

theorem lookupA_map_set {α β : Type} [DecidableEq α] (r : List (α × β))
    (a b : α) (v : β) :
    lookupA (r.map fun kv => if kv.1 = a then (kv.1, v) else kv) b =
      if b = a then (lookupA r a).map (fun _ => v) else lookupA r b := by
  induction r with
  | nil => by_cases h : b = a <;> simp [lookupA, h]
  | cons kv t ih =>
    obtain ⟨k, w⟩ := kv
    simp only [List.map_cons]
    by_cases hk : k = a
    · subst hk
      simp only [if_pos rfl]
      by_cases hb : k = b
      · subst hb; simp [lookupA, ih]
      · have hbk : ¬b = k := fun hh => hb hh.symm
        simp [lookupA, hb, hbk, ih]
    · simp only [if_neg hk]
      by_cases hb : k = b
      · subst hb; simp [lookupA, hk]
      · simp [lookupA, hb, hk, ih]

theorem lookupA_recSet {α β : Type} [DecidableEq α] (r : List (α × β))
    (a b : α) (v : β) :
    lookupA (recSet r a v) b =
      if b = a then some v else lookupA r b := by
  unfold recSet
  by_cases h : memA r a = true
  · rw [if_pos h, lookupA_map_set]
    by_cases hb : b = a
    · subst hb
      unfold memA at h
      cases hl : lookupA r b with
      | none => rw [hl] at h; simp at h
      | some w => simp [hl]
    · simp [hb]
  · rw [if_neg h, lookupA_append]
    by_cases hb : b = a
    · subst hb
      unfold memA at h
      cases hl : lookupA r b with
      | none => simp [hl, lookupA]
      | some w => rw [hl] at h; simp at h
    · cases hl : lookupA r b with
      | none =>
        have hab : ¬a = b := fun hh => hb hh.symm
        simp [hl, lookupA, hab, hb]
      | some w => simp [hl, hb]

theorem lookupA_recErase {α β : Type} [DecidableEq α] (r : List (α × β))
    (a b : α) :
    lookupA (recErase r a) b =
      if b = a then none else lookupA r b := by
  induction r with
  | nil => by_cases hb : b = a <;> simp [recErase, lookupA, hb]
  | cons kv t ih =>
    obtain ⟨k, w⟩ := kv
    by_cases hk : k = a
    · subst hk
      by_cases hb : b = k
      · subst hb; simpa [recErase, lookupA] using ih
      · have : ¬k = b := fun hh => hb hh.symm
        simpa [recErase, lookupA, this, hb] using ih
    · by_cases hb : k = b
      · subst hb
        simp [recErase, lookupA, hk]
      · simpa [recErase, lookupA, hk, hb] using ih

theorem lookupA_recEraseAll {α β : Type} [DecidableEq α]
    (r : List (α × β)) (atts : List α) (a : α) :
    lookupA (recEraseAll r atts) a =
      if a ∈ atts then none else lookupA r a := by
  induction atts generalizing r with
  | nil => simp [recEraseAll]
  | cons w t ih =>
    unfold recEraseAll at ih ⊢
    rw [List.foldl_cons, ih, lookupA_recErase]
    by_cases hw : a = w
    · subst hw; simp
    · by_cases ht : a ∈ t <;> simp [ht, hw]

theorem mem_keysA_lookup_isSome {α β : Type} [DecidableEq α]
    (l : List (α × β)) (a : α)
    (h : a ∈ keysA l) : (lookupA l a).isSome = true :=
  (lookupA_isSome_iff_mem_keysA l a).2 h


theorem conditionValid_nil (r : Rec V) :
    conditionValidByRecord ([] : Formula V) r = true := rfl

/-! ### C7 — Interval.split_by_interval -/

/-- Modelled from the spec (C7): a bound of value `b` and closedness `bc`
"lies strictly inside `self`", or "lies on a boundary of `self` with differing
openness". -/
def specBoundInsideC7 (self : Interval V) (b : V) (bc : Bool) : Bool :=
  ((match self.leftValue with
    | none => true
    | some lv => decide (lv < b)) &&
   (match self.rightValue with
    | none => true
    | some rv => decide (b < rv))) ||
  (decide (self.leftValue = some b) && decide (self.leftClosed ≠ bc)) ||
  (decide (self.rightValue = some b) && decide (self.rightClosed ≠ bc))

/-- Modelled from the spec (C7): the claimed split condition — one of the
bounds of `other` lies strictly inside `self` or on a boundary of `self` with
differing openness. -/
def specSplitConditionC7 (self other : Interval V) : Bool :=
  (match other.leftValue with
   | none => false
   | some b => specBoundInsideC7 self b other.leftClosed) ||
  (match other.rightValue with
   | none => false
   | some b => specBoundInsideC7 self b other.rightClosed)

theorem mkInterval_leftValue (lv : Option V) (lop rop : IOp) (rv : Option V) :
    (mkInterval lv lop rop rv).leftValue = lv := by
  unfold mkInterval; split_ifs <;> rfl

theorem mkInterval_rightValue (lv : Option V) (lop rop : IOp)
    (rv : Option V) : (mkInterval lv lop rop rv).rightValue = rv := by
  unfold mkInterval; split_ifs <;> rfl

theorem mkInterval_leftClosed (lv : Option V) (lop rop : IOp)
    (rv : Option V) : (mkInterval lv lop rop rv).leftClosed = lop.closed := by
  unfold mkInterval
  split_ifs with h
  · simp [Interval.leftClosed, h.2.2.2.1, IOp.closed]
  · rfl

theorem mkInterval_rightClosed (lv : Option V) (lop rop : IOp)
    (rv : Option V) :
    (mkInterval lv lop rop rv).rightClosed = rop.closed := by
  unfold mkInterval
  split_ifs with h
  · simp [Interval.rightClosed, h.2.2.2.2, IOp.closed]
  · rfl

/-- C7 (counterexample): on `self = [1, ≤ · ≤, 9]` and `other = [9, ≤ · ≤, 12]`
the code emits a 2-way split although the left bound of `other` neither lies
strictly inside `self` nor on a boundary of `self` with differing openness
(it coincides with the right bound of `self`, both closed). -/
theorem C7_split_counterexample :
    (Interval.splitByInterval
        (mkInterval (some (1 : Int)) IOp.le IOp.le (some 9))
        (mkInterval (some (9 : Int)) IOp.le IOp.le (some 12))).length = 2 ∧
    specSplitConditionC7
        (mkInterval (some (1 : Int)) IOp.le IOp.le (some 9))
        (mkInterval (some (9 : Int)) IOp.le IOp.le (some 12)) = false := by
  decide

/-- C7 (amended): `split_by_interval` returns 0 or 2 intervals; it returns 2
exactly when the intervals differ and a bound of `other` is inside `self` in
the sense of `left_inside` / `right_inside` (which also counts a bound of
`other` coinciding with the far boundary of `self` when both sides are
closed).  In that case the two parts keep the outer bound values and
closedness of `self`, and the chosen bound of `other` appears as the common
inner bound value with complementary closedness on the two parts. -/
theorem C7_split_characterization (self other : Interval V) :
    ((self.splitByInterval other).length = 0 ∨
      (self.splitByInterval other).length = 2) ∧
    (self.splitByInterval other ≠ [] ↔
      self ≠ other ∧ (self.leftInside other ∨ self.rightInside other)) ∧
    (∀ i1 i2, self.splitByInterval other = [i1, i2] →
      i1.leftValue = self.leftValue ∧ i1.leftClosed = self.leftClosed ∧
      i2.rightValue = self.rightValue ∧ i2.rightClosed = self.rightClosed ∧
      i1.rightValue = i2.leftValue ∧ i1.rightClosed = !i2.leftClosed ∧
      ((self.leftInside other = true ∧ i1.rightValue = other.leftValue ∧
          i2.leftClosed = other.leftClosed) ∨
        (self.leftInside other = false ∧ self.rightInside other = true ∧
          i1.rightValue = other.rightValue ∧
          i1.rightClosed = other.rightClosed))) := by
  by_cases h1 : self ≠ other ∧ self.leftInside other = true
  · have hres : self.splitByInterval other =
        [mkInterval self.leftValue self.leftOperator
            (if other.leftClosed then IOp.lt else IOp.le) other.leftValue,
         mkInterval other.leftValue other.leftOperator self.rightOperator
            self.rightValue] := by
      unfold Interval.splitByInterval
      rw [if_pos h1]
    rw [hres]
    refine ⟨Or.inr rfl, ⟨fun _ => ⟨h1.1, Or.inl h1.2⟩, fun _ => by simp⟩, ?_⟩
    intro i1 i2 hres2
    simp only [List.cons.injEq, and_true] at hres2
    obtain ⟨hi1, hi2⟩ := hres2
    subst hi1; subst hi2
    refine ⟨mkInterval_leftValue _ _ _ _, ?_, mkInterval_rightValue _ _ _ _,
      ?_, ?_, ?_, Or.inl ⟨h1.2, mkInterval_rightValue _ _ _ _, ?_⟩⟩
    · rw [mkInterval_leftClosed]; rfl
    · rw [mkInterval_rightClosed]; rfl
    · rw [mkInterval_rightValue, mkInterval_leftValue]
    · rw [mkInterval_rightClosed, mkInterval_leftClosed]
      cases hoc : other.leftOperator <;>
        simp [Interval.leftClosed, IOp.closed, hoc]
    · rw [mkInterval_leftClosed]; rfl
  · by_cases h2 : self ≠ other ∧ self.rightInside other = true
    · have hres : self.splitByInterval other =
          [mkInterval self.leftValue self.leftOperator other.rightOperator
              other.rightValue,
           mkInterval other.rightValue
              (if other.rightClosed then IOp.lt else IOp.le)
              self.rightOperator self.rightValue] := by
        unfold Interval.splitByInterval
        rw [if_neg h1, if_pos h2]
      rw [hres]
      have hleft : self.leftInside other = false := by
        cases hv : self.leftInside other
        · rfl
        · exact absurd ⟨h2.1, hv⟩ h1
      refine ⟨Or.inr rfl, ⟨fun _ => ⟨h2.1, Or.inr h2.2⟩, fun _ => by simp⟩,
        ?_⟩
      intro i1 i2 hres2
      simp only [List.cons.injEq, and_true] at hres2
      obtain ⟨hi1, hi2⟩ := hres2
      subst hi1; subst hi2
      refine ⟨mkInterval_leftValue _ _ _ _, ?_, mkInterval_rightValue _ _ _ _,
        ?_, ?_, ?_,
        Or.inr ⟨hleft, h2.2, mkInterval_rightValue _ _ _ _, ?_⟩⟩
      · rw [mkInterval_leftClosed]; rfl
      · rw [mkInterval_rightClosed]; rfl
      · rw [mkInterval_rightValue, mkInterval_leftValue]
      · rw [mkInterval_rightClosed, mkInterval_leftClosed]
        cases hoc : other.rightOperator <;>
          simp [Interval.rightClosed, IOp.closed, hoc]
      · rw [mkInterval_rightClosed]; rfl
    · have hres : self.splitByInterval other = [] := by
        unfold Interval.splitByInterval
        rw [if_neg h1, if_neg h2]
      rw [hres]
      refine ⟨Or.inl rfl, ?_, ?_⟩
      · constructor
        · intro h; exact absurd rfl h
        · rintro ⟨hne, hor | hor⟩
          · exact absurd ⟨hne, hor⟩ h1
          · exact absurd ⟨hne, hor⟩ h2
      · intro i1 i2 h; simp at h

/-! ### C3 — Comparison.dominates -/

/-- Formula satisfaction as the spec states it (used by several claims): each
attribution of the formula must be matched by a record value inside the
interval. -/
def specSatisfies (f : Formula V) (r : Rec V) : Prop :=
  ∀ ai ∈ f, ∃ v, lookupA r ai.1 = some v ∧ ai.2.isInsideOrEqual v = true

theorem conditionValid_iff_specSatisfies (f : Formula V) (r : Rec V) :
    conditionValidByRecord f r = true ↔ specSatisfies f r := by
  unfold conditionValidByRecord specSatisfies
  rw [List.all_eq_true]
  constructor
  · intro h ai hai
    have hm := h ai hai
    cases hl : lookupA r ai.1 with
    | none => rw [hl] at hm; simp at hm
    | some v => rw [hl] at hm; exact ⟨v, rfl, hm⟩
  · intro h ai hai
    obtain ⟨v, hv, hin⟩ := h ai hai
    rw [hv]
    exact hin

/-- Modelled from the spec (C3): `b.dominates(r1, r2)` iff `r1 ⊨ f⁺`,
`r2 ⊨ f⁻`, and every attribute occurring in `r1` or `r2` that is NOT in
`W ∪ dom f⁺ ∪ dom f⁻` is present in both records with the same value. -/
def specDominatesC3 (c : Comparison V) (r1 r2 : Rec V) : Bool :=
  conditionValidByRecord c.best r1 && conditionValidByRecord c.worst r2 &&
  ((keysA r1 ++ keysA r2).all fun a =>
    decide (a ∈ c.indiff) || decide (a ∈ keysA c.best) ||
    decide (a ∈ keysA c.worst) ||
    match lookupA r1 a, lookupA r2 a with
    | some v1, some v2 => decide (v1 = v2)
    | _, _ => false)

/-- C3 (counterexample): for the comparison `(b=2) > (b=3) []` and records
`{b:2}`, `{b:3}` the spec's characterization holds (the only attribute is in
`dom f⁺ ∪ dom f⁻`), but the code requires equality on every attribute outside
`W` only, so `dominates` returns `False`. -/
theorem C3_dominates_counterexample :
    specDominatesC3
        (⟨[(1, eqInterval (2 : Int))], [(1, eqInterval 3)], []⟩ :
          Comparison Int)
        [(1, RVal.val 2)] [(1, RVal.val 3)] = true ∧
    Comparison.dominates
        (⟨[(1, eqInterval (2 : Int))], [(1, eqInterval 3)], []⟩ :
          Comparison Int)
        [(1, RVal.val 2)] [(1, RVal.val 3)] = false := by
  decide

/-- C3 (amended): `b.dominates(r1, r2)` returns `True` iff `r1` satisfies
`f⁺`, `r2` satisfies `f⁻`, and every attribute occurring in `r1` or `r2` that
is not in `W` (the indifferent set alone — the formula domains are NOT
excluded) is present in both records with the same value. -/
theorem C3_dominates_characterization (c : Comparison V) (r1 r2 : Rec V) :
    c.dominates r1 r2 = true ↔
      specSatisfies c.best r1 ∧ specSatisfies c.worst r2 ∧
      ∀ a ∈ keysA r1 ++ keysA r2, a ∉ c.indiff →
        ∃ v, lookupA r1 a = some v ∧ lookupA r2 a = some v := by
  unfold Comparison.dominates Comparison.isBestRecord Comparison.isWorstRecord
  simp only [Bool.and_eq_true, List.all_eq_true]
  constructor
  · rintro ⟨⟨hb, hw⟩, hall⟩
    refine ⟨(conditionValid_iff_specSatisfies _ _).1 hb,
      (conditionValid_iff_specSatisfies _ _).1 hw, ?_⟩
    intro a ha hnin
    have hm := hall a ha
    rw [Bool.or_eq_true] at hm
    cases hm with
    | inl hc => exact absurd (of_decide_eq_true hc) hnin
    | inr hm =>
      cases hl1 : lookupA r1 a with
      | none =>
        rw [hl1] at hm
        cases hl2 : lookupA r2 a <;> rw [hl2] at hm <;> simp at hm
      | some v1 =>
        cases hl2 : lookupA r2 a with
        | none => rw [hl1, hl2] at hm; simp at hm
        | some v2 =>
          rw [hl1, hl2] at hm
          simp only [decide_eq_true_eq] at hm
          exact ⟨v1, rfl, by rw [hm]⟩
  · rintro ⟨hb, hw, hall⟩
    refine ⟨⟨(conditionValid_iff_specSatisfies _ _).2 hb,
      (conditionValid_iff_specSatisfies _ _).2 hw⟩, ?_⟩
    intro a ha
    rw [Bool.or_eq_true]
    by_cases hin : a ∈ c.indiff
    · left; exact decide_eq_true hin
    · right
      obtain ⟨v, h1, h2⟩ := hall a ha hin
      rw [h1, h2]
      simp

/-! ### C2 — change_record versus record_dominates -/

/-- C2 (counterexample): the consistent rule `(0)=1 BETTER (0)=2 []` applied
to the empty record (which lacks the preference attribute) produces a changed
record, but `record_dominates` requires the preference attribute to be present
in the first record, so it returns `False`. -/
theorem C2_change_record_counterexample :
    (⟨[], ⟨0, eqInterval (1 : Int), eqInterval 2, []⟩, []⟩ :
        CPRule Int).isConsistent = true ∧
    (⟨[], ⟨0, eqInterval (1 : Int), eqInterval 2, []⟩, []⟩ :
        CPRule Int).changeRecord [] =
      some [(0, RVal.itv (eqInterval 2))] ∧
    (⟨[], ⟨0, eqInterval (1 : Int), eqInterval 2, []⟩, []⟩ :
        CPRule Int).recordDominates [] [(0, RVal.itv (eqInterval 2))] =
      false := by
  decide

/-- C2 (amended): for every consistent rule `ρ` and record `r` that CONTAINS
the preference attribute, if `ρ.change_record(r) = r2` then
`ρ.record_dominates(r, r2)` holds. -/
theorem C2_change_record_dominates (ρ : CPRule V) (r r2 : Rec V)
    (hcons : ρ.isConsistent = true)
    (hmem : memA r ρ.preference.prefAtt = true)
    (hch : ρ.changeRecord r = some r2) :
    ρ.recordDominates r r2 = true := by
  unfold CPRule.changeRecord at hch
  by_cases hok : (conditionValidByRecord ρ.condition r &&
      (match lookupA r ρ.preference.prefAtt with
       | none => true
       | some v => ρ.preference.bestInterval.isInsideOrEqual v)) = true
  swap
  · rw [if_neg hok] at hch; exact absurd hch (by simp)
  rw [if_pos hok] at hch
  rw [Bool.and_eq_true] at hok
  obtain ⟨hcond, hbest⟩ := hok
  obtain ⟨v0, hv0⟩ : ∃ v0, lookupA r ρ.preference.prefAtt = some v0 := by
    unfold memA at hmem
    cases hl : lookupA r ρ.preference.prefAtt with
    | none => rw [hl] at hmem; simp at hmem
    | some v => exact ⟨v, rfl⟩
  rw [hv0] at hbest
  obtain rfl : recEraseAll
      (recSet r ρ.preference.prefAtt (RVal.itv ρ.preference.worstInterval))
      ρ.preference.indifferentSet = r2 := by
    simpa using hch
  unfold CPRule.isConsistent at hcons
  simp only [Bool.and_eq_true, List.all_eq_true, Bool.not_eq_true',
    decide_eq_false_iff_not] at hcons
  obtain ⟨⟨⟨_, hpaCond⟩, hpaW⟩, hwCond⟩ := hcons
  have hlook2 : ∀ a, a ≠ ρ.preference.prefAtt →
      a ∉ ρ.preference.indifferentSet →
      lookupA (recEraseAll
        (recSet r ρ.preference.prefAtt
          (RVal.itv ρ.preference.worstInterval))
        ρ.preference.indifferentSet) a = lookupA r a := by
    intro a hne hnw
    rw [lookupA_recEraseAll, if_neg hnw, lookupA_recSet, if_neg hne]
  have hlookPa : lookupA (recEraseAll
      (recSet r ρ.preference.prefAtt (RVal.itv ρ.preference.worstInterval))
      ρ.preference.indifferentSet) ρ.preference.prefAtt =
      some (RVal.itv ρ.preference.worstInterval) := by
    rw [lookupA_recEraseAll, if_neg hpaW, lookupA_recSet, if_pos rfl]
  unfold CPRule.recordDominates
  simp only [Bool.and_eq_true, List.all_eq_true]
  refine ⟨⟨⟨⟨?_, ?_⟩, hcond⟩, ?_⟩, ?_⟩
  · unfold CPPreference.isBestValidByRecord
    rw [hv0]
    exact hbest
  · unfold CPPreference.isWorstValidByRecord
    rw [hlookPa]
    simp [Interval.isInsideOrEqual]
  · rw [conditionValid_iff_specSatisfies] at hcond ⊢
    intro ai hai
    obtain ⟨v, hv, hin⟩ := hcond ai hai
    have hkey : ai.1 ∈ keysA ρ.condition := List.mem_map.2 ⟨ai, hai, rfl⟩
    have hne : ai.1 ≠ ρ.preference.prefAtt := fun hh => hpaCond (hh ▸ hkey)
    have hnw : ai.1 ∉ ρ.preference.indifferentSet := fun hh =>
      hwCond ai.1 hh hkey
    exact ⟨v, by rw [hlook2 ai.1 hne hnw, hv], hin⟩
  · intro a ha
    rw [Bool.or_eq_true, Bool.or_eq_true]
    by_cases hpa : a = ρ.preference.prefAtt
    · exact Or.inl (Or.inl (decide_eq_true hpa))
    by_cases hw : a ∈ ρ.preference.indifferentSet
    · exact Or.inl (Or.inr (decide_eq_true hw))
    right
    have hsame := hlook2 a hpa hw
    obtain ⟨v, hv⟩ : ∃ v, lookupA r a = some v := by
      rcases List.mem_append.1 ha with hmem1 | hmem2
      · have := (lookupA_isSome_iff_mem_keysA r a).2 hmem1
        cases hl : lookupA r a with
        | none => rw [hl] at this; simp at this
        | some v => exact ⟨v, rfl⟩
      · have := (lookupA_isSome_iff_mem_keysA _ a).2 hmem2
        rw [hsame] at this
        cases hl : lookupA r a with
        | none => rw [hl] at this; simp at this
        | some v => exact ⟨v, rfl⟩
    rw [hv, hsame, hv]
    simp

theorem C2_change_record_dominates_witness :
    CPRule.recordDominates
      (⟨[(1, eqInterval 7)], ⟨0, eqInterval (5 : Int), eqInterval 6, [2]⟩,
        []⟩ : CPRule Int)
      [(0, RVal.val 5), (1, RVal.val 7), (2, RVal.val 9)]
      [(0, RVal.itv (eqInterval 6)), (1, RVal.val 7)] = true :=
  C2_change_record_dominates _ _ _ (by decide) (by decide) (by decide)

/-! ### C6 — TCPCondition.is_valid_by_position -/

/-- Modelled from the spec (C6): present predicates on `seq[pos]`, PREVIOUS
predicates on `seq[pos-1]`, SOME PREVIOUS existentially and ALL PREVIOUS
universally over `seq[0..pos-1]`, FIRST requires `pos = 0`. -/
def specTCPValidC6 (c : TCPCondition V) (seq : List (Rec V)) (pos : Nat) :
    Bool :=
  (!c.first || decide (pos = 0)) &&
  conditionValidByRecord c.present (seq.getD pos []) &&
  (c.previous.isEmpty ||
    (decide (0 < pos) &&
      conditionValidByRecord c.previous (seq.getD (pos - 1) []))) &&
  (c.somePrevious.isEmpty ||
    (List.range pos).any fun p =>
      conditionValidByRecord c.somePrevious (seq.getD p [])) &&
  ((List.range pos).all fun p =>
    conditionValidByRecord c.allPrevious (seq.getD p []))

theorem isValidByPosition_eq_conj (c : TCPCondition V) (seq : List (Rec V))
    (pos : Nat) :
    c.isValidByPosition seq pos =
      ((!(c.first && !decide (pos = 0))) &&
        conditionValidByRecord c.present (seq.getD pos []) &&
        c.isPreviousValidBy seq pos && c.isSomeValidBy seq pos &&
        c.isAllValidBy seq pos) := by
  unfold TCPCondition.isValidByPosition
  cases h1 : (c.first && !decide (pos = 0)) <;>
    cases h2 : conditionValidByRecord c.present (seq.getD pos []) <;>
    cases h3 : c.isPreviousValidBy seq pos <;>
    cases h4 : c.isSomeValidBy seq pos <;>
    cases h5 : c.isAllValidBy seq pos <;>
    simp [h1, h2, h3, h4, h5]

/-- C6 (counterexample): a condition with a single ALL PREVIOUS predicate and
no other predicate at position 0 of a one-position sequence: the universal
quantification over the empty prefix makes the claim's reading true, but the
code returns `False` (any past predicate forces `pos > 0`). -/
theorem C6_valid_by_position_counterexample :
    specTCPValidC6
        (⟨[], false, [], [], [(0, eqInterval (1 : Int))]⟩ : TCPCondition Int)
        [[(0, RVal.val (5 : Int))]] 0 = true ∧
    TCPCondition.isValidByPosition
        (⟨[], false, [], [], [(0, eqInterval (1 : Int))]⟩ : TCPCondition Int)
        [[(0, RVal.val (5 : Int))]] 0 = false := by
  decide

/-- C6 (amended): `is_valid_by_position(seq, pos)` agrees with the claimed
reading except that any past predicate (PREVIOUS, SOME PREVIOUS or ALL
PREVIOUS) additionally forces `pos > 0`: the result equals the spec reading
conjoined with `¬has_previous ∨ pos > 0`. -/
theorem C6_valid_by_position_characterization (c : TCPCondition V)
    (seq : List (Rec V)) (pos : Nat) (hpos : pos < seq.length) :
    c.isValidByPosition seq pos =
      (specTCPValidC6 c seq pos && (!c.hasPrevious || decide (0 < pos))) := by
  by_cases h0 : pos = 0
  · subst h0
    cases hp : c.hasPrevious
    · have he : c.previous = [] ∧ c.somePrevious = [] ∧ c.allPrevious = [] := by
        unfold TCPCondition.hasPrevious at hp
        refine ⟨?_, ?_, ?_⟩ <;>
          [cases hpe : c.previous; cases hpe : c.somePrevious;
            cases hpe : c.allPrevious] <;>
          first
            | rfl
            | (rw [hpe] at hp; simp at hp)
      obtain ⟨h1, h2, h3⟩ := he
      unfold TCPCondition.isValidByPosition specTCPValidC6
        TCPCondition.isPreviousValidBy TCPCondition.isSomeValidBy
        TCPCondition.isAllValidBy
      rw [hp, h1, h2]
      cases hfirst : c.first <;>
        cases hpr : conditionValidByRecord c.present (seq.getD 0 []) <;>
        simp [hfirst, hpr]
    · have hpv : c.isPreviousValidBy seq 0 = false := by
        unfold TCPCondition.isPreviousValidBy
        rw [hp]
        rfl
      rw [isValidByPosition_eq_conj, hpv]
      simp
  · have hpos0 : 0 < pos := Nat.pos_of_ne_zero h0
    have hd0 : decide (pos = 0) = false := by simp [h0]
    have hdpos : decide (0 < pos) = true := by simp [hpos0]
    cases hp : c.hasPrevious
    · have he : c.previous = [] ∧ c.somePrevious = [] ∧ c.allPrevious = [] := by
        unfold TCPCondition.hasPrevious at hp
        refine ⟨?_, ?_, ?_⟩ <;>
          [cases hpe : c.previous; cases hpe : c.somePrevious;
            cases hpe : c.allPrevious] <;>
          first
            | rfl
            | (rw [hpe] at hp; simp at hp)
      obtain ⟨h1, h2, h3⟩ := he
      unfold TCPCondition.isValidByPosition specTCPValidC6
        TCPCondition.isPreviousValidBy TCPCondition.isSomeValidBy
        TCPCondition.isAllValidBy
      rw [hp, h1, h2, h3, hd0]
      cases hfirst : c.first <;>
        cases hpr : conditionValidByRecord c.present (seq.getD pos []) <;>
        simp [hfirst, hpr, conditionValid_nil]
    · have hprev : c.isPreviousValidBy seq pos =
          (c.previous.isEmpty ||
            (decide (0 < pos) &&
              conditionValidByRecord c.previous (seq.getD (pos - 1) []))) := by
        unfold TCPCondition.isPreviousValidBy
        rw [hp, hdpos]
        cases hpe : c.previous with
        | nil => simp [hpos0, conditionValid_nil]
        | cons x xs => simp [hpos0]
      have hsome : c.isSomeValidBy seq pos =
          (c.somePrevious.isEmpty ||
            (List.range pos).any fun p =>
              conditionValidByRecord c.somePrevious (seq.getD p [])) := by
        unfold TCPCondition.isSomeValidBy
        rw [hp]
        cases hpe : c.somePrevious with
        | nil =>
          have hany : ((List.range pos).any fun p =>
              conditionValidByRecord ([] : Formula V) (seq.getD p [])) =
              true := by
            rw [List.any_eq_true]
            exact ⟨0, List.mem_range.2 hpos0, rfl⟩
          rw [if_neg (by simp), if_pos hpos0, hany]
          simp
        | cons x xs => simp [hpos0]
      have hall : c.isAllValidBy seq pos =
          ((List.range pos).all fun p =>
            conditionValidByRecord c.allPrevious (seq.getD p [])) := by
        unfold TCPCondition.isAllValidBy
        rw [hp]
        simp [hpos0]
      rw [isValidByPosition_eq_conj, hprev, hsome, hall]
      unfold specTCPValidC6
      rw [hd0, hdpos]
      cases c.first <;> simp [Bool.and_assoc]

theorem C6_valid_by_position_characterization_witness :
    TCPCondition.isValidByPosition
      (⟨[(0, eqInterval (1 : Int))], true, [], [], []⟩ : TCPCondition Int)
      [[(0, RVal.val (1 : Int))]] 0 =
      (specTCPValidC6
          (⟨[(0, eqInterval (1 : Int))], true, [], [], []⟩ : TCPCondition Int)
          [[(0, RVal.val (1 : Int))]] 0 &&
        (!(⟨[(0, eqInterval (1 : Int))], true, [], [], []⟩ :
            TCPCondition Int).hasPrevious || decide (0 < 0))) :=
  C6_valid_by_position_characterization _ _ 0 (by decide)

/-! ### C1 — CPTheory construction and depth-search dominance
(`src/preference/theory.py`). -/

/-- `theory.is_goal_record`: every attribute of the goal must be present in
the record, with an interval goal value containing the record value or the
two values being equal. -/
def isGoalRecord (record goal : Rec V) : Bool :=
  goal.all fun ag =>
    match lookupA record ag.1 with
    | none => false
    | some v =>
      (match ag.2 with
       | RVal.itv g => g.isInsideOrEqual v
       | RVal.val _ => false) || decide (v = ag.2)

/-- `theory._dominates_by_search` (module level): DFS over rules, each rule
usable at most once per path.  Every recursive call removes one rule from the
list, so `ruleList.length + 1` fuel makes the fueled version coincide with
the source's recursion. -/
def dominatesBySearchAux (fuel : Nat) (ruleList : List (CPRule V))
    (r1 r2 : Rec V) : Bool :=
  match fuel with
  | 0 => false
  | fuel + 1 =>
    if isGoalRecord r2 r1 then true
    else
      (List.range ruleList.length).any fun index =>
        match ruleList.get? index with
        | none => false
        | some ρ =>
          match ρ.changeRecord r1 with
          | none => false
          | some newRec =>
            dominatesBySearchAux fuel
              ((ruleList.enum.filter fun p => p.1 ≠ index).map Prod.snd)
              newRec r2

/-- `theory.check_rules_consistency`. -/
def checkRulesConsistency (ruleList : List (CPRule V)) : Bool :=
  ruleList.all CPRule.isConsistent

/-- `CPCondition.get_interval_list` together with
`CPRule.get_interval_list`. -/
def CPRule.getIntervalList (ρ : CPRule V) (a : Attr) : List (Interval V) :=
  (match lookupA ρ.condition a with
   | some itv => [itv]
   | none => []) ++
  (if a = ρ.preference.prefAtt then
    [ρ.preference.bestInterval, ρ.preference.worstInterval]
  else [])

/-- `CPRule.get_attribute_list`: condition attributes, indifferent
attributes, then the preference attribute. -/
def CPRule.getAttributeList (ρ : CPRule V) : List Attr :=
  keysA ρ.condition ++ ρ.preference.indifferentSet ++ [ρ.preference.prefAtt]

/-- `rule.split_condition_dict`. -/
def splitConditionDict (cond : Formula V) (a : Attr) (itv : Interval V) :
    List (Formula V) :=
  match lookupA cond a with
  | none => []
  | some ci => (ci.splitByInterval itv).map fun ni => recSet cond a ni

/-- `CPPreference.split_by_interval`: try the preferred interval first, then
the non-preferred one. -/
def CPPreference.splitByInterval (p : CPPreference V) (itv : Interval V) :
    List (CPPreference V) :=
  let bl := p.bestInterval.splitByInterval itv
  if !bl.isEmpty then bl.map fun ni => { p with bestInterval := ni }
  else
    (p.worstInterval.splitByInterval itv).map fun ni =>
      { p with worstInterval := ni }

/-- `CPRule._split_by_interval`: split the condition first; only when the
condition does not split, try the preference intervals. -/
def CPRule.splitByIntervalAux (ρ : CPRule V) (a : Attr) (itv : Interval V) :
    List (CPRule V) :=
  let cl := splitConditionDict ρ.condition a itv
  if !cl.isEmpty then cl.map fun nc => { ρ with condition := nc }
  else if a = ρ.preference.prefAtt then
    (ρ.preference.splitByInterval itv).map fun np => { ρ with preference := np }
  else []

/-- First non-empty result of a sequence of attempts (the `return` at the
first successful split). -/
def firstNonEmpty {α : Type} : List (List α) → List α
  | [] => []
  | x :: xs => if !x.isEmpty then x else firstNonEmpty xs

/-- `CPRule.split`: try every attribute of `other` and every interval of
`other` at that attribute, returning the first split obtained. -/
def CPRule.split (ρ other : CPRule V) : List (CPRule V) :=
  firstNonEmpty <|
    (other.getAttributeList.map fun a =>
      (other.getIntervalList a).map fun itv => ρ.splitByIntervalAux a itv).flatten

/-- The first split obtained by trying each rule against each other rule in
list order (one iteration of the `while` body of `theory._split_rules`). -/
def splitRulesPass (ruleList : List (CPRule V)) :
    Option (CPRule V × List (CPRule V)) :=
  match ruleList.find? (fun ρ =>
    !(firstNonEmpty (ruleList.map fun other => ρ.split other)).isEmpty) with
  | none => none
  | some ρ => some (ρ, firstNonEmpty (ruleList.map fun other => ρ.split other))

/-- `rule_list.remove(rule)` followed by appending the new rules that are not
yet present. -/
def addNewRules (ruleList newRules : List (CPRule V)) : List (CPRule V) :=
  newRules.foldl (fun acc nr => if nr ∈ acc then acc else acc ++ [nr]) ruleList

/-- `theory._split_rules`: iterate splits to fixpoint (fueled; the loop is
unbounded in the source). -/
def splitRules (fuel : Nat) (ruleList : List (CPRule V)) :
    List (CPRule V) :=
  match fuel with
  | 0 => ruleList
  | fuel + 1 =>
    match splitRulesPass ruleList with
    | none => ruleList
    | some (ρ, newRules) => splitRules fuel (addNewRules (ruleList.erase ρ) newRules)

/-- `preferencegraph.py`: adjacency stored as a dictionary vertex → successor
list. -/
abbrev PrefGraph (α : Type) := List (α × List α)

/-- Successors of a vertex. -/
def gAdj {α : Type} [DecidableEq α] (g : PrefGraph α) (u : α) : List α :=
  (lookupA g u).getD []

/-- Vertex creation inside `PreferenceGraph.add_edge`. -/
def addVertex {α : Type} [DecidableEq α] (g : PrefGraph α) (u : α) :
    PrefGraph α :=
  if memA g u then g else g ++ [(u, [])]

/-- `PreferenceGraph.add_edge`. -/
def addEdge {α : Type} [DecidableEq α] (g : PrefGraph α) (u v : α) :
    PrefGraph α :=
  let g2 := addVertex (addVertex g u) v
  if v ∈ gAdj g2 u then g2 else recSet g2 u (gAdj g2 u ++ [v])

/-- The loop of `PreferenceGraph.depth_first_search` (fueled; `pop()` takes
the last waiting vertex). -/
def dfsLoop {α : Type} [DecidableEq α] (g : PrefGraph α) (goal : α) :
    Nat → List α → List α → Bool
  | 0, _, _ => false
  | fuel + 1, visited, waiting =>
    match waiting.getLast? with
    | none => false
    | some next =>
      let rest := waiting.dropLast
      if next = goal then true
      else if next ∈ visited then dfsLoop g goal fuel visited rest
      else dfsLoop g goal fuel (visited ++ [next]) (rest ++ gAdj g next)

/-- `PreferenceGraph.depth_first_search` from `start` towards `goal`. -/
def depthFirstSearch {α : Type} [DecidableEq α] (g : PrefGraph α)
    (start goal : α) (fuel : Nat) : Bool :=
  dfsLoop g goal fuel [start] (gAdj g start)

/-- `PreferenceGraph.is_acyclic`.  The source's search loop pops from (and
appends to) the adjacency list of the start vertex itself through an alias,
so after an unsuccessful search the start vertex has an empty successor list;
the threaded `recSet g v []` reproduces that net effect. -/
def isAcyclicLoop {α : Type} [DecidableEq α] (fuel : Nat) :
    PrefGraph α → List α → Bool
  | _, [] => true
  | g, v :: vs =>
    if depthFirstSearch g v v fuel then false
    else isAcyclicLoop fuel (recSet g v []) vs

/-- `PreferenceGraph.is_acyclic` over all vertices. -/
def isAcyclic {α : Type} [DecidableEq α] (g : PrefGraph α) (fuel : Nat) :
    Bool :=
  isAcyclicLoop fuel g (keysA g)

/-- The condition-attribute → preference-attribute and preference-attribute →
indifferent-attribute edges of `CPTheory._is_global_consistent`. -/
def buildGlobalGraph (ruleList : List (CPRule V)) : PrefGraph Attr :=
  ruleList.foldl (fun g ρ =>
    let g1 := (keysA ρ.condition).foldl
      (fun g2 a => addEdge g2 a ρ.preference.prefAtt) g
    ρ.preference.indifferentSet.foldl
      (fun g2 w => addEdge g2 ρ.preference.prefAtt w) g1) []

/-- `CPTheory._is_global_consistent`. -/
def isGlobalConsistent (ruleList : List (CPRule V)) (fuel : Nat) : Bool :=
  isAcyclic (buildGlobalGraph ruleList) fuel

/-- `rule.are_compatible_dicts`. -/
def areCompatibleDicts {β : Type} [DecidableEq β] (d1 d2 : List (Attr × β)) :
    Bool :=
  d1.all fun kv =>
    match lookupA d2 kv.1 with
    | none => true
    | some v2 => decide (kv.2 = v2)

/-- `CPRule.is_compatible_to`. -/
def CPRule.isCompatibleTo (ρ other : CPRule V) : Bool :=
  decide (ρ.preference.prefAtt = other.preference.prefAtt) &&
  areCompatibleDicts ρ.condition other.condition

/-- `CPTheory._is_cprule_compatible_to_list`. -/
def compatibleAll (ruleList : List (CPRule V)) (i : Nat) (s : List Nat) :
    Bool :=
  match ruleList.get? i with
  | none => false
  | some ρ => s.all fun j =>
      match ruleList.get? j with
      | none => false
      | some ρ2 => ρ.isCompatibleTo ρ2

/-- Ordered insertion used to keep rule-index sets canonical (Python sets of
small integers iterate in ascending order). -/
def insertSorted : List Nat → Nat → List Nat
  | [], i => [i]
  | x :: xs, i =>
    if i < x then i :: x :: xs
    else if i = x then x :: xs
    else x :: insertSorted xs i

/-- Inner loop over `rule_id` of `CPTheory._get_compatible_sets`, carrying
(change, combined, new set list). -/
def compatPassInner (ruleList : List (CPRule V)) (ruleSet : List Nat) :
    Bool × Bool × List (List Nat) → Nat → Bool × Bool × List (List Nat) :=
  fun st i =>
    if compatibleAll ruleList i ruleSet && decide (i ∉ ruleSet) then
      let newSet := insertSorted ruleSet i
      if newSet ∈ st.2.2 then (st.1, true, st.2.2)
      else (true, true, st.2.2 ++ [newSet])
    else st

/-- One iteration of the `while change` loop of
`CPTheory._get_compatible_sets`, returning (change, new set list). -/
def compatibleSetsPass (ruleList : List (CPRule V))
    (setList : List (List Nat)) : Bool × List (List Nat) :=
  setList.foldl (fun acc ruleSet =>
    let st := (List.range ruleList.length).foldl
      (compatPassInner ruleList ruleSet) (acc.1, false, acc.2)
    if st.2.1 then (st.1, st.2.2) else (st.1, st.2.2 ++ [ruleSet])) (false, [])

/-- The fixpoint loop of `CPTheory._get_compatible_sets` (fueled). -/
def compatibleSetsLoop (ruleList : List (CPRule V)) :
    Nat → List (List Nat) → List (List Nat)
  | 0, setList => setList
  | fuel + 1, setList =>
    let p := compatibleSetsPass ruleList setList
    if p.1 then compatibleSetsLoop ruleList fuel p.2 else p.2

/-- `CPTheory._get_compatible_sets`. -/
def getCompatibleSets (ruleList : List (CPRule V)) (fuel : Nat) :
    List (List Nat) :=
  compatibleSetsLoop ruleList fuel
    ((List.range ruleList.length).map fun i => [i])

/-- `theory._build_interval_graph` (the source keys vertices by the string
rendering of the interval, which is injective on the interval data). -/
def buildIntervalGraph (ruleList : List (CPRule V)) :
    PrefGraph (Interval V) :=
  ruleList.foldl (fun g ρ =>
    addEdge g ρ.preference.bestInterval ρ.preference.worstInterval) []

/-- `CPTheory._is_local_consistent`. -/
def isLocalConsistent (ruleList : List (CPRule V)) (fuel : Nat) : Bool :=
  (getCompatibleSets ruleList fuel).all fun s =>
    isAcyclic (buildIntervalGraph (s.filterMap fun i => ruleList.get? i)) fuel

/-- `theory.py`, class `CPTheory` under the depth-search dispatch: the rule
list after interval splitting and the result of the consistency check. -/
structure CPTheory (V : Type) where
  ruleList : List (CPRule V)
  consistent : Bool

/-- `CPTheory.__init__` with `skip_consistency = False`
(`_check_consistency`: per-rule check, split fixpoint, global and local
consistency; on a per-rule failure the rule list is left unsplit). -/
def CPTheory.construct (fuel : Nat) (rules : List (CPRule V)) : CPTheory V :=
  if checkRulesConsistency rules then
    let split := splitRules fuel rules
    ⟨split, isGlobalConsistent split fuel && isLocalConsistent split fuel⟩
  else ⟨rules, false⟩

/-- `CPTheory._dominates_by_search` (the `dominates` dispatch of the
depth-search algorithm): equal records are never dominated; otherwise search.
`ruleList.length + 1` fuel is exact since each recursive step drops one
rule. -/
def CPTheory.dominates (th : CPTheory V) (r1 r2 : Rec V) : Bool :=
  if r1 ≠ r2 then
    dominatesBySearchAux (th.ruleList.length + 1) th.ruleList r1 r2
  else false

/-- C1 (amended): for every CPTheory constructed from a consistent rule list,
the depth-search dominance relation is irreflexive: no record dominates
itself (the dispatcher requires `record1 != record2`). -/
theorem C1_depth_search_irreflexive (fuel : Nat) (rules : List (CPRule V))
    (_hcons : (CPTheory.construct fuel rules).consistent = true) (r : Rec V) :
    (CPTheory.construct fuel rules).dominates r r = false := by
  unfold CPTheory.dominates
  simp

theorem C1_depth_search_irreflexive_witness :
    (CPTheory.construct 10
        [(⟨[], ⟨0, eqInterval (1 : Int), eqInterval 2, []⟩, []⟩ :
          CPRule Int)]).dominates
      [(0, RVal.val (1 : Int))] [(0, RVal.val (1 : Int))] = false :=
  C1_depth_search_irreflexive 10 _ (by decide) _

/-- C1 (counterexample to transitivity): the two-rule theory
`(0)=1 BETTER (0)=2 []` and `IF (1)=5 THEN (0)=2 BETTER (0)=3 []` passes the
full consistency check, and with `r1 = {0:1}`, `r2 = {0:2, 1:5}`,
`r3 = {0:3, 1:5}` the depth-search dominance has `r1 → r2` and `r2 → r3`
but not `r1 → r3` (the first chain forgets attribute 1, so the second rule's
condition cannot fire). -/
theorem C1_transitivity_counterexample :
    (CPTheory.construct 10
        [(⟨[], ⟨0, eqInterval (1 : Int), eqInterval 2, []⟩, []⟩ :
            CPRule Int),
         ⟨[(1, eqInterval 5)], ⟨0, eqInterval 2, eqInterval 3, []⟩,
            []⟩]).consistent = true ∧
    (CPTheory.construct 10
        [(⟨[], ⟨0, eqInterval (1 : Int), eqInterval 2, []⟩, []⟩ :
            CPRule Int),
         ⟨[(1, eqInterval 5)], ⟨0, eqInterval 2, eqInterval 3, []⟩,
            []⟩]).dominates
      [(0, RVal.val 1)] [(0, RVal.val 2), (1, RVal.val 5)] = true ∧
    (CPTheory.construct 10
        [(⟨[], ⟨0, eqInterval (1 : Int), eqInterval 2, []⟩, []⟩ :
            CPRule Int),
         ⟨[(1, eqInterval 5)], ⟨0, eqInterval 2, eqInterval 3, []⟩,
            []⟩]).dominates
      [(0, RVal.val 2), (1, RVal.val 5)] [(0, RVal.val 3), (1, RVal.val 5)] =
      true ∧
    (CPTheory.construct 10
        [(⟨[], ⟨0, eqInterval (1 : Int), eqInterval 2, []⟩, []⟩ :
            CPRule Int),
         ⟨[(1, eqInterval 5)], ⟨0, eqInterval 2, eqInterval 3, []⟩,
            []⟩]).dominates
      [(0, RVal.val 1)] [(0, RVal.val 3), (1, RVal.val 5)] = false := by
  decide

/-! ### Sequences and the CONSEQ / ENDSEQ operators
(`src/control/sequence.py`, `src/operators/sequence.py`).

A sequence position carries a record payload and its original timestamp; the
start/end validity window only drives the front expiration in `SeqOp`, which
the claims model as the per-tick deleted count, so it is not part of the
position here.  Per the operator protocol, between two reads a live sequence
loses `d` positions at the front and gains the inserted tail at the end. -/

/-- One sequence position (`Sequence._position_list[i]`,
`Sequence._timestamp_list[i]`). -/
structure SeqPos (α : Type) where
  payload : α
  ts : Nat
deriving DecidableEq, Repr

/-- The position/timestamp content of a `Sequence`. -/
abbrev Seq (α : Type) := List (SeqPos α)

/-- The scanning loop of `Sequence.get_ctsubsequences`: `cur` is the run
`positions[start..end-1]` being accumulated and `lastTs` the timestamp at
`end - 1`; a run is emitted when the list ends or when the next timestamp
exceeds the previous one plus one. -/
def ctGo {α : Type} (cur : Seq α) (lastTs : Nat) :
    Seq α → List (Seq α)
  | [] => [cur]
  | p :: rest =>
    if p.ts > lastTs + 1 then cur :: ctGo [p] p.ts rest
    else ctGo (cur ++ [p]) p.ts rest

/-- `Sequence.get_ctsubsequences`. -/
def ctSubsequences {α : Type} : Seq α → List (Seq α)
  | [] => []
  | p :: rest => ctGo [p] p.ts rest

/-- Python list slicing `l[start:stop]` (as used by
`Sequence.subsequence`). -/
def pySlice {α : Type} (l : List α) (start stop : Nat) : List α :=
  (l.take stop).drop start

/-- `Sequence.get_ep_subsequences`: for each position `pos` the slice
`positions[pos : len+1]`. -/
def epSubsequences {α : Type} (s : Seq α) : List (Seq α) :=
  (List.range s.length).map fun pos => pySlice s pos (s.length + 1)

/-- `operators.sequence._delete_conseq`: pop whole cached sub-sequences from
the front until the deleted count is covered, partially deleting the first
surviving one. -/
def deleteConseq {α : Type} (deleted : Nat) : List (Seq α) → List (Seq α)
  | [] => []
  | s :: rest =>
    if deleted = 0 then s :: rest
    else if s.length < deleted then deleteConseq (deleted - s.length) rest
    else if s.length = deleted then rest
    else s.drop deleted :: rest

/-- `operators.sequence._insert_conseq`: append the ct-sub-sequences of the
inserted tail, fusing the first of them with the cached last sub-sequence
when their timestamps are consecutive.  (The source pops from the cached
list and from the first position of the first new sub-sequence; both are
non-empty whenever the operator protocol reaches this code.) -/
def insertConseq {α : Type} (subs : List (Seq α)) (ins : Seq α) :
    List (Seq α) :=
  if ins.isEmpty then subs
  else
    match ctSubsequences ins, subs.getLast? with
    | [], _ => subs
    | _ :: _, none => ctSubsequences ins
    | n0 :: nrest, some lastS =>
      match n0.head?, lastS.getLast? with
      | some firstNew, some lastOld =>
        if firstNew.ts = lastOld.ts + 1 then
          subs.dropLast ++ [lastS ++ n0] ++ nrest
        else subs.dropLast ++ [lastS] ++ n0 :: nrest
      | _, _ => subs

/-- `operators.sequence._delete_endseq`: when there were deletions, drop the
leading cached sub-sequences longer than `len(sequence) - inserted`. -/
def deleteEndseq {α : Type} (subs : List (Seq α)) (seq : Seq α)
    (deleted inserted : Nat) : List (Seq α) :=
  if deleted = 0 then subs
  else subs.dropWhile fun ss => decide (ss.length > seq.length - inserted)

/-- `operators.sequence._insert_endseq`: append the inserted tail to every
cached sub-sequence and add the suffixes of the inserted tail itself. -/
def insertEndseq {α : Type} (subs : List (Seq α)) (seq : Seq α)
    (inserted : Nat) : List (Seq α) :=
  if inserted = 0 then subs
  else
    let newSeq := pySlice seq (seq.length - inserted) (seq.length + 1)
    subs.map (fun ss => ss ++ newSeq) ++ epSubsequences newSeq

/-! #### Run structure of `ctSubsequences` -/

/-- The timestamps continue from `t`: each next position's timestamp is at
most its predecessor's plus one (the complement of the splitting condition of
the scan). -/
def chainFrom {α : Type} (t : Nat) : Seq α → Prop
  | [] => True
  | p :: l => p.ts ≤ t + 1 ∧ chainFrom p.ts l

/-- The timestamp of the last position, `t` for the empty list. -/
def lastTsOf {α : Type} (t : Nat) (l : Seq α) : Nat :=
  match l.getLast? with
  | some p => p.ts
  | none => t

/-- The maximal run continuing timestamp `t`. -/
def takeRun {α : Type} (t : Nat) : Seq α → Seq α
  | [] => []
  | p :: l => if p.ts > t + 1 then [] else p :: takeRun p.ts l

/-- The rest after the maximal run continuing `t`. -/
def dropRun {α : Type} (t : Nat) : Seq α → Seq α
  | [] => []
  | p :: l => if p.ts > t + 1 then p :: l else dropRun p.ts l

/-- The runs after the first one. -/
def ctRest {α : Type} (t : Nat) (l : Seq α) : List (Seq α) :=
  ctSubsequences (dropRun t l)

theorem takeRun_append_dropRun {α : Type} (t : Nat) (l : Seq α) :
    takeRun t l ++ dropRun t l = l := by
  induction l generalizing t with
  | nil => rfl
  | cons p l ih =>
    by_cases h : p.ts > t + 1 <;> simp [takeRun, dropRun, h, ih]

theorem chainFrom_takeRun {α : Type} (t : Nat) (l : Seq α) :
    chainFrom t (takeRun t l) := by
  induction l generalizing t with
  | nil => trivial
  | cons p l ih =>
    by_cases h : p.ts > t + 1
    · simp [takeRun, h, chainFrom]
    · simp only [takeRun, if_neg h]
      exact ⟨by omega, ih p.ts⟩

theorem lastTsOf_cons {α : Type} (t : Nat) (p : SeqPos α) (l : Seq α) :
    lastTsOf t (p :: l) = lastTsOf p.ts l := by
  cases l with
  | nil => rfl
  | cons q l => simp [lastTsOf, List.getLast?]

theorem ctGo_eq {α : Type} (cur : Seq α) (t : Nat) (l : Seq α) :
    ctGo cur t l = (cur ++ takeRun t l) :: ctRest t l := by
  induction l generalizing cur t with
  | nil => simp [ctGo, takeRun, ctRest, dropRun, ctSubsequences]
  | cons p l ih =>
    by_cases h : p.ts > t + 1
    · simp only [ctGo, if_pos h, takeRun, ctRest, dropRun, List.append_nil]
      rfl
    · simp only [ctGo, if_neg h, takeRun, ctRest, dropRun]
      rw [ih]
      simp [ctRest]

theorem ctSubsequences_cons {α : Type} (p : SeqPos α) (l : Seq α) :
    ctSubsequences (p :: l) = (p :: takeRun p.ts l) :: ctRest p.ts l := by
  show ctGo [p] p.ts l = _
  rw [ctGo_eq]
  rfl

theorem dropRun_head_gt {α : Type} (t : Nat) (l : Seq α) (q : SeqPos α)
    (w : Seq α) (h : dropRun t l = q :: w) :
    q.ts > lastTsOf t (takeRun t l) + 1 := by
  induction l generalizing t with
  | nil => simp [dropRun] at h
  | cons p l ih =>
    by_cases hp : p.ts > t + 1
    · simp only [dropRun, if_pos hp] at h
      injection h with h1 h2
      subst h1
      simpa [takeRun, if_pos hp, lastTsOf] using hp
    · simp only [dropRun, if_neg hp] at h
      have hq := ih p.ts h
      simpa [takeRun, if_neg hp, lastTsOf_cons] using hq

theorem ctGo_chain_append {α : Type} (cur : Seq α) (t : Nat) (u w : Seq α)
    (hu : chainFrom t u) :
    ctGo cur t (u ++ w) = ctGo (cur ++ u) (lastTsOf t u) w := by
  induction u generalizing cur t with
  | nil => simp [lastTsOf]
  | cons p u ih =>
    obtain ⟨hp, hu2⟩ := hu
    have hnot : ¬p.ts > t + 1 := by omega
    simp only [List.cons_append, ctGo, if_neg hnot, List.append_eq]
    rw [ih (cur ++ [p]) p.ts hu2, lastTsOf_cons]
    simp

/-- A non-empty list is internally a run. -/
def runLike {α : Type} : Seq α → Prop
  | [] => True
  | p :: l => chainFrom p.ts l

theorem chainFrom_runLike {α : Type} (t : Nat) (l : Seq α)
    (h : chainFrom t l) : runLike l := by
  cases l with
  | nil => trivial
  | cons p l => exact h.2

theorem chainFrom_drop {α : Type} (t : Nat) (l : Seq α) (d : Nat)
    (h : chainFrom t l) : runLike (l.drop d) := by
  induction l generalizing t d with
  | nil => simp [runLike]
  | cons p l ih =>
    cases d with
    | zero => exact chainFrom_runLike t _ h
    | succ d => exact ih p.ts d h.2

theorem getLast?_drop_eq {α : Type} (l : List α) (d : Nat)
    (h : d < l.length) : (l.drop d).getLast? = l.getLast? := by
  induction l generalizing d with
  | nil => simp at h
  | cons p l ih =>
    cases d with
    | zero => rfl
    | succ d =>
      simp only [List.length_cons, Nat.succ_lt_succ_iff] at h
      rw [List.drop_succ_cons, ih d h]
      cases hl : l with
      | nil => rw [hl] at h; simp at h
      | cons q l2 => simp [List.getLast?]

theorem ctsubs_run_cons_append {α : Type} (u0 : SeqPos α) (u w : Seq α)
    (hrun : chainFrom u0.ts u)
    (hw : ∀ q w2, w = q :: w2 → q.ts > lastTsOf u0.ts u + 1) :
    ctSubsequences ((u0 :: u) ++ w) = (u0 :: u) :: ctSubsequences w := by
  show ctGo [u0] u0.ts (u ++ w) = _
  rw [ctGo_chain_append [u0] u0.ts u w hrun]
  cases w with
  | nil => rfl
  | cons q w2 =>
    have hq := hw q w2 rfl
    simp only [ctGo, if_pos hq]
    rfl

theorem deleteConseq_ctsubs_aux {α : Type} :
    ∀ (n : Nat) (s : Seq α) (d : Nat), s.length ≤ n → d < s.length →
      deleteConseq d (ctSubsequences s) = ctSubsequences (s.drop d) := by
  intro n
  induction n with
  | zero =>
    intro s d hn hd
    omega
  | succ n ih =>
    intro s d hn hd
    cases s with
    | nil => simp at hd
    | cons p l =>
      rw [ctSubsequences_cons]
      by_cases hd0 : d = 0
      · subst hd0
        rw [List.drop_zero, ctSubsequences_cons]
        simp [deleteConseq]
      have hsplit : p :: l = (p :: takeRun p.ts l) ++ dropRun p.ts l := by
        simp [takeRun_append_dropRun]
      have hslen : (p :: l).length =
          (p :: takeRun p.ts l).length + (dropRun p.ts l).length := by
        conv_lhs => rw [hsplit]
        exact List.length_append _ _
      have hr1len : (p :: takeRun p.ts l).length =
          (takeRun p.ts l).length + 1 := by simp
      have hpl : (p :: l).length = l.length + 1 := by simp
      by_cases hlt : d < (p :: takeRun p.ts l).length
      · have h1 : ¬(p :: takeRun p.ts l).length < d := by omega
        have h2 : ¬(p :: takeRun p.ts l).length = d := by omega
        simp only [deleteConseq, if_neg hd0, if_neg h1, if_neg h2]
        have hdrop : (p :: l).drop d =
            (p :: takeRun p.ts l).drop d ++ dropRun p.ts l := by
          conv_lhs => rw [hsplit]
          rw [List.drop_append_of_le_length (by omega)]
        rw [hdrop]
        obtain ⟨u0, u, hu⟩ : ∃ u0 u,
            (p :: takeRun p.ts l).drop d = u0 :: u := by
          cases hg : (p :: takeRun p.ts l).drop d with
          | nil =>
            have hlen := List.length_drop d (p :: takeRun p.ts l)
            rw [hg] at hlen
            simp at hlen
            omega
          | cons u0 u => exact ⟨u0, u, rfl⟩
        rw [hu]
        have hrunfull : chainFrom p.ts (takeRun p.ts l) :=
          chainFrom_takeRun _ _
        have hrundrop : runLike ((p :: takeRun p.ts l).drop d) := by
          cases d with
          | zero =>
            rw [List.drop_zero]
            exact hrunfull
          | succ d2 =>
            rw [List.drop_succ_cons]
            exact chainFrom_drop p.ts (takeRun p.ts l) d2 hrunfull
        rw [hu] at hrundrop
        have hlast : lastTsOf u0.ts u = lastTsOf p.ts (takeRun p.ts l) := by
          have hb1 : lastTsOf u0.ts u = lastTsOf 0 (u0 :: u) :=
            (lastTsOf_cons 0 u0 u).symm
          have hb2 : lastTsOf p.ts (takeRun p.ts l) =
              lastTsOf 0 (p :: takeRun p.ts l) :=
            (lastTsOf_cons 0 p _).symm
          rw [hb1, hb2]
          unfold lastTsOf
          rw [show (u0 :: u).getLast? = (p :: takeRun p.ts l).getLast? from by
            rw [← hu]; exact getLast?_drop_eq _ d hlt]
        rw [ctsubs_run_cons_append u0 u (dropRun p.ts l) hrundrop
          (fun q w2 hqw => by
            have hgt := dropRun_head_gt p.ts l q w2 hqw
            omega)]
        rfl
      · by_cases heq : (p :: takeRun p.ts l).length = d
        · simp only [deleteConseq, if_neg hd0,
            if_neg (by omega : ¬(p :: takeRun p.ts l).length < d), if_pos heq]
          have hdrop : (p :: l).drop d = dropRun p.ts l := by
            conv_lhs => rw [hsplit, ← heq]
            exact List.drop_left _ _
          rw [hdrop]
          rfl
        · have hgt : (p :: takeRun p.ts l).length < d := by omega
          simp only [deleteConseq, if_neg hd0, if_pos hgt]
          show deleteConseq (d - (p :: takeRun p.ts l).length)
              (ctSubsequences (dropRun p.ts l)) = _
          have hlen2 : (dropRun p.ts l).length ≤ n := by
            omega
          have hd2 : d - (p :: takeRun p.ts l).length <
              (dropRun p.ts l).length := by
            omega
          rw [ih (dropRun p.ts l) (d - (p :: takeRun p.ts l).length) hlen2 hd2]
          congr 1
          conv_rhs => rw [hsplit, List.drop_append_eq_append_drop,
            List.drop_eq_nil_of_le
              (by omega : (p :: takeRun p.ts l).length ≤ d)]
          rw [List.nil_append]

theorem insertConseq_cons {α : Type} (s : Seq α) (rest : List (Seq α))
    (ins : Seq α) (hr : rest ≠ []) :
    insertConseq (s :: rest) ins = s :: insertConseq rest ins := by
  obtain ⟨lastS, hlast⟩ : ∃ lastS, rest.getLast? = some lastS := by
    cases hg : rest.getLast? with
    | none => exact absurd (List.getLast?_eq_none_iff.1 hg) hr
    | some x => exact ⟨x, rfl⟩
  obtain ⟨a, b, hab⟩ : ∃ a b, rest = a :: b := by
    cases rest with
    | nil => exact absurd rfl hr
    | cons a b => exact ⟨a, b, rfl⟩
  subst hab
  have hgl : (s :: a :: b).getLast? = some lastS := by
    rw [List.getLast?_cons_cons]
    exact hlast
  unfold insertConseq
  by_cases hie : ins.isEmpty = true
  · rw [if_pos hie, if_pos hie]
  · rw [if_neg hie, if_neg hie]
    cases hcs : ctSubsequences ins with
    | nil => rfl
    | cons n0 nrest =>
      rw [hgl, hlast]
      cases hh : n0.head? with
      | none => simp [hh]
      | some firstNew =>
        cases hl2 : lastS.getLast? with
        | none => simp [hh, hl2]
        | some lastOld =>
          by_cases hf : firstNew.ts = lastOld.ts + 1 <;>
            simp [hh, hl2, hf]

theorem lastTsOf_eq {α : Type} (t : Nat) (l : Seq α) (z : SeqPos α)
    (h : l.getLast? = some z) : lastTsOf t l = z.ts := by
  unfold lastTsOf
  rw [h]

theorem lastTsOf_append {α : Type} (t : Nat) (u v : Seq α) :
    lastTsOf t (u ++ v) = lastTsOf (lastTsOf t u) v := by
  cases hv : v.getLast? with
  | none =>
    rw [List.getLast?_eq_none_iff] at hv
    subst hv
    simp [lastTsOf]
  | some z =>
    have hvne : v ≠ [] := by
      intro h
      subst h
      simp at hv
    unfold lastTsOf
    rw [List.getLast?_append_of_ne_nil _ hvne, hv]

theorem chainFrom_append {α : Type} (t : Nat) (u v : Seq α)
    (hu : chainFrom t u) (hv : chainFrom (lastTsOf t u) v) :
    chainFrom t (u ++ v) := by
  induction u generalizing t with
  | nil => exact hv
  | cons p u ih =>
    rw [lastTsOf_cons] at hv
    exact ⟨hu.1, ih p.ts hu.2 hv⟩

theorem insertConseq_ctsubs_aux {α : Type} :
    ∀ (n : Nat) (m ins : Seq α), m.length ≤ n → m ≠ [] →
      List.Chain' (fun a b : SeqPos α => a.ts < b.ts) (m ++ ins) →
      insertConseq (ctSubsequences m) ins = ctSubsequences (m ++ ins) := by
  intro n
  induction n with
  | zero =>
    intro m ins hn hm hch
    cases m with
    | nil => exact absurd rfl hm
    | cons p l => simp at hn
  | succ n ih =>
    intro m ins hn hm hch
    cases m with
    | nil => exact absurd rfl hm
    | cons p l =>
      rw [ctSubsequences_cons]
      cases hdr : dropRun p.ts l with
      | cons q w =>
        have hrest : ctRest p.ts l = ctSubsequences (q :: w) := by
          unfold ctRest
          rw [hdr]
        have hrne : ctRest p.ts l ≠ [] := by
          rw [hrest, ctSubsequences_cons]
          simp
        rw [insertConseq_cons _ _ ins hrne, hrest]
        have hsplit : p :: l = (p :: takeRun p.ts l) ++ (q :: w) := by
          rw [← hdr]
          simp [takeRun_append_dropRun]
        have hch2 : List.Chain' (fun a b : SeqPos α => a.ts < b.ts)
            ((p :: takeRun p.ts l) ++ ((q :: w) ++ ins)) := by
          rw [← List.append_assoc, ← hsplit]
          exact hch
        have hlen : (q :: w).length ≤ n := by
          have := congrArg List.length hsplit
          simp at this
          have hn2 : (p :: l).length = l.length + 1 := by simp
          have hd : (q :: w).length = w.length + 1 := by simp
          omega
        have hrec := ih (q :: w) ins hlen (by simp)
          ((List.chain'_append.1 hch2).2.1)
        rw [hrec]
        conv_rhs => rw [hsplit, List.append_assoc]
        rw [ctsubs_run_cons_append p (takeRun p.ts l) ((q :: w) ++ ins)
          (chainFrom_takeRun p.ts l)
          (fun q2 w2 hqw => by
            rw [List.cons_append] at hqw
            injection hqw with h1 h2
            subst h1
            exact dropRun_head_gt p.ts l q w hdr)]
      | nil =>
        have htr : takeRun p.ts l = l := by
          have h0 := takeRun_append_dropRun p.ts l
          rw [hdr] at h0
          simpa using h0
        have hr0 : ctRest p.ts l = [] := by
          unfold ctRest
          rw [hdr]
          rfl
        rw [htr, hr0]
        have hrun : chainFrom p.ts l := htr ▸ chainFrom_takeRun p.ts l
        cases ins with
        | nil =>
          rw [List.append_nil, ctSubsequences_cons, htr, hr0]
          rfl
        | cons q ir =>
          obtain ⟨z, hz⟩ : ∃ z, (p :: l).getLast? = some z := by
            cases hg : (p :: l).getLast? with
            | none => simp [List.getLast?_eq_none_iff] at hg
            | some x => exact ⟨x, rfl⟩
          have hzts : lastTsOf p.ts l = z.ts := by
            have := lastTsOf_eq 0 (p :: l) z hz
            rw [lastTsOf_cons] at this
            exact this
          have hqgt : z.ts < q.ts :=
            (List.chain'_append.1 hch).2.2 z hz q rfl
          have hlhs : insertConseq [p :: l] (q :: ir) =
              if q.ts = z.ts + 1 then
                ((p :: l) ++ (q :: takeRun q.ts ir)) :: ctRest q.ts ir
              else (p :: l) :: (q :: takeRun q.ts ir) :: ctRest q.ts ir := by
            unfold insertConseq
            rw [if_neg (by simp : ¬(q :: ir).isEmpty = true),
              ctSubsequences_cons]
            simp only [List.getLast?_singleton, List.head?_cons, hz]
            by_cases hf : q.ts = z.ts + 1 <;> simp [hf]
          rw [hlhs]
          by_cases hf : q.ts = z.ts + 1
          · rw [if_pos hf]
            have hins : (q :: ir) =
                (q :: takeRun q.ts ir) ++ dropRun q.ts ir := by
              simp [takeRun_append_dropRun]
            conv_rhs => rw [hins, ← List.append_assoc]
            have hcomb : (p :: l) ++ (q :: takeRun q.ts ir) =
                p :: (l ++ (q :: takeRun q.ts ir)) := by
              simp
            rw [hcomb]
            rw [ctsubs_run_cons_append p (l ++ (q :: takeRun q.ts ir))
              (dropRun q.ts ir)
              (chainFrom_append p.ts l _ hrun
                ⟨by omega, chainFrom_takeRun q.ts ir⟩)
              (fun q2 w2 hqw => by
                have hgt := dropRun_head_gt q.ts ir q2 w2 hqw
                rw [lastTsOf_append, lastTsOf_cons]
                omega)]
            rw [← hcomb]
            rfl
          · rw [if_neg hf]
            rw [ctsubs_run_cons_append p l (q :: ir) hrun
              (fun q2 w2 hqw => by
                injection hqw with h1 h2
                subst h1
                omega)]
            rw [ctSubsequences_cons]

theorem pySlice_full {α : Type} (s : Seq α) (pos : Nat) :
    pySlice s pos (s.length + 1) = s.drop pos := by
  unfold pySlice
  rw [List.take_of_length_le (by omega)]

theorem epSubsequences_eq_suffixes {α : Type} (s : Seq α) :
    epSubsequences s = (List.range s.length).map (fun pos => s.drop pos) := by
  unfold epSubsequences
  exact List.map_congr_left (fun i _ => pySlice_full s i)

theorem dropWhile_append_of_all {α : Type} (p : α → Bool) (l1 l2 : List α)
    (h : ∀ x ∈ l1, p x = true) :
    List.dropWhile p (l1 ++ l2) = List.dropWhile p l2 := by
  induction l1 with
  | nil => rfl
  | cons a t ih =>
    rw [List.cons_append, List.dropWhile_cons_of_pos (h a (by simp)),
      ih (fun x hx => h x (by simp [hx]))]

theorem deleteEndseq_correct {α : Type} (d mid ins : Seq α) :
    deleteEndseq (epSubsequences (d ++ mid)) (mid ++ ins) d.length ins.length
      = epSubsequences mid := by
  unfold deleteEndseq
  by_cases hd : d.length = 0
  · rw [if_pos hd]
    rw [List.length_eq_zero] at hd
    subst hd
    rw [List.nil_append]
  · rw [if_neg hd]
    have hmax : (mid ++ ins).length - ins.length = mid.length := by simp
    have hlen : (d ++ mid).length = d.length + mid.length := by simp
    rw [epSubsequences_eq_suffixes, hlen, List.range_add, List.map_append,
      hmax]
    rw [dropWhile_append_of_all _ _ _ (by
      intro x hx
      simp only [List.mem_map, List.mem_range] at hx
      obtain ⟨i, hi, rfl⟩ := hx
      apply decide_eq_true
      rw [List.length_drop, hlen]
      omega)]
    have hmap2 : (List.range mid.length).map
        ((fun pos => (d ++ mid).drop pos) ∘ (fun i => d.length + i)) =
        (List.range mid.length).map (fun j => mid.drop j) := by
      apply List.map_congr_left
      intro j hj
      show (d ++ mid).drop (d.length + j) = mid.drop j
      rw [List.drop_append_eq_append_drop,
        List.drop_eq_nil_of_le (by omega), List.nil_append,
        Nat.add_sub_cancel_left]
    rw [List.map_map] at *
    rw [hmap2]
    cases hm : mid with
    | nil => rfl
    | cons m0 mr =>
      rw [show (m0 :: mr).length = mr.length + 1 from by simp,
        List.range_succ_eq_map, List.map_cons]
      rw [List.dropWhile_cons_of_neg (by simp)]
      rw [epSubsequences_eq_suffixes]
      rw [show (m0 :: mr).length = mr.length + 1 from by simp,
        List.range_succ_eq_map, List.map_cons, List.map_map]

theorem insertEndseq_correct {α : Type} (mid ins : Seq α) :
    insertEndseq (epSubsequences mid) (mid ++ ins) ins.length
      = epSubsequences (mid ++ ins) := by
  unfold insertEndseq
  by_cases hi : ins.length = 0
  · rw [if_pos hi]
    rw [List.length_eq_zero] at hi
    subst hi
    rw [List.append_nil]
  · rw [if_neg hi]
    have hstart : (mid ++ ins).length - ins.length = mid.length := by simp
    have hnew : pySlice (mid ++ ins) ((mid ++ ins).length - ins.length)
        ((mid ++ ins).length + 1) = ins := by
      rw [pySlice_full, hstart, List.drop_left]
    show (epSubsequences mid).map
        (fun ss => ss ++ pySlice (mid ++ ins)
          ((mid ++ ins).length - ins.length) ((mid ++ ins).length + 1)) ++
        epSubsequences (pySlice (mid ++ ins)
          ((mid ++ ins).length - ins.length) ((mid ++ ins).length + 1)) =
      epSubsequences (mid ++ ins)
    rw [hnew]
    have hlen : (mid ++ ins).length = mid.length + ins.length := by simp
    conv_rhs => rw [epSubsequences_eq_suffixes, hlen, List.range_add,
      List.map_append]
    congr 1
    · rw [epSubsequences_eq_suffixes, List.map_map]
      apply List.map_congr_left
      intro i hi2
      rw [List.mem_range] at hi2
      show mid.drop i ++ ins = (mid ++ ins).drop i
      rw [List.drop_append_of_le_length (by omega)]
    · rw [epSubsequences_eq_suffixes, List.map_map]
      apply List.map_congr_left
      intro j hj
      rw [List.mem_range] at hj
      show ins.drop j = (mid ++ ins).drop (mid.length + j)
      symm
      rw [List.drop_append_eq_append_drop,
        List.drop_eq_nil_of_le (by omega), List.nil_append,
        Nat.add_sub_cancel_left]

/-- C5: on a tick where the stored sequence goes from `d ++ mid` (the `d`
front positions expire) to `mid ++ ins` (the `ins` positions are appended),
with the kept part non-empty and strictly increasing timestamps, the
incremental CONSEQ update (`_delete_conseq` then `_insert_conseq` on the
cached list) yields exactly the naive `get_ctsubsequences` of the new
sequence, and the incremental ENDSEQ update (`_delete_endseq` then
`_insert_endseq`) yields exactly the naive `get_ep_subsequences`. -/
theorem C5_subseq_incremental_equals_naive {α : Type} (d mid ins : Seq α)
    (hmid : mid ≠ [])
    (hchain : List.Chain' (fun a b : SeqPos α => a.ts < b.ts) (mid ++ ins)) :
    insertConseq (deleteConseq d.length (ctSubsequences (d ++ mid))) ins =
      ctSubsequences (mid ++ ins) ∧
    insertEndseq (deleteEndseq (epSubsequences (d ++ mid)) (mid ++ ins)
        d.length ins.length) (mid ++ ins) ins.length =
      epSubsequences (mid ++ ins) := by
  constructor
  · have hdel : deleteConseq d.length (ctSubsequences (d ++ mid)) =
        ctSubsequences ((d ++ mid).drop d.length) := by
      apply deleteConseq_ctsubs_aux (d ++ mid).length _ _ le_rfl
      cases mid with
      | nil => exact absurd rfl hmid
      | cons a b => simp
    rw [hdel, List.drop_left]
    exact insertConseq_ctsubs_aux mid.length mid ins le_rfl hmid hchain
  · rw [deleteEndseq_correct, insertEndseq_correct]

theorem C5_subseq_incremental_equals_naive_witness :
    ([⟨(1 : Int), 1⟩, ⟨2, 3⟩] : Seq Int) ≠ [] ∧
    List.Chain' (fun a b : SeqPos Int => a.ts < b.ts)
      (([⟨(1 : Int), 1⟩, ⟨2, 3⟩] : Seq Int) ++ [⟨3, 4⟩, ⟨4, 7⟩]) ∧
    (insertConseq
        (deleteConseq ([⟨((0 : Int)), 0⟩] : Seq Int).length
          (ctSubsequences (([⟨(0 : Int), 0⟩] : Seq Int) ++
            [⟨1, 1⟩, ⟨2, 3⟩]))) [⟨3, 4⟩, ⟨4, 7⟩] =
      ctSubsequences (([⟨(1 : Int), 1⟩, ⟨2, 3⟩] : Seq Int) ++
        [⟨3, 4⟩, ⟨4, 7⟩]) ∧
    insertEndseq
        (deleteEndseq
          (epSubsequences (([⟨(0 : Int), 0⟩] : Seq Int) ++ [⟨1, 1⟩, ⟨2, 3⟩]))
          (([⟨(1 : Int), 1⟩, ⟨2, 3⟩] : Seq Int) ++ [⟨3, 4⟩, ⟨4, 7⟩])
          ([⟨(0 : Int), 0⟩] : Seq Int).length
          ([⟨(3 : Int), 4⟩, ⟨4, 7⟩] : Seq Int).length)
        (([⟨(1 : Int), 1⟩, ⟨2, 3⟩] : Seq Int) ++ [⟨3, 4⟩, ⟨4, 7⟩])
        ([⟨(3 : Int), 4⟩, ⟨4, 7⟩] : Seq Int).length =
      epSubsequences (([⟨(1 : Int), 1⟩, ⟨2, 3⟩] : Seq Int) ++
        [⟨3, 4⟩, ⟨4, 7⟩])) :=
  ⟨by decide, by simp [List.chain'_cons],
    C5_subseq_incremental_equals_naive [⟨0, 0⟩] [⟨1, 1⟩, ⟨2, 3⟩]
      [⟨3, 4⟩, ⟨4, 7⟩] (by decide) (by simp [List.chain'_cons])⟩

/-- C8: `get_ep_subsequences` of a sequence of length `n` is exactly the
list of its `n` non-empty suffixes `s.drop 0, …, s.drop (n-1)`, each a
suffix of `s`, ordered by strictly decreasing length; and the incremental
variant (`_delete_endseq` then `_insert_endseq`) produces the same list on
every tick. -/
theorem C8_endseq_suffixes {α : Type} (s d mid ins : Seq α) :
    epSubsequences s = (List.range s.length).map (fun pos => s.drop pos) ∧
    (epSubsequences s).length = s.length ∧
    (∀ t ∈ epSubsequences s, t <:+ s) ∧
    List.Chain' (fun t u : Seq α => u.length < t.length)
      (epSubsequences s) ∧
    insertEndseq (deleteEndseq (epSubsequences (d ++ mid)) (mid ++ ins)
        d.length ins.length) (mid ++ ins) ins.length =
      epSubsequences (mid ++ ins) := by
  refine ⟨epSubsequences_eq_suffixes s, ?_, ?_, ?_, ?_⟩
  · simp [epSubsequences_eq_suffixes]
  · intro t ht
    rw [epSubsequences_eq_suffixes] at ht
    simp only [List.mem_map, List.mem_range] at ht
    obtain ⟨i, hi, rfl⟩ := ht
    exact List.drop_suffix i s
  · rw [epSubsequences_eq_suffixes, List.chain'_map]
    cases hn : s.length with
    | zero => simp
    | succ n =>
      rw [List.chain'_range_succ]
      intro m hm
      rw [List.length_drop, List.length_drop]
      omega
  · rw [deleteEndseq_correct, insertEndseq_correct]

/-! ### C10: the base `Hierarchy` of `updatedata.py` -/

/-- State of the base `Hierarchy` class (`updatedata.py`), generic in the
record type `R` (Python stores `tuple(record.items())` as dict keys; the
hierarchy logic never inspects record contents). Counts are integers as in
Python. -/
structure HState (R : Type) where
  currentId : Nat
  idDict : List (Nat × R)
  tupleIdDict : List (R × Nat)
  countDict : List (Nat × Int)
  bestSet : List Nat
deriving DecidableEq, Repr

/-- The freshly constructed hierarchy (`Hierarchy.__init__`). -/
def hInit (R : Type) : HState R :=
  ⟨1, [], [], [], []⟩

variable {R : Type} [DecidableEq R]

/-- `Hierarchy._clean`; a missing key raises `KeyError`, modelled by
`none`. -/
def hClean (st : HState R) (delId : Nat) : Option (HState R) :=
  match lookupA st.idDict delId with
  | none => none
  | some delTup =>
    if memA st.tupleIdDict delTup then
      if memA st.countDict delId then
        some { st with
          idDict := recErase st.idDict delId,
          tupleIdDict := recErase st.tupleIdDict delTup,
          countDict := recErase st.countDict delId }
      else none
    else none

/-- `Hierarchy._add` (returns the id of the record). -/
def hAdd (st : HState R) (r : R) : Option (HState R × Nat) :=
  match lookupA st.tupleIdDict r with
  | some newId =>
    match lookupA st.countDict newId with
    | none => none
    | some c =>
      some ({ st with countDict := recSet st.countDict newId (c + 1) },
        newId)
  | none =>
    some ({ st with
      tupleIdDict := recSet st.tupleIdDict r st.currentId,
      idDict := recSet st.idDict st.currentId r,
      countDict := recSet st.countDict st.currentId 1,
      currentId := st.currentId + 1 }, st.currentId)

/-- `Hierarchy._delete` (returns the id of the deleted record). -/
def hDelete (st : HState R) (r : R) : Option (HState R × Nat) :=
  match lookupA st.tupleIdDict r with
  | none => none
  | some delId =>
    match lookupA st.countDict delId with
    | none => none
    | some c =>
      let st1 : HState R :=
        { st with countDict := recSet st.countDict delId (c - 1) }
      if c - 1 = 0 then
        match hClean st1 delId with
        | none => none
        | some st2 =>
          some ({ st2 with bestSet := st2.bestSet.filter (· ≠ delId) },
            delId)
      else some (st1, delId)

/-- `Hierarchy._delete_list`. -/
def hDeleteList (st : HState R) : List R → Option (HState R)
  | [] => some st
  | r :: t =>
    match hDelete st r with
    | none => none
    | some (st2, _) => hDeleteList st2 t

/-- `Hierarchy._add_list`. -/
def hAddList (st : HState R) : List R → Option (HState R)
  | [] => some st
  | r :: t =>
    match hAdd st r with
    | none => none
    | some (st2, _) => hAddList st2 t

/-- `Hierarchy.update`. -/
def hUpdate (st : HState R) (deleteList insertList : List R) :
    Option (HState R) :=
  match hDeleteList st deleteList with
  | none => none
  | some st2 => hAddList st2 insertList

/-- The state invariant of the base `Hierarchy`: the two dictionaries are
mutually inverse over the stored ids, stored counts are at least 1, an id
has a count exactly when it is stored, the best set holds only stored ids,
and every stored id is below the id counter. -/
def hInv (st : HState R) : Prop :=
  (∀ i r, lookupA st.idDict i = some r →
    lookupA st.tupleIdDict r = some i) ∧
  (∀ r i, lookupA st.tupleIdDict r = some i →
    lookupA st.idDict i = some r) ∧
  (∀ i c, lookupA st.countDict i = some c → 1 ≤ c) ∧
  (∀ i, (lookupA st.idDict i).isSome = (lookupA st.countDict i).isSome) ∧
  (∀ i ∈ st.bestSet, (lookupA st.idDict i).isSome = true) ∧
  (∀ i, (lookupA st.idDict i).isSome = true → i < st.currentId)

theorem hInv_hInit (R : Type) [DecidableEq R] : hInv (hInit R) := by
  refine ⟨?_, ?_, ?_, ?_, ?_, ?_⟩ <;> simp [hInit, lookupA]

theorem hAdd_inv (st : HState R) (r : R) (st2 : HState R) (i : Nat)
    (hi : hInv st) (h : hAdd st r = some (st2, i)) : hInv st2 := by
  obtain ⟨h1, h2, h3, h4, h5, h6⟩ := hi
  unfold hAdd at h
  cases ht : lookupA st.tupleIdDict r with
  | some newId =>
    simp only [ht] at h
    cases hc : lookupA st.countDict newId with
    | none => simp [hc] at h
    | some c =>
      simp only [hc] at h
      injection h with h
      injection h with hst hid
      subst hst
      refine ⟨h1, h2, ?_, ?_, h5, h6⟩
      · intro j cj hcj
        simp only [lookupA_recSet] at hcj
        by_cases hj : j = newId
        · rw [if_pos hj] at hcj
          injection hcj with hcj
          have := h3 newId c hc
          omega
        · rw [if_neg hj] at hcj
          exact h3 j cj hcj
      · intro j
        simp only [lookupA_recSet]
        by_cases hj : j = newId
        · rw [if_pos hj, hj]
          rw [h2 r newId ht]
          rfl
        · rw [if_neg hj]
          exact h4 j
  | none =>
    simp only [ht] at h
    injection h with h
    injection h with hst hid
    subst hst
    refine ⟨?_, ?_, ?_, ?_, ?_, ?_⟩
    · intro j rj hj
      simp only [lookupA_recSet] at hj ⊢
      by_cases hjc : j = st.currentId
      · rw [if_pos hjc] at hj
        injection hj with hj
        subst hj
        rw [if_pos rfl, hjc]
      · rw [if_neg hjc] at hj
        by_cases hrr : rj = r
        · subst hrr
          rw [h1 j rj hj] at ht
          exact absurd ht (by simp)
        · rw [if_neg hrr]
          exact h1 j rj hj
    · intro rj j hj
      simp only [lookupA_recSet] at hj ⊢
      by_cases hrr : rj = r
      · rw [if_pos hrr] at hj
        injection hj with hj
        subst hj
        rw [if_pos rfl, hrr]
      · rw [if_neg hrr] at hj
        have hlook := h2 rj j hj
        have hlt : j < st.currentId := h6 j (by rw [hlook]; rfl)
        rw [if_neg (by omega)]
        exact hlook
    · intro j cj hcj
      simp only [lookupA_recSet] at hcj
      by_cases hj : j = st.currentId
      · rw [if_pos hj] at hcj
        injection hcj with hcj
        omega
      · rw [if_neg hj] at hcj
        exact h3 j cj hcj
    · intro j
      simp only [lookupA_recSet]
      by_cases hj : j = st.currentId
      · rw [if_pos hj, if_pos hj]
        rfl
      · rw [if_neg hj, if_neg hj]
        exact h4 j
    · intro j hjmem
      simp only [lookupA_recSet]
      by_cases hj : j = st.currentId
      · rw [if_pos hj]
        rfl
      · rw [if_neg hj]
        exact h5 j hjmem
    · intro j hj
      show j < st.currentId + 1
      simp only [lookupA_recSet] at hj
      by_cases hjc : j = st.currentId
      · omega
      · rw [if_neg hjc] at hj
        have := h6 j hj
        omega

theorem hDelete_inv (st : HState R) (r : R) (st2 : HState R) (i : Nat)
    (hi : hInv st) (h : hDelete st r = some (st2, i)) : hInv st2 := by
  obtain ⟨h1, h2, h3, h4, h5, h6⟩ := hi
  unfold hDelete at h
  cases ht : lookupA st.tupleIdDict r with
  | none => simp [ht] at h
  | some delId =>
    simp only [ht] at h
    cases hc : lookupA st.countDict delId with
    | none => simp [hc] at h
    | some c =>
      simp only [hc] at h
      by_cases hz : c - 1 = 0
      · rw [if_pos hz] at h
        cases hcl : hClean
            { st with countDict := recSet st.countDict delId (c - 1) }
            delId with
        | none => simp [hcl] at h
        | some st3 =>
          simp only [hcl] at h
          injection h with h
          injection h with hst hid
          subst hst
          unfold hClean at hcl
          cases hlt : lookupA st.idDict delId with
          | none => simp [hlt] at hcl
          | some delTup =>
            simp only [hlt] at hcl
            by_cases hm1 : memA st.tupleIdDict delTup = true
            · rw [if_pos hm1] at hcl
              by_cases hm2 :
                  memA (recSet st.countDict delId (c - 1)) delId = true
              · rw [if_pos hm2] at hcl
                injection hcl with hcl
                subst hcl
                refine ⟨?_, ?_, ?_, ?_, ?_, ?_⟩
                · intro j rj hj
                  simp only [lookupA_recErase] at hj ⊢
                  by_cases hjd : j = delId
                  · rw [if_pos hjd] at hj
                    exact absurd hj (by simp)
                  · rw [if_neg hjd] at hj
                    by_cases hrt : rj = delTup
                    · exfalso
                      rw [hrt] at hj
                      have h0 := h1 j delTup hj
                      rw [h1 delId delTup hlt] at h0
                      injection h0 with h0
                      exact hjd h0.symm
                    · rw [if_neg hrt]
                      exact h1 j rj hj
                · intro rj j hj
                  simp only [lookupA_recErase] at hj ⊢
                  by_cases hrt : rj = delTup
                  · rw [if_pos hrt] at hj
                    exact absurd hj (by simp)
                  · rw [if_neg hrt] at hj
                    have hjd : ¬j = delId := by
                      intro hjd
                      subst hjd
                      rw [h2 rj j hj] at hlt
                      injection hlt with hlt
                      exact hrt hlt
                    rw [if_neg hjd]
                    exact h2 rj j hj
                · intro j cj hcj
                  simp only [lookupA_recErase, lookupA_recSet] at hcj
                  by_cases hjd : j = delId
                  · rw [if_pos hjd] at hcj
                    exact absurd hcj (by simp)
                  · rw [if_neg hjd, if_neg hjd] at hcj
                    exact h3 j cj hcj
                · intro j
                  simp only [lookupA_recErase, lookupA_recSet]
                  by_cases hjd : j = delId
                  · rw [if_pos hjd, if_pos hjd]
                    rfl
                  · rw [if_neg hjd, if_neg hjd, if_neg hjd]
                    exact h4 j
                · intro j hjmem
                  simp only [List.mem_filter] at hjmem
                  obtain ⟨hjmem, hjne⟩ := hjmem
                  simp only [lookupA_recErase]
                  have hjd : ¬j = delId := by
                    simpa using hjne
                  rw [if_neg hjd]
                  exact h5 j hjmem
                · intro j hj
                  simp only [lookupA_recErase] at hj
                  by_cases hjd : j = delId
                  · rw [if_pos hjd] at hj
                    simp at hj
                  · rw [if_neg hjd] at hj
                    exact h6 j hj
              · rw [if_neg hm2] at hcl
                simp at hcl
            · rw [if_neg hm1] at hcl
              simp at hcl
      · rw [if_neg hz] at h
        injection h with h
        injection h with hst hid
        subst hst
        refine ⟨h1, h2, ?_, ?_, h5, h6⟩
        · intro j cj hcj
          simp only [lookupA_recSet] at hcj
          by_cases hjd : j = delId
          · rw [if_pos hjd] at hcj
            injection hcj with hcj
            have := h3 delId c hc
            omega
          · rw [if_neg hjd] at hcj
            exact h3 j cj hcj
        · intro j
          simp only [lookupA_recSet]
          by_cases hjd : j = delId
          · rw [if_pos hjd, hjd]
            rw [h2 r delId ht]
            rfl
          · rw [if_neg hjd]
            exact h4 j

theorem hDeleteList_inv (l : List R) : ∀ (st st2 : HState R),
    hInv st → hDeleteList st l = some st2 → hInv st2 := by
  induction l with
  | nil =>
    intro st st2 hi h
    injection h with h
    subst h
    exact hi
  | cons r t ih =>
    intro st st2 hi h
    unfold hDeleteList at h
    cases hd : hDelete st r with
    | none => simp [hd] at h
    | some p =>
      simp only [hd] at h
      exact ih p.1 st2 (hDelete_inv st r p.1 p.2 (hi)
        (by rw [hd])) h

theorem hAddList_inv (l : List R) : ∀ (st st2 : HState R),
    hInv st → hAddList st l = some st2 → hInv st2 := by
  induction l with
  | nil =>
    intro st st2 hi h
    injection h with h
    subst h
    exact hi
  | cons r t ih =>
    intro st st2 hi h
    unfold hAddList at h
    cases hd : hAdd st r with
    | none => simp [hd] at h
    | some p =>
      simp only [hd] at h
      exact ih p.1 st2 (hAdd_inv st r p.1 p.2 (hi)
        (by rw [hd])) h

theorem lookupA_mem {α β : Type} [DecidableEq α] (d : List (α × β))
    (a : α) (b : β) (h : lookupA d a = some b) : (a, b) ∈ d := by
  induction d with
  | nil => simp [lookupA] at h
  | cons kv t ih =>
    obtain ⟨k, v⟩ := kv
    by_cases hk : k = a
    · subst hk
      rw [show lookupA ((k, v) :: t) k = some v from by simp [lookupA]] at h
      injection h with h
      subst h
      simp
    · rw [show lookupA ((k, v) :: t) a = lookupA t a from by
        simp [lookupA, hk]] at h
      exact List.mem_cons_of_mem _ (ih h)

/-- C10: the base `Hierarchy` state invariant holds initially and is
preserved by every successful `update(delete_list, insert_list)` call (a
call succeeds exactly when every deleted record is currently stored, i.e.
the Python code raises no `KeyError`). -/
theorem C10_hierarchy_invariant {R : Type} [DecidableEq R]
    (st st2 : HState R) (deleteList insertList : List R)
    (hi : hInv st) (h : hUpdate st deleteList insertList = some st2) :
    hInv (hInit R) ∧ hInv st2 := by
  refine ⟨hInv_hInit R, ?_⟩
  unfold hUpdate at h
  cases hd : hDeleteList st deleteList with
  | none => simp [hd] at h
  | some st3 =>
    simp only [hd] at h
    exact hAddList_inv insertList st3 st2
      (hDeleteList_inv deleteList st st3 hi hd) h

theorem hInv_c10_state : hInv
    (⟨3, [(1, (5 : Int)), (2, 7)], [((5 : Int), 1), (7, 2)],
      [(1, 2), (2, 1)], []⟩ : HState Int) := by
  refine ⟨?_, ?_, ?_, ?_, ?_, ?_⟩
  · intro i r h
    have hm := lookupA_mem _ _ _ h
    simp only [List.mem_cons, List.not_mem_nil, or_false,
      Prod.mk.injEq] at hm
    rcases hm with ⟨hi, hr⟩ | ⟨hi, hr⟩ <;> subst hi <;> subst hr <;> rfl
  · intro r i h
    have hm := lookupA_mem _ _ _ h
    simp only [List.mem_cons, List.not_mem_nil, or_false,
      Prod.mk.injEq] at hm
    rcases hm with ⟨hr, hi⟩ | ⟨hr, hi⟩ <;> subst hi <;> subst hr <;> rfl
  · intro i c h
    have hm := lookupA_mem _ _ _ h
    simp only [List.mem_cons, List.not_mem_nil, or_false,
      Prod.mk.injEq] at hm
    rcases hm with ⟨hi, hc⟩ | ⟨hi, hc⟩ <;> subst hc <;> omega
  · intro i
    simp only [lookupA]
    split_ifs <;> rfl
  · intro i hmem
    simp at hmem
  · intro i h
    simp only [lookupA] at h
    split_ifs at h with h1 h2
    · rw [← h1]
      decide
    · rw [← h2]
      decide
    · simp at h

/-- C10 witness: a concrete successful update on a concrete invariant
state. -/
theorem C10_hierarchy_invariant_witness :
    hInv (⟨3, [(1, (5 : Int)), (2, 7)], [((5 : Int), 1), (7, 2)],
      [(1, 2), (2, 1)], []⟩ : HState Int) ∧
    hUpdate (⟨3, [(1, (5 : Int)), (2, 7)], [((5 : Int), 1), (7, 2)],
        [(1, 2), (2, 1)], []⟩ : HState Int) [5, 7] [9] =
      some (⟨4, [(1, 5), (3, 9)], [(5, 1), (9, 3)],
        [(1, 1), (3, 1)], []⟩ : HState Int) ∧
    (hInv (hInit Int) ∧
      hInv (⟨4, [(1, (5 : Int)), (3, 9)], [((5 : Int), 1), (9, 3)],
        [(1, 1), (3, 1)], []⟩ : HState Int)) :=
  ⟨hInv_c10_state, by decide,
    C10_hierarchy_invariant _ _ [5, 7] [9] hInv_c10_state (by decide)⟩


/-! ### C4: the three incremental hierarchies of `updatedata.py` -/

/-- Ascending insertion keeping the list duplicate-free (canonical model of a
Python set of small integers, whose iteration order is ascending). -/
def insertAsc (a : Nat) : List Nat → List Nat
  | [] => [a]
  | b :: t =>
    if a < b then a :: b :: t
    else if a = b then b :: t
    else b :: insertAsc a t

/-- Canonical set-of-naturals from a list. -/
def toSetList (l : List Nat) : List Nat :=
  l.foldl (fun acc a => insertAsc a acc) []

/-- `updatedata.get_partition_id`: the record projected onto its attributes
outside the indifferent set (ascending attribute order models the Python
tuple of dict items). -/
def getPartitionId (record : Rec V) (compId : Nat) (comp : Comparison V) :
    Nat × Rec V :=
  (compId + 1,
    ((toSetList (keysA record)).filter fun a =>
      !decide (a ∈ comp.indiff)).filterMap fun a =>
        (lookupA record a).map fun v => (a, v))

/-- `updatedata.dec_count_dict` (with the default decrement 1; the entry is
dropped at zero). -/
def decCountDict {K : Type} [DecidableEq K] (d : List (K × Int)) (k : K) :
    List (K × Int) :=
  match lookupA d k with
  | some c => if c - 1 ≤ 0 then recErase d k else recSet d k (c - 1)
  | none => d

/-- Python `set.add` on the canonical ascending list model. -/
def bestAdd (l : List Nat) (a : Nat) : List Nat :=
  insertAsc a l

/-- State of `HierarchyGraph` on top of the base `Hierarchy` state. -/
structure HGState (V : Type) where
  base : HState (Rec V)
  successorsDict : List (Nat × List Nat)
  ancestorsDict : List (Nat × List Nat)
deriving DecidableEq, Repr

/-- `HierarchyGraph._add_edge`. -/
def hgAddEdge (st : HGState V) (fromId toId : Nat) : HGState V :=
  { st with
    ancestorsDict :=
      match lookupA st.ancestorsDict toId with
      | none => st.ancestorsDict ++ [(toId, [fromId])]
      | some l => recSet st.ancestorsDict toId (l ++ [fromId]),
    successorsDict :=
      match lookupA st.successorsDict fromId with
      | none => st.successorsDict ++ [(fromId, [toId])]
      | some l => recSet st.successorsDict fromId (l ++ [toId]) }

/-- The comparison loop of `HierarchyGraph._add` (the edge insertion leaves
the base state unchanged, so the membership test on the best set reads the
incoming base state). -/
def hgAddLoop (th : CPTheory V) (record : Rec V) (newId : Nat) :
    List (Nat × Rec V) → HGState V × Bool → HGState V × Bool
  | [], acc => acc
  | (otherId, otherRec) :: rest, (st, dominated) =>
    if th.dominates record otherRec then
      hgAddLoop th record newId rest
        (if decide (otherId ∈ st.base.bestSet) then
          { hgAddEdge st newId otherId with
            base := { st.base with
              bestSet := st.base.bestSet.filter (· ≠ otherId) } }
        else hgAddEdge st newId otherId, dominated)
    else if th.dominates otherRec record then
      hgAddLoop th record newId rest (hgAddEdge st otherId newId, true)
    else hgAddLoop th record newId rest (st, dominated)

/-- `HierarchyGraph._add`. -/
def hgAdd (th : CPTheory V) (st : HGState V) (record : Rec V) :
    Option (HGState V) :=
  match hAdd st.base record with
  | none => none
  | some (base2, newId) =>
    if lookupA base2.countDict newId = some 1 then
      if !(hgAddLoop th record newId base2.idDict
          ({ st with base := base2 }, false)).2 then
        some { (hgAddLoop th record newId base2.idDict
            ({ st with base := base2 }, false)).1 with
          base := { (hgAddLoop th record newId base2.idDict
              ({ st with base := base2 }, false)).1.base with
            bestSet := bestAdd (hgAddLoop th record newId base2.idDict
              ({ st with base := base2 }, false)).1.base.bestSet newId } }
      else some (hgAddLoop th record newId base2.idDict
        ({ st with base := base2 }, false)).1
    else some { st with base := base2 }

/-- Insert-only `HierarchyGraph.update` (empty delete list). -/
def hgAddList (th : CPTheory V) (st : HGState V) :
    List (Rec V) → Option (HGState V)
  | [] => some st
  | r :: t =>
    match hgAdd th st r with
    | none => none
    | some st2 => hgAddList th st2 t


theorem mem_insertAsc (a b : Nat) (l : List Nat) :
    b ∈ insertAsc a l ↔ b = a ∨ b ∈ l := by
  induction l with
  | nil => simp [insertAsc]
  | cons c t ih =>
    unfold insertAsc
    by_cases h1 : a < c
    · rw [if_pos h1]
      simp [or_comm, List.mem_cons]
    · rw [if_neg h1]
      by_cases h2 : a = c
      · rw [if_pos h2]
        subst h2
        simp [List.mem_cons]
      · rw [if_neg h2]
        simp only [List.mem_cons, ih]
        tauto

theorem lookupA_eq_some_of_mem_nodup {α β : Type} [DecidableEq α]
    (l : List (α × β)) (hnd : (l.map Prod.fst).Nodup) (a : α) (b : β)
    (h : (a, b) ∈ l) : lookupA l a = some b := by
  induction l with
  | nil => simp at h
  | cons kv t ih =>
    obtain ⟨k, v⟩ := kv
    rw [List.map_cons, List.nodup_cons] at hnd
    rcases List.mem_cons.1 h with heq | hmem
    · injection heq with h1 h2
      subst h1
      subst h2
      simp [lookupA]
    · have hka : k ≠ a := by
        intro hk
        subst hk
        exact hnd.1 (List.mem_map.2 ⟨(k, b), hmem, rfl⟩)
      rw [show lookupA ((k, v) :: t) a = lookupA t a from by
        simp [lookupA, hka]]
      exact ih hnd.2 hmem

theorem recSet_append_of_not_mem {α β : Type} [DecidableEq α]
    (l : List (α × β)) (a : α) (v : β) (h : memA l a = false) :
    recSet l a v = l ++ [(a, v)] := by
  unfold recSet
  rw [h]
  rfl

/-- `Hierarchy._add` either bumps the count of an already stored record or
appends a fresh one with the current id. -/
theorem hAdd_cases {R : Type} [DecidableEq R] (st : HState R) (r : R)
    (st2 : HState R) (i : Nat) (h : hAdd st r = some (st2, i)) :
    (∃ c, lookupA st.tupleIdDict r = some i ∧
      lookupA st.countDict i = some c ∧
      st2 = { st with countDict := recSet st.countDict i (c + 1) }) ∨
    (lookupA st.tupleIdDict r = none ∧ i = st.currentId ∧
      st2 = { st with
        tupleIdDict := recSet st.tupleIdDict r st.currentId
        idDict := recSet st.idDict st.currentId r
        countDict := recSet st.countDict st.currentId 1
        currentId := st.currentId + 1 }) := by
  unfold hAdd at h
  cases ht : lookupA st.tupleIdDict r with
  | some newId =>
    simp only [ht] at h
    cases hc : lookupA st.countDict newId with
    | none => simp [hc] at h
    | some c =>
      simp only [hc] at h
      injection h with h
      injection h with h1 h2
      subst h2
      exact Or.inl ⟨c, rfl, hc, h1.symm⟩
  | none =>
    simp only [ht] at h
    injection h with h
    injection h with h1 h2
    subst h2
    exact Or.inr ⟨rfl, rfl, h1.symm⟩

/-- Keys of the id dictionary stay duplicate-free through `_add`. -/
theorem hAdd_keysNodup {R : Type} [DecidableEq R] (st : HState R) (r : R)
    (st2 : HState R) (i : Nat) (hi : hInv st)
    (hnd : (st.idDict.map Prod.fst).Nodup)
    (h : hAdd st r = some (st2, i)) :
    (st2.idDict.map Prod.fst).Nodup := by
  rcases hAdd_cases st r st2 i h with ⟨c, _, _, hst⟩ | ⟨_, _, hst⟩
  · rw [hst]
    exact hnd
  · rw [hst]
    have hfresh : memA st.idDict st.currentId = false := by
      cases hm : memA st.idDict st.currentId
      · rfl
      · exfalso
        unfold memA at hm
        have := hi.2.2.2.2.2 st.currentId hm
        omega
    show ((recSet st.idDict st.currentId r).map Prod.fst).Nodup
    rw [recSet_append_of_not_mem _ _ _ hfresh, List.map_append]
    rw [List.nodup_append]
    refine ⟨hnd, by simp, ?_⟩
    intro a ha
    simp only [List.map_cons, List.map_nil, List.mem_singleton]
    intro hb
    subst hb
    unfold memA at hfresh
    rcases List.mem_map.1 ha with ⟨⟨k, v⟩, hkv, hk⟩
    subst hk
    have := lookupA_eq_some_of_mem_nodup st.idDict hnd _ _ hkv
    rw [this] at hfresh
    simp at hfresh


theorem hgAddEdge_base (st : HGState V) (a b : Nat) :
    (hgAddEdge st a b).base = st.base := rfl

theorem hgAddLoop_base_eq (th : CPTheory V) (record : Rec V) (newId : Nat) :
    ∀ (entries : List (Nat × Rec V)) (st : HGState V) (d : Bool),
      ∃ bs, (hgAddLoop th record newId entries (st, d)).1.base =
        { st.base with bestSet := bs } := by
  intro entries
  induction entries with
  | nil =>
    intro st d
    exact ⟨st.base.bestSet, rfl⟩
  | cons e rest ih =>
    intro st d
    obtain ⟨o, orc⟩ := e
    show ∃ bs, (hgAddLoop th record newId ((o, orc) :: rest) (st, d)).1.base
      = _
    unfold hgAddLoop
    by_cases h1 : th.dominates record orc = true
    · rw [if_pos h1]
      by_cases h2 : decide (o ∈ st.base.bestSet) = true
      · rw [if_pos h2]
        obtain ⟨bs, hbs⟩ := ih
          { hgAddEdge st newId o with
            base := { st.base with
              bestSet := st.base.bestSet.filter (· ≠ o) } } d
        exact ⟨bs, hbs⟩
      · rw [if_neg h2]
        obtain ⟨bs, hbs⟩ := ih (hgAddEdge st newId o) d
        refine ⟨bs, ?_⟩
        rw [hbs, hgAddEdge_base]
    · rw [if_neg h1]
      by_cases h2 : th.dominates orc record = true
      · rw [if_pos h2]
        obtain ⟨bs, hbs⟩ := ih (hgAddEdge st o newId) true
        refine ⟨bs, ?_⟩
        rw [hbs, hgAddEdge_base]
      · rw [if_neg h2]
        exact ih st d


theorem hgAddLoop_best_mem (th : CPTheory V) (record : Rec V)
    (newId : Nat) :
    ∀ (entries : List (Nat × Rec V)) (st : HGState V) (d : Bool) (i : Nat),
      i ∈ (hgAddLoop th record newId entries (st, d)).1.base.bestSet ↔
        (i ∈ st.base.bestSet ∧
          ∀ rj, (i, rj) ∈ entries → th.dominates record rj = false) := by
  intro entries
  induction entries with
  | nil =>
    intro st d i
    simp [hgAddLoop]
  | cons e rest ih =>
    intro st d i
    obtain ⟨o, orc⟩ := e
    show i ∈
      (hgAddLoop th record newId ((o, orc) :: rest) (st, d)).1.base.bestSet
      ↔ _
    unfold hgAddLoop
    by_cases h1 : th.dominates record orc = true
    · rw [if_pos h1]
      have hstep : ∀ st3 : HGState V,
          st3.base.bestSet = st.base.bestSet.filter (· ≠ o) →
          (i ∈ (hgAddLoop th record newId rest (st3, d)).1.base.bestSet ↔
            (i ∈ st.base.bestSet ∧
              ∀ rj, (i, rj) ∈ (o, orc) :: rest →
                th.dominates record rj = false)) := by
        intro st3 hbs
        rw [ih st3 d i, hbs]
        constructor
        · rintro ⟨hmem, hrest⟩
          rw [List.mem_filter] at hmem
          refine ⟨hmem.1, ?_⟩
          intro rj hj
          rcases List.mem_cons.1 hj with hh | ht
          · injection hh with hh1 hh2
            exfalso
            have hio : i ≠ o := by simpa using hmem.2
            exact hio hh1
          · exact hrest rj ht
        · rintro ⟨hmem, hall⟩
          have hio : i ≠ o := by
            intro hio
            subst hio
            have := hall orc (List.mem_cons_self _ _)
            rw [this] at h1
            simp at h1
          refine ⟨?_, fun rj hj => hall rj (List.mem_cons_of_mem _ hj)⟩
          rw [List.mem_filter]
          exact ⟨hmem, by simpa using hio⟩
      by_cases h2 : decide (o ∈ st.base.bestSet) = true
      · rw [if_pos h2]
        exact hstep _ rfl
      · rw [if_neg h2]
        have hno : o ∉ st.base.bestSet := by simpa using h2
        rw [ih (hgAddEdge st newId o) d i, hgAddEdge_base]
        constructor
        · rintro ⟨hmem, hrest⟩
          refine ⟨hmem, ?_⟩
          intro rj hj
          rcases List.mem_cons.1 hj with hh | ht
          · injection hh with hh1 hh2
            exfalso
            subst hh1
            exact hno hmem
          · exact hrest rj ht
        · rintro ⟨hmem, hall⟩
          exact ⟨hmem, fun rj hj => hall rj (List.mem_cons_of_mem _ hj)⟩
    · rw [if_neg h1]
      have hfalse : th.dominates record orc = false := by
        simpa using h1
      have htail : ∀ st2 : HGState V, st2.base.bestSet = st.base.bestSet →
          ∀ d2, (i ∈ (hgAddLoop th record newId rest
            (st2, d2)).1.base.bestSet ↔
            (i ∈ st.base.bestSet ∧
              ∀ rj, (i, rj) ∈ (o, orc) :: rest →
                th.dominates record rj = false)) := by
        intro st2 hbs d2
        rw [ih st2 d2 i, hbs]
        constructor
        · rintro ⟨hmem, hrest⟩
          refine ⟨hmem, ?_⟩
          intro rj hj
          rcases List.mem_cons.1 hj with hh | ht
          · injection hh with hh1 hh2
            subst hh2
            exact hfalse
          · exact hrest rj ht
        · rintro ⟨hmem, hall⟩
          exact ⟨hmem, fun rj hj => hall rj (List.mem_cons_of_mem _ hj)⟩
      by_cases h2 : th.dominates orc record = true
      · rw [if_pos h2]
        exact htail (hgAddEdge st o newId) (by rw [hgAddEdge_base]) true
      · rw [if_neg h2]
        exact htail st rfl d

theorem hgAddLoop_dominated (th : CPTheory V) (record : Rec V)
    (newId : Nat) :
    ∀ (entries : List (Nat × Rec V)) (st : HGState V) (d : Bool),
      (hgAddLoop th record newId entries (st, d)).2 = true ↔
        (d = true ∨ ∃ j rj, (j, rj) ∈ entries ∧
          th.dominates record rj = false ∧
          th.dominates rj record = true) := by
  intro entries
  induction entries with
  | nil =>
    intro st d
    simp [hgAddLoop]
  | cons e rest ih =>
    intro st d
    obtain ⟨o, orc⟩ := e
    show (hgAddLoop th record newId ((o, orc) :: rest) (st, d)).2 = true ↔ _
    unfold hgAddLoop
    by_cases h1 : th.dominates record orc = true
    · rw [if_pos h1]
      by_cases h2 : decide (o ∈ st.base.bestSet) = true
      · rw [if_pos h2, ih _ d]
        constructor
        · rintro (hd | ⟨j, rj, hj, hx⟩)
          · exact Or.inl hd
          · exact Or.inr ⟨j, rj, List.mem_cons_of_mem _ hj, hx⟩
        · rintro (hd | ⟨j, rj, hj, hx1, hx2⟩)
          · exact Or.inl hd
          · rcases List.mem_cons.1 hj with hh | ht
            · injection hh with hh1 hh2
              subst hh2
              rw [h1] at hx1
              exact absurd hx1 (by simp)
            · exact Or.inr ⟨j, rj, ht, hx1, hx2⟩
      · rw [if_neg h2, ih _ d]
        constructor
        · rintro (hd | ⟨j, rj, hj, hx⟩)
          · exact Or.inl hd
          · exact Or.inr ⟨j, rj, List.mem_cons_of_mem _ hj, hx⟩
        · rintro (hd | ⟨j, rj, hj, hx1, hx2⟩)
          · exact Or.inl hd
          · rcases List.mem_cons.1 hj with hh | ht
            · injection hh with hh1 hh2
              subst hh2
              rw [h1] at hx1
              exact absurd hx1 (by simp)
            · exact Or.inr ⟨j, rj, ht, hx1, hx2⟩
    · rw [if_neg h1]
      have hfalse : th.dominates record orc = false := by simpa using h1
      by_cases h2 : th.dominates orc record = true
      · rw [if_pos h2, ih _ true]
        constructor
        · intro _
          exact Or.inr ⟨o, orc, List.mem_cons_self _ _, hfalse, h2⟩
        · intro _
          exact Or.inl rfl
      · rw [if_neg h2, ih _ d]
        have h2f : th.dominates orc record = false := by simpa using h2
        constructor
        · rintro (hd | ⟨j, rj, hj, hx⟩)
          · exact Or.inl hd
          · exact Or.inr ⟨j, rj, List.mem_cons_of_mem _ hj, hx⟩
        · rintro (hd | ⟨j, rj, hj, hx1, hx2⟩)
          · exact Or.inl hd
          · rcases List.mem_cons.1 hj with hh | ht
            · injection hh with hh1 hh2
              subst hh2
              rw [h2f] at hx2
              exact absurd hx2 (by simp)
            · exact Or.inr ⟨j, rj, ht, hx1, hx2⟩


/-- The dominance relation restricted to a record universe is asymmetric. -/
def asymOn (th : CPTheory V) (S : List (Rec V)) : Prop :=
  ∀ r1 ∈ S, ∀ r2 ∈ S, th.dominates r1 r2 = true →
    th.dominates r2 r1 = false

/-- The running invariant of `HierarchyGraph` on insert-only histories over
a record universe `S`: the base invariant, duplicate-free id keys, stored
records drawn from `S`, and the best set holding exactly the stored records
with no stored dominator. -/
def hgInvariant (th : CPTheory V) (S : List (Rec V)) (st : HGState V) :
    Prop :=
  hInv st.base ∧
  (st.base.idDict.map Prod.fst).Nodup ∧
  (∀ i ri, lookupA st.base.idDict i = some ri → ri ∈ S) ∧
  (∀ i ri, lookupA st.base.idDict i = some ri →
    (i ∈ st.base.bestSet ↔
      ∀ j rj, lookupA st.base.idDict j = some rj →
        th.dominates rj ri = false))

theorem hInv_bestSet_mod {R : Type} [DecidableEq R] (b : HState R)
    (bs : List Nat) (hi : hInv b)
    (hb : ∀ i ∈ bs, (lookupA b.idDict i).isSome = true) :
    hInv { b with bestSet := bs } := by
  obtain ⟨h1, h2, h3, h4, _, h6⟩ := hi
  exact ⟨h1, h2, h3, h4, hb, h6⟩

theorem hgAdd_invariant (th : CPTheory V) (S : List (Rec V))
    (hasym : asymOn th S) (st st2 : HGState V) (r : Rec V) (hr : r ∈ S)
    (hinv : hgInvariant th S st) (h : hgAdd th st r = some st2) :
    hgInvariant th S st2 := by
  obtain ⟨hbi, hnd, hsub, hchar⟩ := hinv
  unfold hgAdd at h
  cases hb : hAdd st.base r with
  | none => simp [hb] at h
  | some p =>
    obtain ⟨base2, newId⟩ := p
    simp only [hb] at h
    have hbi2 : hInv base2 := hAdd_inv st.base r base2 newId hbi hb
    have hnd2 : (base2.idDict.map Prod.fst).Nodup :=
      hAdd_keysNodup st.base r base2 newId hbi hnd hb
    by_cases hcount : lookupA base2.countDict newId = some 1
    · rw [if_pos hcount] at h
      rcases hAdd_cases st.base r base2 newId hb with
        ⟨c, ht, hc, hst⟩ | ⟨ht, hid, hst⟩
      · exfalso
        have : lookupA base2.countDict newId = some (c + 1) := by
          rw [hst]
          show lookupA (recSet st.base.countDict newId (c + 1)) newId = _
          rw [lookupA_recSet, if_pos rfl]
        rw [this] at hcount
        injection hcount with hcount
        have := hbi.2.2.1 newId c hc
        omega
      · -- fresh record
        have hfresh : memA st.base.idDict st.base.currentId = false := by
          cases hm : memA st.base.idDict st.base.currentId
          · rfl
          · exfalso
            have := hbi.2.2.2.2.2 st.base.currentId hm
            omega
        have hid2 : ∀ j, lookupA base2.idDict j =
            if j = st.base.currentId then some r
            else lookupA st.base.idDict j := by
          intro j
          rw [hst]
          show lookupA (recSet st.base.idDict st.base.currentId r) j = _
          rw [lookupA_recSet]
        have hbs2 : base2.bestSet = st.base.bestSet := by rw [hst]
        have hmement : ∀ j rj, lookupA base2.idDict j = some rj ↔
            (j, rj) ∈ base2.idDict := by
          intro j rj
          constructor
          · exact lookupA_mem _ _ _
          · exact lookupA_eq_some_of_mem_nodup _ hnd2 j rj
        have hsub2 : ∀ j rj, lookupA base2.idDict j = some rj → rj ∈ S := by
          intro j rj hj
          rw [hid2] at hj
          by_cases hjc : j = st.base.currentId
          · rw [if_pos hjc] at hj
            injection hj with hj
            subst hj
            exact hr
          · rw [if_neg hjc] at hj
            exact hsub j rj hj
        have hnotstored : lookupA st.base.idDict st.base.currentId = none :=
          by
          cases hm : lookupA st.base.idDict st.base.currentId
          · rfl
          · exfalso
            unfold memA at hfresh
            rw [hm] at hfresh
            simp at hfresh
        have hbestmem := hgAddLoop_best_mem th r newId base2.idDict
          { st with base := base2 } false
        have hdom := hgAddLoop_dominated th r newId base2.idDict
          { st with base := base2 } false
        obtain ⟨bs, hbase⟩ := hgAddLoop_base_eq th r newId base2.idDict
          { st with base := base2 } false
        -- the loop result state
        have hloopbest_sub : ∀ i,
            i ∈ (hgAddLoop th r newId base2.idDict
              ({ st with base := base2 }, false)).1.base.bestSet →
            i ∈ st.base.bestSet := by
          intro i hi
          rw [hbestmem i] at hi
          rw [← hbs2]
          exact hi.1
        have hcid_notbest : newId ∉ (hgAddLoop th r newId base2.idDict
            ({ st with base := base2 }, false)).1.base.bestSet := by
          intro hmem
          have := hloopbest_sub newId hmem
          have hsome := hbi.2.2.2.2.1 newId this
          rw [hid] at hsome
          rw [hnotstored] at hsome
          simp at hsome
        -- the characterization of the final best set
        have hkey :
            st2.base.idDict = base2.idDict →
            st2.base.countDict = base2.countDict →
            st2.base.tupleIdDict = base2.tupleIdDict →
            st2.base.currentId = base2.currentId →
            (∀ i, i ∈ st2.base.bestSet ↔
              ((i = newId ∧ (hgAddLoop th r newId base2.idDict
                  ({ st with base := base2 }, false)).2 = false) ∨
                i ∈ (hgAddLoop th r newId base2.idDict
                  ({ st with base := base2 }, false)).1.base.bestSet)) →
            hgInvariant th S st2 := by
          intro hd1 hd2 hd3 hd4 hbest
          refine ⟨?_, ?_, ?_, ?_⟩
          · have : hInv { base2 with bestSet := st2.base.bestSet } := by
              apply hInv_bestSet_mod base2 _ hbi2
              intro i hi
              rw [hbest i] at hi
              rcases hi with ⟨hieq, _⟩ | hi
              · subst hieq
                rw [hid2, hid]
                simp
              · have := hloopbest_sub i hi
                have hsome := hbi.2.2.2.2.1 i this
                rw [hid2]
                by_cases hic : i = st.base.currentId
                · rw [if_pos hic]
                  rfl
                · rw [if_neg hic]
                  exact hsome
            have hrebuild : st2.base =
                { base2 with bestSet := st2.base.bestSet } := by
              cases hsb : st2.base
              simp only at hd1 hd2 hd3 hd4 ⊢
              rw [hsb] at hd1 hd2 hd3 hd4
              simp only at hd1 hd2 hd3 hd4
              rw [hd1, hd2, hd3, hd4]
            rw [hrebuild]
            exact this
          · rw [hd1]
            exact hnd2
          · intro i ri hi
            rw [hd1] at hi
            exact hsub2 i ri hi
          · intro i ri hi
            rw [hd1] at hi
            rw [hbest i]
            rw [hid2] at hi
            by_cases hic : i = st.base.currentId
            · -- the new record
              rw [if_pos hic] at hi
              injection hi with hi
              subst hi
              subst hic
              rw [← hid]
              constructor
              · rintro (⟨_, hdf⟩ | hmem)
                · intro j rj hj
                  cases hdj : th.dominates rj r
                  · rfl
                  · exfalso
                    have hrjS : rj ∈ S := hsub2 j rj (by
                      rw [hd1] at hj
                      exact hj)
                    have hdrj : th.dominates r rj = false :=
                      hasym rj hrjS r hr hdj
                    have hloop2 : (hgAddLoop th r newId base2.idDict
                        ({ st with base := base2 }, false)).2 = true := by
                      rw [hdom]
                      right
                      refine ⟨j, rj, ?_, hdrj, hdj⟩
                      rw [← hmement]
                      rw [hd1] at hj
                      exact hj
                    rw [hloop2] at hdf
                    simp at hdf
                · exact absurd hmem hcid_notbest
              · intro hnodom
                left
                refine ⟨rfl, ?_⟩
                cases hdf : (hgAddLoop th r newId base2.idDict
                    ({ st with base := base2 }, false)).2
                · rfl
                · exfalso
                  rw [hdom] at hdf
                  rcases hdf with hdf | ⟨j, rj, hjmem, hx1, hx2⟩
                  · simp at hdf
                  · have hj : lookupA base2.idDict j = some rj :=
                      (hmement j rj).2 hjmem
                    have := hnodom j rj (by rw [hd1]; exact hj)
                    rw [this] at hx2
                    simp at hx2
            · -- an old record
              rw [if_neg hic] at hi
              have hentry : lookupA base2.idDict i = some ri := by
                rw [hid2, if_neg hic]
                exact hi
              constructor
              · rintro (⟨hieq, _⟩ | hmem) j rj hj
                · exfalso
                  rw [hieq, hid] at hic
                  exact hic rfl
                · rw [hbestmem i] at hmem
                  obtain ⟨hinold, hall⟩ := hmem
                  rw [hd1, hid2] at hj
                  by_cases hjc : j = st.base.currentId
                  · rw [if_pos hjc] at hj
                    injection hj with hj
                    subst hj
                    exact hall ri ((hmement i ri).1 hentry)
                  · rw [if_neg hjc] at hj
                    have hiold := (hchar i ri hi).1
                    rw [hbs2] at hinold
                    exact hiold hinold j rj hj
              · intro hnodom
                right
                rw [hbestmem i]
                constructor
                · show i ∈ base2.bestSet
                  rw [hbs2]
                  rw [hchar i ri hi]
                  intro j rj hj
                  apply hnodom j rj
                  rw [hd1, hid2]
                  have hjc : ¬j = st.base.currentId := by
                    intro hjc
                    subst hjc
                    rw [hnotstored] at hj
                    exact absurd hj (by simp)
                  rw [if_neg hjc]
                  exact hj
                · intro rj hjmem
                  have hj : lookupA base2.idDict i = some rj :=
                    (hmement i rj).2 hjmem
                  rw [hentry] at hj
                  injection hj with hj
                  subst hj
                  apply hnodom newId r
                  rw [hd1, hid2, hid]
                  simp
        cases hdf : (hgAddLoop th r newId base2.idDict
            ({ st with base := base2 }, false)).2
        · rw [hdf] at h
          simp only [Bool.not_false, if_pos] at h
          injection h with h
          apply hkey
          · rw [← h] at *
            show (hgAddLoop th r newId base2.idDict
              ({ st with base := base2 }, false)).1.base.idDict = _
            rw [hbase]
          · rw [← h]
            show (hgAddLoop th r newId base2.idDict
              ({ st with base := base2 }, false)).1.base.countDict = _
            rw [hbase]
          · rw [← h]
            show (hgAddLoop th r newId base2.idDict
              ({ st with base := base2 }, false)).1.base.tupleIdDict = _
            rw [hbase]
          · rw [← h]
            show (hgAddLoop th r newId base2.idDict
              ({ st with base := base2 }, false)).1.base.currentId = _
            rw [hbase]
          · intro i
            rw [← h]
            show i ∈ bestAdd (hgAddLoop th r newId base2.idDict
              ({ st with base := base2 }, false)).1.base.bestSet newId ↔ _
            unfold bestAdd
            rw [mem_insertAsc]
            constructor
            · rintro (hieq | hi)
              · exact Or.inl ⟨hieq, hdf⟩
              · exact Or.inr hi
            · rintro (⟨hieq, _⟩ | hi)
              · exact Or.inl hieq
              · exact Or.inr hi
        · rw [hdf] at h
          simp only [Bool.not_true, if_neg] at h
          injection h with h
          apply hkey
          · rw [← h]
            show (hgAddLoop th r newId base2.idDict
              ({ st with base := base2 }, false)).1.base.idDict = _
            rw [hbase]
          · rw [← h]
            show (hgAddLoop th r newId base2.idDict
              ({ st with base := base2 }, false)).1.base.countDict = _
            rw [hbase]
          · rw [← h]
            show (hgAddLoop th r newId base2.idDict
              ({ st with base := base2 }, false)).1.base.tupleIdDict = _
            rw [hbase]
          · rw [← h]
            show (hgAddLoop th r newId base2.idDict
              ({ st with base := base2 }, false)).1.base.currentId = _
            rw [hbase]
          · intro i
            rw [← h]
            constructor
            · intro hi
              exact Or.inr hi
            · rintro (⟨hieq, hcontra⟩ | hi)
              · rw [hdf] at hcontra
                exact absurd hcontra (by simp)
              · exact hi
    · rw [if_neg hcount] at h
      injection h with h
      rcases hAdd_cases st.base r base2 newId hb with
        ⟨c, ht, hc, hst⟩ | ⟨ht, hid, hst⟩
      · -- existing record: only the count changes
        have hid2 : base2.idDict = st.base.idDict := by rw [hst]
        have hbs2 : base2.bestSet = st.base.bestSet := by rw [hst]
        rw [← h]
        refine ⟨hbi2, ?_, ?_, ?_⟩
        · show (base2.idDict.map Prod.fst).Nodup
          exact hnd2
        · intro i ri hi
          rw [show ({ st with base := base2 } : HGState V).base.idDict =
            base2.idDict from rfl, hid2] at hi
          exact hsub i ri hi
        · intro i ri hi
          rw [show ({ st with base := base2 } : HGState V).base.idDict =
            base2.idDict from rfl, hid2] at hi
          show i ∈ base2.bestSet ↔ _
          rw [hbs2]
          rw [hchar i ri hi]
          constructor
          · intro hall j rj hj
            apply hall j rj
            rw [show ({ st with base := base2 } : HGState V).base.idDict =
              base2.idDict from rfl, hid2] at hj
            exact hj
          · intro hall j rj hj
            apply hall j rj
            rw [show ({ st with base := base2 } : HGState V).base.idDict =
              base2.idDict from rfl, hid2]
            exact hj
      · -- fresh record but count not 1: impossible
        exfalso
        apply hcount
        rw [hst]
        show lookupA (recSet st.base.countDict st.base.currentId 1)
          newId = some 1
        rw [hid, lookupA_recSet, if_pos rfl]


theorem hgAddList_invariant (th : CPTheory V) (S : List (Rec V))
    (hasym : asymOn th S) :
    ∀ (l : List (Rec V)) (st st2 : HGState V), (∀ r ∈ l, r ∈ S) →
      hgInvariant th S st → hgAddList th st l = some st2 →
      hgInvariant th S st2 := by
  intro l
  induction l with
  | nil =>
    intro st st2 _ hinv h
    injection h with h
    subst h
    exact hinv
  | cons r t ih =>
    intro st st2 hl hinv h
    unfold hgAddList at h
    cases hd : hgAdd th st r with
    | none => simp [hd] at h
    | some stm =>
      simp only [hd] at h
      exact ih stm st2 (fun x hx => hl x (List.mem_cons_of_mem _ hx))
        (hgAdd_invariant th S hasym st stm r (hl r (List.mem_cons_self _ _))
          hinv hd) h


/-- `Option`-valued map over a list (Python loops that may raise). -/
def mapO {A B : Type} (f : A → Option B) : List A → Option (List B)
  | [] => some []
  | a :: l =>
    match f a with
    | none => none
    | some b => (mapO f l).map fun bs => b :: bs

/-- Value of a `PartitionHierarchy` (`seqtreehierarchy.py`): the comparison
list, the record dictionary (record id, the tuple of record items, mapped
to the record), the per-partition preferred-record counters, the
per-partition non-preferred record-id sets, and the per-record dominated
counters. -/
structure PHier (V : Type) where
  comps : List (Comparison V)
  recordDict : List (Rec V × Rec V)
  prefCountDict : List ((Nat × Rec V) × Int)
  nonprefSetDict : List ((Nat × Rec V) × List (Rec V))
  dominatedCount : List (Rec V × Int)
deriving DecidableEq, Repr

/-- `updatedata.delete_from_set_id` (Python `set.remove` raises `KeyError`
on a missing set or element, modelled by `none`; the set entry is dropped
when it becomes empty). -/
def deleteFromSetId {K E : Type} [DecidableEq K] [DecidableEq E]
    (d : List (K × List E)) (k : K) (el : E) :
    Option (List (K × List E)) :=
  match lookupA d k with
  | none => none
  | some s =>
    if el ∈ s then
      if (s.filter (· ≠ el)).isEmpty then some (recErase d k)
      else some (recSet d k (s.filter (· ≠ el)))
    else none

/-- `PartitionHierarchy.get_best`: the stored record ids with no domination
count, in record-dictionary insertion order. -/
def phGetBest (ph : PHier V) : List (Rec V) :=
  (ph.recordDict.map Prod.fst).filter fun rid => !memA ph.dominatedCount rid

/-- `PartitionHierarchy.delete` (including the inherited
`Hierarchy.delete`): remove the record from the record dictionary and
update the partition counters per comparison; a Python `KeyError` is
modelled by `none`. -/
def phDelete (ph : PHier V) (delRecord : Rec V) : Option (PHier V) :=
  if memA ph.recordDict delRecord then
    ph.comps.enum.foldl (fun acc cp =>
      match acc with
      | none => none
      | some ph2 =>
        let pid := getPartitionId delRecord cp.1 cp.2
        if cp.2.isBestRecord delRecord then
          let pref2 := decCountDict ph2.prefCountDict pid
          if !memA pref2 pid && memA ph2.nonprefSetDict pid then
            match lookupA ph2.nonprefSetDict pid with
            | none => none
            | some others =>
              some { ph2 with
                prefCountDict := pref2
                dominatedCount :=
                  others.foldl decCountDict ph2.dominatedCount }
          else some { ph2 with prefCountDict := pref2 }
        else if cp.2.isWorstRecord delRecord then
          match deleteFromSetId ph2.nonprefSetDict pid delRecord with
          | none => none
          | some np2 =>
            if memA ph2.dominatedCount delRecord then
              some { ph2 with
                nonprefSetDict := np2
                dominatedCount := recErase ph2.dominatedCount delRecord }
            else some { ph2 with nonprefSetDict := np2 }
        else some ph2)
      (some { ph with recordDict := recErase ph.recordDict delRecord })
  else none

/-- A `SeqNode` object (`seqtree.py`): depth, the node record (`None` for
the root), and references to the heap cells holding its sequence
dictionary, its child dictionary, and its hierarchy (`None` when the node
has no hierarchy). -/
structure NodeCell (V : Type) where
  depth : Nat
  nrec : Option (Rec V)
  seqRef : Nat
  childRef : Nat
  hierRef : Option Nat
deriving DecidableEq, Repr

/-- The object heap of a sequence-tree index: node cells, sequence
dictionaries (Python `id(sequence)` mapped to the sequence value), child
dictionaries (`get_id()` tuples mapped to node references), hierarchy
objects, and the next fresh object id (Python object allocation). -/
structure STHeap (V S : Type) where
  nodes : List (Nat × NodeCell V)
  seqDicts : List (Nat × List (Nat × S))
  childDicts : List (Nat × List (Rec V × Nat))
  hiers : List (Nat × PHier V)
  nextId : Nat
deriving Repr

variable {S : Type}

/-- The fresh `SeqNode.__init__` allocation performed by `SeqNode.copy`:
a node with empty dictionaries and a fresh hierarchy (`gh` stands for the
`PreferenceDict.get_hierarchy` result; the allocation is immediately
overwritten by `node.__dict__.update(self.__dict__)`, so its content never
matters). -/
def copyAlloc (gh : PHier V) (h : STHeap V S) : STHeap V S :=
  { nodes := h.nodes ++ [(h.nextId + 3,
      ⟨0, none, h.nextId, h.nextId + 1, some (h.nextId + 2)⟩)]
    seqDicts := h.seqDicts ++ [(h.nextId, [])]
    childDicts := h.childDicts ++ [(h.nextId + 1, [])]
    hiers := h.hiers ++ [(h.nextId + 2, gh)]
    nextId := h.nextId + 4 }

/-- The `seq_dict_copy` and `child_dict_copy` snapshots of
`SeqNode._update_copy` (fresh dictionary objects holding the current
contents). -/
def copySnap (h : STHeap V S) (sdict : List (Nat × S))
    (cdict : List (Rec V × Nat)) : STHeap V S :=
  { h with
    seqDicts := h.seqDicts ++ [(h.nextId, sdict)]
    childDicts := h.childDicts ++ [(h.nextId + 1, cdict)]
    nextId := h.nextId + 2 }

/-- One iteration of the child-copying loop of `SeqNode._update_copy`:
copy the child and store the copy under its id in the ORIGINAL
child-dictionary cell (`go` is the recursive node copy at the remaining
fuel). -/
def copyFoldStep (dictId : Nat)
    (go : STHeap V S → Nat → Option (STHeap V S × Nat))
    (acc : Option (STHeap V S)) (kv : Rec V × Nat) :
    Option (STHeap V S) :=
  match acc with
  | none => none
  | some h3 =>
    match go h3 kv.2 with
    | none => none
    | some (h4, cpRef) =>
      match lookupA h4.childDicts dictId with
      | none => none
      | some cur =>
        some { h4 with childDicts := recSet h4.childDicts dictId (recSet cur kv.1 cpRef) }

/-- The tail of `SeqNode._update_copy`: copy the hierarchy object, hand
the original cells to the copy node (`node.__dict__.update`), and restore
the snapshot cells (and the hierarchy copy) into the original node. -/
def copyCellRef (cell : NodeCell V) (s c : Nat) (hr : Option Nat) :
    NodeCell V :=
  { cell with
    seqRef := s
    childRef := c
    hierRef := hr }

def copyFinHeapH (h5 : STHeap V S) (hval : PHier V) (n nid s c : Nat)
    (cell : NodeCell V) : STHeap V S :=
  { h5 with
    hiers := h5.hiers ++ [(h5.nextId, hval)]
    nodes := recSet (recSet h5.nodes nid cell) n
      (copyCellRef cell s c (some h5.nextId))
    nextId := h5.nextId + 1 }

def copyFinHeapN (h5 : STHeap V S) (n nid s c : Nat)
    (cell : NodeCell V) : STHeap V S :=
  { h5 with
    nodes := recSet (recSet h5.nodes nid cell) n
      (copyCellRef cell s c none) }

def copyFinish (h5 : STHeap V S) (n nid : Nat) (cell : NodeCell V)
    (sCopyId cCopyId : Nat) : Option (STHeap V S × Nat) :=
  match cell.hierRef with
  | some href =>
    match lookupA h5.hiers href with
    | none => none
    | some hval =>
      some (copyFinHeapH h5 hval n nid sCopyId cCopyId cell, nid)
  | none => some (copyFinHeapN h5 n nid sCopyId cCopyId cell, nid)

theorem copyCellRef_depth (cell : NodeCell V) (s c : Nat)
    (hr : Option Nat) : (copyCellRef cell s c hr).depth = cell.depth :=
  rfl

theorem copyCellRef_nrec (cell : NodeCell V) (s c : Nat)
    (hr : Option Nat) : (copyCellRef cell s c hr).nrec = cell.nrec :=
  rfl

theorem copyCellRef_seqRef (cell : NodeCell V) (s c : Nat)
    (hr : Option Nat) : (copyCellRef cell s c hr).seqRef = s :=
  rfl

theorem copyCellRef_childRef (cell : NodeCell V) (s c : Nat)
    (hr : Option Nat) : (copyCellRef cell s c hr).childRef = c :=
  rfl

theorem copyCellRef_hierRef (cell : NodeCell V) (s c : Nat)
    (hr : Option Nat) : (copyCellRef cell s c hr).hierRef = hr :=
  rfl

theorem copyFinHeapH_nodes (h5 : STHeap V S) (hval : PHier V)
    (n nid s c : Nat) (cell : NodeCell V) :
    (copyFinHeapH h5 hval n nid s c cell).nodes =
      recSet (recSet h5.nodes nid cell) n
        (copyCellRef cell s c (some h5.nextId)) :=
  rfl

theorem copyFinHeapH_seqDicts (h5 : STHeap V S) (hval : PHier V)
    (n nid s c : Nat) (cell : NodeCell V) :
    (copyFinHeapH h5 hval n nid s c cell).seqDicts = h5.seqDicts :=
  rfl

theorem copyFinHeapH_childDicts (h5 : STHeap V S) (hval : PHier V)
    (n nid s c : Nat) (cell : NodeCell V) :
    (copyFinHeapH h5 hval n nid s c cell).childDicts = h5.childDicts :=
  rfl

theorem copyFinHeapH_hiers (h5 : STHeap V S) (hval : PHier V)
    (n nid s c : Nat) (cell : NodeCell V) :
    (copyFinHeapH h5 hval n nid s c cell).hiers =
      h5.hiers ++ [(h5.nextId, hval)] :=
  rfl

theorem copyFinHeapH_nextId (h5 : STHeap V S) (hval : PHier V)
    (n nid s c : Nat) (cell : NodeCell V) :
    (copyFinHeapH h5 hval n nid s c cell).nextId = h5.nextId + 1 :=
  rfl

theorem copyFinHeapN_nodes (h5 : STHeap V S) (n nid s c : Nat)
    (cell : NodeCell V) :
    (copyFinHeapN h5 n nid s c cell).nodes =
      recSet (recSet h5.nodes nid cell) n (copyCellRef cell s c none) :=
  rfl

theorem copyFinHeapN_seqDicts (h5 : STHeap V S) (n nid s c : Nat)
    (cell : NodeCell V) :
    (copyFinHeapN h5 n nid s c cell).seqDicts = h5.seqDicts :=
  rfl

theorem copyFinHeapN_childDicts (h5 : STHeap V S) (n nid s c : Nat)
    (cell : NodeCell V) :
    (copyFinHeapN h5 n nid s c cell).childDicts = h5.childDicts :=
  rfl

theorem copyFinHeapN_hiers (h5 : STHeap V S) (n nid s c : Nat)
    (cell : NodeCell V) :
    (copyFinHeapN h5 n nid s c cell).hiers = h5.hiers :=
  rfl

theorem copyFinHeapN_nextId (h5 : STHeap V S) (n nid s c : Nat)
    (cell : NodeCell V) :
    (copyFinHeapN h5 n nid s c cell).nextId = h5.nextId :=
  rfl

/-- `SeqNode.copy` followed by `SeqNode._update_copy` on the heap model
(see the helper functions for the individual steps of the source). -/
def copyNode (gh : PHier V) : Nat → STHeap V S → Nat →
    Option (STHeap V S × Nat)
  | 0, _, _ => none
  | fuel + 1, h, n =>
    match lookupA h.nodes n with
    | none => none
    | some cell =>
      match lookupA (copyAlloc gh h).seqDicts cell.seqRef,
          lookupA (copyAlloc gh h).childDicts cell.childRef with
      | some sdict, some cdict =>
        match cdict.foldl
            (copyFoldStep cell.childRef (copyNode gh fuel))
            (some (copySnap (copyAlloc gh h) sdict cdict)) with
        | none => none
        | some h5 =>
          copyFinish h5 n (h.nextId + 3) cell (h.nextId + 4)
            (h.nextId + 5)
      | _, _ => none

/-- `SeqNode.get_dominant_children`: the best ids of the node hierarchy
looked up in the child dictionary (a missing hierarchy or a missing child
id raises in Python, modelled by `none`). -/
def getDominantChildren (h : STHeap V S) (n : Nat) : Option (List Nat) :=
  match lookupA h.nodes n with
  | none => none
  | some cell =>
    match cell.hierRef with
    | none => none
    | some href =>
      match lookupA h.hiers href, lookupA h.childDicts cell.childRef with
      | some ph, some cdict =>
        mapO (fun rid => lookupA cdict rid) (phGetBest ph)
      | _, _ => none

/-- `SeqNode.is_empty`. -/
def isEmptyNode (h : STHeap V S) (n : Nat) : Option Bool :=
  match lookupA h.nodes n with
  | none => none
  | some cell =>
    match lookupA h.seqDicts cell.seqRef,
        lookupA h.childDicts cell.childRef with
    | some sdict, some cdict => some (sdict.isEmpty && cdict.isEmpty)
    | _, _ => none

/-- The heap update performed by `SeqNode._del_child`. -/
def delChildHeap (h : STHeap V S) (ccr : Nat) (cd : List (Rec V × Nat))
    (href2 : Nat) (ph2 : PHier V) : STHeap V S :=
  { h with
    childDicts := recSet h.childDicts ccr cd
    hiers := recSet h.hiers href2 ph2 }

theorem delChildHeap_nodes (h : STHeap V S) (ccr : Nat)
    (cd : List (Rec V × Nat)) (href2 : Nat) (ph2 : PHier V) :
    (delChildHeap h ccr cd href2 ph2).nodes = h.nodes :=
  rfl

theorem delChildHeap_seqDicts (h : STHeap V S) (ccr : Nat)
    (cd : List (Rec V × Nat)) (href2 : Nat) (ph2 : PHier V) :
    (delChildHeap h ccr cd href2 ph2).seqDicts = h.seqDicts :=
  rfl

theorem delChildHeap_childDicts (h : STHeap V S) (ccr : Nat)
    (cd : List (Rec V × Nat)) (href2 : Nat) (ph2 : PHier V) :
    (delChildHeap h ccr cd href2 ph2).childDicts =
      recSet h.childDicts ccr cd :=
  rfl

theorem delChildHeap_hiers (h : STHeap V S) (ccr : Nat)
    (cd : List (Rec V × Nat)) (href2 : Nat) (ph2 : PHier V) :
    (delChildHeap h ccr cd href2 ph2).hiers = recSet h.hiers href2 ph2 :=
  rfl

theorem delChildHeap_nextId (h : STHeap V S) (ccr : Nat)
    (cd : List (Rec V × Nat)) (href2 : Nat) (ph2 : PHier V) :
    (delChildHeap h ccr cd href2 ph2).nextId = h.nextId :=
  rfl

/-- `SeqNode._del_child`: remove the child entry (key `child.get_id()`)
from the child dictionary and delete the child record from the node
hierarchy. -/
def delChild (h : STHeap V S) (n childRef : Nat) : Option (STHeap V S) :=
  match lookupA h.nodes n, lookupA h.nodes childRef with
  | some cell, some ccell =>
    match ccell.nrec with
    | none => none
    | some crec =>
      match lookupA h.childDicts cell.childRef with
      | none => none
      | some cdict =>
        if memA cdict crec then
          match cell.hierRef with
          | none => none
          | some href =>
            match lookupA h.hiers href with
            | none => none
            | some ph =>
              match phDelete ph crec with
              | none => none
              | some ph2 =>
                some (delChildHeap h cell.childRef (recErase cdict crec)
                  href ph2)
        else none
  | _, _ => none

/-- `self._sequence_dict.clear()` inside
`SeqNode.remove_dominant_sequences`. -/
def clearSeqDict (h : STHeap V S) (sref : Nat) : STHeap V S :=
  { h with seqDicts := recSet h.seqDicts sref [] }

theorem clearSeqDict_nodes (h : STHeap V S) (sref : Nat) :
    (clearSeqDict h sref).nodes = h.nodes :=
  rfl

theorem clearSeqDict_seqDicts (h : STHeap V S) (sref : Nat) :
    (clearSeqDict h sref).seqDicts = recSet h.seqDicts sref [] :=
  rfl

theorem clearSeqDict_childDicts (h : STHeap V S) (sref : Nat) :
    (clearSeqDict h sref).childDicts = h.childDicts :=
  rfl

theorem clearSeqDict_hiers (h : STHeap V S) (sref : Nat) :
    (clearSeqDict h sref).hiers = h.hiers :=
  rfl

theorem clearSeqDict_nextId (h : STHeap V S) (sref : Nat) :
    (clearSeqDict h sref).nextId = h.nextId :=
  rfl

/-- One iteration of the dominant-children loop of
`SeqNode.remove_dominant_sequences`: recurse into the child (`go` is the
recursion at the remaining fuel), collect its sequences, and delete the
child if it became empty. -/
def rdsStep (n : Nat)
    (go : STHeap V S → Nat → Option (STHeap V S × List S))
    (acc : Option (STHeap V S × List S)) (cref : Nat) :
    Option (STHeap V S × List S) :=
  match acc with
  | none => none
  | some (h2, out) =>
    match go h2 cref with
    | none => none
    | some (h3, sub) =>
      match isEmptyNode h3 cref with
      | none => none
      | some true =>
        match delChild h3 n cref with
        | none => none
        | some h4 => some (h4, out ++ sub)
      | some false => some (h3, out ++ sub)

/-- `SeqNode.remove_dominant_sequences` (fueled recursion): copy out the
node sequences, clear the sequence dictionary, recurse into the dominant
children, and delete the children that become empty. -/
def removeDominantSeqs : Nat → STHeap V S → Nat →
    Option (STHeap V S × List S)
  | 0, _, _ => none
  | fuel + 1, h, n =>
    match lookupA h.nodes n with
    | none => none
    | some cell =>
      match lookupA h.seqDicts cell.seqRef with
      | none => none
      | some sdict =>
        match getDominantChildren (clearSeqDict h cell.seqRef) n with
        | none => none
        | some doms =>
          doms.foldl (rdsStep n (removeDominantSeqs fuel))
            (some (clearSeqDict h cell.seqRef, sdict.map Prod.snd))

/-- The while loop of `SeqNode.topk_sequences` (fueled; `rfuel` is the fuel
of each `remove_dominant_sequences` recursion). -/
def topkGo (rfuel : Nat) : Nat → STHeap V S → Nat → Nat → List S →
    Option (STHeap V S × List S)
  | 0, _, _, _, _ => none
  | fuel + 1, h, n, k, acc =>
    match lookupA h.nodes n with
    | none => none
    | some cell =>
      match lookupA h.childDicts cell.childRef with
      | none => none
      | some cdict =>
        if acc.length < k && !cdict.isEmpty then
          match removeDominantSeqs rfuel h n with
          | none => none
          | some (h2, sub) => topkGo rfuel fuel h2 n k (acc ++ sub)
        else some (h, acc)

/-- `SeqNode.topk_sequences`. -/
def topkSequences (fuel : Nat) (h : STHeap V S) (n k : Nat) :
    Option (STHeap V S × List S) :=
  match lookupA h.nodes n with
  | none => none
  | some cell =>
    match cell.nrec with
    | some _ => some (h, ([] : List S).take k)
    | none =>
      match topkGo fuel fuel h n k [] with
      | none => none
      | some (h2, out) => some (h2, out.take k)

/-- `SeqIndex.topk_sequences`: copy the tree and run top-k on the copy
root. -/
def topkIndex (gh : PHier V) (fuel : Nat) (h : STHeap V S)
    (root k : Nat) : Option (STHeap V S × List S) :=
  match copyNode gh fuel h root with
  | none => none
  | some (h2, copyRoot) => topkSequences fuel h2 copyRoot k

/-- The value of a tree: depth, record, sequence-dictionary content,
hierarchy content, and recursively the children values. -/
inductive TreeVal (V S : Type) where
  | node : Nat → Option (Rec V) → List (Nat × S) → Option (PHier V) →
      List (Rec V × TreeVal V S) → TreeVal V S

/-- Read the value of the tree rooted at a node reference. -/
def readTree : Nat → STHeap V S → Nat → Option (TreeVal V S)
  | 0, _, _ => none
  | fuel + 1, h, n =>
    match lookupA h.nodes n with
    | none => none
    | some cell =>
      match lookupA h.seqDicts cell.seqRef,
          lookupA h.childDicts cell.childRef with
      | some sdict, some cdict =>
        match (match cell.hierRef with
          | none => some none
          | some href =>
            match lookupA h.hiers href with
            | none => none
            | some ph => some (some ph)) with
        | none => none
        | some hv =>
          match mapO (fun kv => (readTree fuel h kv.2).map
              (fun t => (kv.1, t))) cdict with
          | none => none
          | some kids =>
            some (TreeVal.node cell.depth cell.nrec sdict hv kids)
      | _, _ => none

/-- The addresses (kind, id) of the heap cells a tree is built from: kind
0 for node cells, 1 for sequence dictionaries, 2 for child dictionaries, 3
for hierarchies. -/
def footprint : Nat → STHeap V S → Nat → Option (List (Nat × Nat))
  | 0, _, _ => none
  | fuel + 1, h, n =>
    match lookupA h.nodes n with
    | none => none
    | some cell =>
      match lookupA h.seqDicts cell.seqRef,
          lookupA h.childDicts cell.childRef with
      | some _, some cdict =>
        match (match cell.hierRef with
          | none => some []
          | some href =>
            match lookupA h.hiers href with
            | none => none
            | some ph => some [((3 : Nat), href)]) with
        | none => none
        | some hpart =>
          match mapO (fun kv => footprint fuel h kv.2) cdict with
          | none => none
          | some subs =>
            some ((0, n) :: (1, cell.seqRef) :: (2, cell.childRef) ::
              hpart ++ subs.flatten)
      | _, _ => none

/-- Two heaps agree on a cell address. -/
def cellEq (h h2 : STHeap V S) (p : Nat × Nat) : Prop :=
  (p.1 = 0 → lookupA h2.nodes p.2 = lookupA h.nodes p.2) ∧
  (p.1 = 1 → lookupA h2.seqDicts p.2 = lookupA h.seqDicts p.2) ∧
  (p.1 = 2 → lookupA h2.childDicts p.2 = lookupA h.childDicts p.2) ∧
  (p.1 = 3 → lookupA h2.hiers p.2 = lookupA h.hiers p.2)


theorem mapO_congr {A B : Type} (f g : A → Option B) :
    ∀ (l : List A), (∀ a ∈ l, f a = g a) → mapO f l = mapO g l := by
  intro l
  induction l with
  | nil => intro _; rfl
  | cons a t ih =>
    intro hh
    unfold mapO
    rw [hh a (List.mem_cons_self _ _), ih fun x hx =>
      hh x (List.mem_cons_of_mem _ hx)]

theorem mapO_mem {A B : Type} (f : A → Option B) :
    ∀ (l : List A) (ys : List B), mapO f l = some ys →
      ∀ a ∈ l, ∃ y ∈ ys, f a = some y := by
  intro l
  induction l with
  | nil =>
    intro ys _ a ha
    simp at ha
  | cons x t ih =>
    intro ys hm a ha
    unfold mapO at hm
    cases hx : f x with
    | none => simp [hx] at hm
    | some b =>
      simp only [hx] at hm
      cases ht : mapO f t with
      | none => simp [ht] at hm
      | some bs =>
        simp only [ht, Option.map_some] at hm
        injection hm with hm
        subst hm
        rcases List.mem_cons.mp ha with hax | hat
        · exact ⟨b, List.mem_cons_self _ _, by rw [hax, hx]⟩
        · obtain ⟨y, hy, hfy⟩ := ih bs ht a hat
          exact ⟨y, List.mem_cons_of_mem _ hy, hfy⟩

theorem mapO_forall {A B : Type} (f : A → Option B) (P : A → B → Prop) :
    ∀ (l : List A) (ys : List B), mapO f l = some ys →
      (∀ a b, f a = some b → P a b) →
      List.Forall₂ P l ys := by
  intro l
  induction l with
  | nil =>
    intro ys hm _
    injection hm with hm
    subst hm
    exact List.Forall₂.nil
  | cons x t ih =>
    intro ys hm hp
    unfold mapO at hm
    cases hx : f x with
    | none => simp [hx] at hm
    | some b =>
      simp only [hx] at hm
      cases ht : mapO f t with
      | none => simp [ht] at hm
      | some bs =>
        simp only [ht, Option.map_some] at hm
        injection hm with hm
        subst hm
        exact List.Forall₂.cons (hp x b hx) (ih bs ht hp)

theorem cellEq_refl (h : STHeap V S) (p : Nat × Nat) : cellEq h h p :=
  ⟨fun _ => rfl, fun _ => rfl, fun _ => rfl, fun _ => rfl⟩

theorem cellEq_trans (h1 h2 h3 : STHeap V S) (p : Nat × Nat)
    (a : cellEq h1 h2 p) (b : cellEq h2 h3 p) : cellEq h1 h3 p :=
  ⟨fun hp => (b.1 hp).trans (a.1 hp),
   fun hp => (b.2.1 hp).trans (a.2.1 hp),
   fun hp => (b.2.2.1 hp).trans (a.2.2.1 hp),
   fun hp => (b.2.2.2 hp).trans (a.2.2.2 hp)⟩


theorem footprint_agree :
    ∀ (fuel : Nat) (h h2 : STHeap V S) (n : Nat) (fp : List (Nat × Nat)),
      footprint fuel h n = some fp →
      (∀ p ∈ fp, cellEq h h2 p) →
      footprint fuel h2 n = some fp ∧
        readTree fuel h2 n = readTree fuel h n := by
  intro fuel
  induction fuel with
  | zero =>
    intro h h2 n fp hfp _
    exact absurd hfp (by simp [footprint])
  | succ fuel ih =>
    intro h h2 n fp hfp hag
    unfold footprint at hfp
    cases hn : lookupA h.nodes n with
    | none => simp [hn] at hfp
    | some cell =>
      simp only [hn] at hfp
      cases hs : lookupA h.seqDicts cell.seqRef with
      | none => simp [hs] at hfp
      | some sdict =>
        cases hc : lookupA h.childDicts cell.childRef with
        | none => simp [hs, hc] at hfp
        | some cdict =>
          simp only [hs, hc] at hfp
          cases hm : mapO (fun kv => footprint fuel h kv.2) cdict with
          | none =>
            cases hr : cell.hierRef with
            | none => simp [hr, hm] at hfp
            | some href =>
              cases hhi : lookupA h.hiers href with
              | none => simp [hr, hhi] at hfp
              | some ph => simp [hr, hhi, hm] at hfp
          | some subs =>
            have hchild : ∀ kv ∈ cdict,
                ∃ fpc ∈ subs, footprint fuel h kv.2 = some fpc :=
              mapO_mem _ cdict subs hm
            have hsubfp : ∀ fpc ∈ subs, ∀ p ∈ fpc, p ∈ fp := by
              intro fpc hfpc p hp
              cases hr : cell.hierRef with
              | none =>
                simp only [hr, hm, List.nil_append] at hfp
                injection hfp with hfp
                rw [← hfp]
                refine List.mem_cons_of_mem _ (List.mem_cons_of_mem _
                  (List.mem_cons_of_mem _ ?_))
                exact List.mem_flatten.mpr ⟨fpc, hfpc, hp⟩
              | some href =>
                cases hhi : lookupA h.hiers href with
                | none => simp [hr, hhi] at hfp
                | some ph =>
                  simp only [hr, hhi, hm] at hfp
                  injection hfp with hfp
                  rw [← hfp]
                  refine List.mem_cons_of_mem _ (List.mem_cons_of_mem _
                    (List.mem_cons_of_mem _ (List.mem_append.mpr
                      (Or.inr ?_))))
                  exact List.mem_flatten.mpr ⟨fpc, hfpc, hp⟩
            have hchild2 : ∀ kv ∈ cdict,
                footprint fuel h2 kv.2 = footprint fuel h kv.2 ∧
                readTree fuel h2 kv.2 = readTree fuel h kv.2 := by
              intro kv hkv
              obtain ⟨fpc, hfpc, hkvfp⟩ := hchild kv hkv
              obtain ⟨hf2, hr2⟩ := ih h h2 kv.2 fpc hkvfp
                (fun p hp => hag p (hsubfp fpc hfpc p hp))
              exact ⟨by rw [hf2, hkvfp], hr2⟩
            have hmem0 : ((0 : Nat), n) ∈ fp := by
              cases hr : cell.hierRef with
              | none =>
                simp only [hr, hm, List.nil_append] at hfp
                injection hfp with hfp
                rw [← hfp]
                exact List.mem_cons_self _ _
              | some href =>
                cases hhi : lookupA h.hiers href with
                | none => simp [hr, hhi] at hfp
                | some ph =>
                  simp only [hr, hhi, hm] at hfp
                  injection hfp with hfp
                  rw [← hfp]
                  exact List.mem_cons_self _ _
            have hmem1 : ((1 : Nat), cell.seqRef) ∈ fp := by
              cases hr : cell.hierRef with
              | none =>
                simp only [hr, hm, List.nil_append] at hfp
                injection hfp with hfp
                rw [← hfp]
                exact List.mem_cons_of_mem _ (List.mem_cons_self _ _)
              | some href =>
                cases hhi : lookupA h.hiers href with
                | none => simp [hr, hhi] at hfp
                | some ph =>
                  simp only [hr, hhi, hm] at hfp
                  injection hfp with hfp
                  rw [← hfp]
                  exact List.mem_cons_of_mem _ (List.mem_cons_self _ _)
            have hmem2 : ((2 : Nat), cell.childRef) ∈ fp := by
              cases hr : cell.hierRef with
              | none =>
                simp only [hr, hm, List.nil_append] at hfp
                injection hfp with hfp
                rw [← hfp]
                exact List.mem_cons_of_mem _ (List.mem_cons_of_mem _
                  (List.mem_cons_self _ _))
              | some href =>
                cases hhi : lookupA h.hiers href with
                | none => simp [hr, hhi] at hfp
                | some ph =>
                  simp only [hr, hhi, hm] at hfp
                  injection hfp with hfp
                  rw [← hfp]
                  exact List.mem_cons_of_mem _ (List.mem_cons_of_mem _
                    (List.mem_cons_self _ _))
            have hn2 : lookupA h2.nodes n = some cell :=
              ((hag _ hmem0).1 rfl).trans hn
            have hs2 : lookupA h2.seqDicts cell.seqRef = some sdict :=
              ((hag _ hmem1).2.1 rfl).trans hs
            have hc2 : lookupA h2.childDicts cell.childRef = some cdict :=
              ((hag _ hmem2).2.2.1 rfl).trans hc
            have hm2 : mapO (fun kv => footprint fuel h2 kv.2) cdict =
                some subs := by
              rw [mapO_congr _ _ cdict fun kv hkv => (hchild2 kv hkv).1]
              exact hm
            have hread2 : mapO (fun kv => (readTree fuel h2 kv.2).map
                  (fun t => (kv.1, t))) cdict =
                mapO (fun kv => (readTree fuel h kv.2).map
                  (fun t => (kv.1, t))) cdict := by
              refine mapO_congr _ _ cdict fun kv hkv => ?_
              rw [(hchild2 kv hkv).2]
            cases hr : cell.hierRef with
            | none =>
              simp only [hr, hm, List.nil_append] at hfp
              injection hfp with hfp
              constructor
              · show footprint (fuel + 1) h2 n = some fp
                unfold footprint
                simp only [hn2, hs2, hc2, hr, hm2, List.nil_append]
                rw [hfp]
              · show readTree (fuel + 1) h2 n = readTree (fuel + 1) h n
                unfold readTree
                simp only [hn2, hs2, hc2, hn, hs, hc, hr, hread2]
            | some href =>
              cases hhi : lookupA h.hiers href with
              | none => simp [hr, hhi] at hfp
              | some ph =>
                simp only [hr, hhi, hm] at hfp
                injection hfp with hfp
                have hmem3 : ((3 : Nat), href) ∈ fp := by
                  rw [← hfp]
                  refine List.mem_cons_of_mem _ (List.mem_cons_of_mem _
                    (List.mem_cons_of_mem _ (List.mem_append.mpr
                      (Or.inl ?_))))
                  exact List.mem_cons_self _ _
                have hhi2 : lookupA h2.hiers href = some ph :=
                  ((hag _ hmem3).2.2.2 rfl).trans hhi
                constructor
                · show footprint (fuel + 1) h2 n = some fp
                  unfold footprint
                  simp only [hn2, hs2, hc2, hr, hhi2, hm2]
                  rw [hfp]
                · show readTree (fuel + 1) h2 n = readTree (fuel + 1) h n
                  unfold readTree
                  simp only [hn2, hs2, hc2, hn, hs, hc, hr, hhi2, hhi,
                    hread2]


theorem lookupA_append_gen {A B : Type} [DecidableEq A]
    (d e : List (A × B)) (j : A) :
    lookupA (d ++ e) j =
      match lookupA d j with
      | some v => some v
      | none => lookupA e j := by
  induction d with
  | nil => rfl
  | cons kv r ih =>
    obtain ⟨k, w⟩ := kv
    by_cases hk : k = j <;> simp [lookupA, hk, ih]

theorem lookupA_append_single {A B : Type} [DecidableEq A]
    (d : List (A × B)) (k : A) (v : B) (j : A) (hne : j ≠ k) :
    lookupA (d ++ [(k, v)]) j = lookupA d j := by
  rw [lookupA_append_gen]
  cases hd : lookupA d j with
  | some w => rfl
  | none =>
    have : ¬k = j := fun hc => hne hc.symm
    simp [lookupA, this]

theorem lookupA_append_single_self {A B : Type} [DecidableEq A]
    (d : List (A × B)) (k : A) (v : B) (hk : lookupA d k = none) :
    lookupA (d ++ [(k, v)]) k = some v := by
  rw [lookupA_append_gen, hk]
  simp [lookupA]

theorem recSet_keys {A B : Type} [DecidableEq A]
    (d : List (A × B)) (k : A) (v : B) (hk : memA d k = true) :
    (recSet d k v).map Prod.fst = d.map Prod.fst := by
  unfold recSet
  rw [if_pos hk, List.map_map]
  refine List.map_congr_left ?_
  intro kv _
  by_cases hx : kv.1 = k <;> simp [Function.comp, hx]

theorem recSet_middle {A B : Type} [DecidableEq A]
    (pre rest : List (A × B)) (k : A) (v0 v : B)
    (hnd : ((pre ++ (k, v0) :: rest).map Prod.fst).Nodup) :
    recSet (pre ++ (k, v0) :: rest) k v = pre ++ (k, v) :: rest := by
  have hmem : memA (pre ++ (k, v0) :: rest) k = true := by
    unfold memA
    rw [lookupA_append_gen]
    cases hd : lookupA pre k <;> simp [lookupA]
  simp only [List.map_append, List.map_cons, List.nodup_append,
    List.nodup_cons] at hnd
  obtain ⟨hnd1, ⟨hk1, hnd2⟩, hdisj⟩ := hnd
  have hpre : ∀ kv ∈ pre, kv.1 ≠ k := by
    intro kv hkv hc
    refine hdisj (List.mem_map.mpr ⟨kv, hkv, rfl⟩) ?_
    rw [hc]
    exact List.mem_cons_self _ _
  have hrest : ∀ kv ∈ rest, kv.1 ≠ k := by
    intro kv hkv hc
    refine hk1 ?_
    rw [← hc]
    exact List.mem_map.mpr ⟨kv, hkv, rfl⟩
  unfold recSet
  rw [if_pos hmem, List.map_append, List.map_cons]
  have e1 : List.map (fun kv : A × B =>
      if kv.1 = k then (kv.1, v) else kv) pre = List.map id pre :=
    List.map_congr_left fun kv hkv => by
      rw [if_neg (hpre kv hkv)]
      rfl
  have e2 : List.map (fun kv : A × B =>
      if kv.1 = k then (kv.1, v) else kv) rest = List.map id rest :=
    List.map_congr_left fun kv hkv => by
      rw [if_neg (hrest kv hkv)]
      rfl
  rw [e1, e2, List.map_id, List.map_id]
  simp

theorem footprint_head_mem (fuel : Nat) (h : STHeap V S) (n : Nat)
    (fp : List (Nat × Nat)) (hfp : footprint fuel h n = some fp) :
    ((0 : Nat), n) ∈ fp := by
  cases fuel with
  | zero => exact absurd hfp (by simp [footprint])
  | succ fuel =>
    unfold footprint at hfp
    cases hn : lookupA h.nodes n with
    | none => simp [hn] at hfp
    | some cell =>
      simp only [hn] at hfp
      cases hs : lookupA h.seqDicts cell.seqRef with
      | none => simp [hs] at hfp
      | some sdict =>
        cases hc : lookupA h.childDicts cell.childRef with
        | none => simp [hs, hc] at hfp
        | some cdict =>
          simp only [hs, hc] at hfp
          cases hm : mapO (fun kv => footprint fuel h kv.2) cdict with
          | none =>
            cases hr : cell.hierRef with
            | none => simp [hr, hm] at hfp
            | some href =>
              cases hhi : lookupA h.hiers href with
              | none => simp [hr, hhi] at hfp
              | some ph => simp [hr, hhi, hm] at hfp
          | some subs =>
            cases hr : cell.hierRef with
            | none =>
              simp only [hr, hm] at hfp
              injection hfp with hfp
              rw [← hfp]
              exact List.mem_cons_self _ _
            | some href =>
              cases hhi : lookupA h.hiers href with
              | none => simp [hr, hhi] at hfp
              | some ph =>
                simp only [hr, hhi, hm] at hfp
                injection hfp with hfp
                rw [← hfp]
                exact List.mem_cons_self _ _

theorem mapO_of_forall₂ {A B : Type} (f : A → Option B) :
    ∀ (l : List A) (ys : List B),
      List.Forall₂ (fun a b => f a = some b) l ys →
      mapO f l = some ys := by
  intro l
  induction l with
  | nil =>
    intro ys hf
    cases hf
    rfl
  | cons a t ih =>
    intro ys hf
    cases hf with
    | cons hab htail =>
      unfold mapO
      rw [hab, ih _ htail]
      rfl

theorem forall₂_mem_left {A B : Type} {P : A → B → Prop} :
    ∀ {l : List A} {ys : List B}, List.Forall₂ P l ys →
      ∀ a ∈ l, ∃ y ∈ ys, P a y := by
  intro l
  induction l with
  | nil =>
    intro ys _ a ha
    simp at ha
  | cons x t ih =>
    intro ys hf a ha
    cases hf with
    | cons hxy htail =>
      rcases List.mem_cons.mp ha with hax | hat
      · subst hax
        exact ⟨_, List.mem_cons_self _ _, hxy⟩
      · obtain ⟨y, hy, hp⟩ := ih htail a hat
        exact ⟨y, List.mem_cons_of_mem _ hy, hp⟩


/-- All heap cell ids are below the allocation counter. -/
def heapDom (h : STHeap V S) : Prop :=
  (∀ p ∈ h.nodes, p.1 < h.nextId) ∧
  (∀ p ∈ h.seqDicts, p.1 < h.nextId) ∧
  (∀ p ∈ h.childDicts, p.1 < h.nextId) ∧
  (∀ p ∈ h.hiers, p.1 < h.nextId)

theorem mem_recSet_fst {A B : Type} [DecidableEq A]
    (d : List (A × B)) (k : A) (v : B) :
    ∀ p ∈ recSet d k v, p.1 ∈ d.map Prod.fst ∨ p.1 = k := by
  intro p hp
  unfold recSet at hp
  by_cases hm : memA d k = true
  · rw [if_pos hm] at hp
    obtain ⟨kv, hkv, hkveq⟩ := List.mem_map.mp hp
    by_cases hk : kv.1 = k
    · rw [if_pos hk] at hkveq
      right
      rw [← hkveq]
      exact hk
    · rw [if_neg hk] at hkveq
      left
      rw [← hkveq]
      exact List.mem_map.mpr ⟨kv, hkv, rfl⟩
  · rw [if_neg hm] at hp
    rcases List.mem_append.mp hp with hd | hs
    · exact Or.inl (List.mem_map.mpr ⟨p, hd, rfl⟩)
    · right
      rw [List.mem_singleton.mp hs]

theorem lookupA_none_of_ge {B : Type} (d : List (Nat × B)) (b j : Nat)
    (hd : ∀ p ∈ d, p.1 < b) (hj : b ≤ j) : lookupA d j = none := by
  cases hl : lookupA d j with
  | none => rfl
  | some v =>
    exfalso
    have := hd (j, v) (lookupA_mem d j v hl)
    omega

theorem forall₂_imp_strong {A B : Type} {P Q : A → B → Prop} :
    ∀ {l : List A} {ys : List B}, List.Forall₂ P l ys →
      (∀ a ∈ l, ∀ b ∈ ys, P a b → Q a b) → List.Forall₂ Q l ys := by
  intro l
  induction l with
  | nil =>
    intro ys hf _
    cases hf
    exact List.Forall₂.nil
  | cons x t ih =>
    intro ys hf hq
    cases hf with
    | cons hxy htail =>
      refine List.Forall₂.cons
        (hq x (List.mem_cons_self _ _) _ (List.mem_cons_self _ _) hxy) ?_
      exact ih htail fun a ha b hb hp =>
        hq a (List.mem_cons_of_mem _ ha) b (List.mem_cons_of_mem _ hb) hp

theorem mapO_rel {A A2 B : Type} {R : A → A2 → Prop}
    (f : A → Option B) (g : A2 → Option B) :
    ∀ {l : List A} {l2 : List A2}, List.Forall₂ R l l2 →
      (∀ a ∈ l, ∀ b ∈ l2, R a b → f a = g b) →
      mapO f l = mapO g l2 := by
  intro l
  induction l with
  | nil =>
    intro l2 hf _
    cases hf
    rfl
  | cons x t ih =>
    intro l2 hf hfg
    cases hf with
    | cons hxy htail =>
      unfold mapO
      rw [hfg x (List.mem_cons_self _ _) _ (List.mem_cons_self _ _) hxy,
        ih htail fun a ha b hb hp =>
          hfg a (List.mem_cons_of_mem _ ha) b (List.mem_cons_of_mem _ hb) hp]

theorem disjoint_of_forall₂_pairwise {A C : Type} {P : A → List C → Prop}
    (hP : ∀ a y y2, P a y → P a y2 → y = y2) :
    ∀ (l : List A) (ys : List (List C)), List.Forall₂ P l ys →
      ys.Pairwise List.Disjoint →
      ∀ a ∈ l, ∀ b ∈ l, a ≠ b → ∀ ya yb, P a ya → P b yb →
        List.Disjoint ya yb := by
  intro l
  induction l with
  | nil =>
    intro ys _ _ a ha
    simp at ha
  | cons x t ih =>
    intro ys hf hpw a ha b hb hab ya yb hpa hpb
    cases hf with
    | cons hxy htail =>
      cases hpw with
      | cons hdisj hpwt =>
        rcases List.mem_cons.mp ha with hax | hat
        · subst hax
          rcases List.mem_cons.mp hb with hbx | hbt
          · exact absurd hbx.symm hab
          · obtain ⟨y2, hy2, hpb2⟩ := forall₂_mem_left htail b hbt
            rw [hP a ya _ hpa hxy, hP b yb y2 hpb hpb2]
            exact hdisj _ hy2
        · rcases List.mem_cons.mp hb with hbx | hbt
          · subst hbx
            obtain ⟨y2, hy2, hpa2⟩ := forall₂_mem_left htail a hat
            rw [hP b yb _ hpb hxy, hP a ya y2 hpa hpa2]
            exact List.Disjoint.symm (hdisj _ hy2)
          · exact ih _ htail hpwt a hat b hbt hab ya yb hpa hpb


theorem copyFoldStep_none (c : Nat)
    (f : STHeap V S → Nat → Option (STHeap V S × Nat)) :
    ∀ (l : List (Rec V × Nat)),
      List.foldl (copyFoldStep c f) none l = none := by
  intro l
  induction l with
  | nil => rfl
  | cons a t ih =>
    rw [List.foldl_cons]
    exact ih

/-- Store a new content list into a child-dictionary cell. -/
def setChildDict (h : STHeap V S) (d : Nat) (l : List (Rec V × Nat)) :
    STHeap V S :=
  { h with childDicts := recSet h.childDicts d l }

theorem mapO_mem_right {A B : Type} (f : A → Option B) :
    ∀ (l : List A) (ys : List B), mapO f l = some ys →
      ∀ y ∈ ys, ∃ a ∈ l, f a = some y := by
  intro l
  induction l with
  | nil =>
    intro ys hm y hy
    unfold mapO at hm
    injection hm with hm
    subst hm
    simp at hy
  | cons x t ih =>
    intro ys hm y hy
    unfold mapO at hm
    cases hx : f x with
    | none => simp [hx] at hm
    | some b =>
      simp only [hx] at hm
      cases ht : mapO f t with
      | none => simp [ht] at hm
      | some bs =>
        simp only [ht, Option.map_some] at hm
        injection hm with hm
        subst hm
        rcases List.mem_cons.mp hy with hyb | hyt
        · exact ⟨x, List.mem_cons_self _ _, by rw [hx, hyb]⟩
        · obtain ⟨a, ha, hfa⟩ := ih bs ht y hyt
          exact ⟨a, List.mem_cons_of_mem _ ha, hfa⟩

theorem forall₂_exists {A B : Type} {P : A → B → Prop} :
    ∀ (l : List A), (∀ a ∈ l, ∃ b, P a b) →
      ∃ ys, List.Forall₂ P l ys := by
  intro l
  induction l with
  | nil => exact fun _ => ⟨[], List.Forall₂.nil⟩
  | cons a t ih =>
    intro hall
    obtain ⟨b, hb⟩ := hall a (List.mem_cons_self _ _)
    obtain ⟨ys, hys⟩ := ih fun x hx =>
      hall x (List.mem_cons_of_mem _ hx)
    exact ⟨b :: ys, List.Forall₂.cons hb hys⟩

theorem forall₂_mem_right₂ {A B : Type} {P : A → B → Prop} :
    ∀ {l : List A} {ys : List B}, List.Forall₂ P l ys →
      ∀ y ∈ ys, ∃ a ∈ l, P a y := by
  intro l
  induction l with
  | nil =>
    intro ys hf y hy
    cases hf
    simp at hy
  | cons a t ih =>
    intro ys hf y hy
    cases hf with
    | cons hab hft =>
      rcases List.mem_cons.mp hy with hyb | hyt
      · subst hyb
        exact ⟨a, List.mem_cons_self _ _, hab⟩
      · obtain ⟨a2, ha2, hpa2⟩ := ih hft y hyt
        exact ⟨a2, List.mem_cons_of_mem _ ha2, hpa2⟩

theorem forall₂_pairwise {A B : Type} {P : A → B → Prop}
    {R : B → B → Prop}
    (hfun : ∀ a b b2, P a b → P a b2 → b = b2) :
    ∀ {l : List A} {ys : List B}, List.Forall₂ P l ys →
      List.Pairwise R ys →
      List.Pairwise (fun a a2 => ∀ b b2, P a b → P a2 b2 → R b b2)
        l := by
  intro l
  induction l with
  | nil =>
    intro ys hf _
    cases hf
    exact List.Pairwise.nil
  | cons a t ih =>
    intro ys hf hp
    cases hf with
    | cons hab hft =>
      cases hp with
      | cons hbys hpt =>
        refine List.Pairwise.cons ?_ (ih hft hpt)
        intro a2 ha2 b b2 hpb hpb2
        obtain ⟨y2, hy2, hpy2⟩ := forall₂_mem_left hft a2 ha2
        have he1 := hfun a _ b hab hpb
        have he2 := hfun a2 _ b2 hpy2 hpb2
        rw [← he1, ← he2]
        exact hbys _ hy2

theorem pairwise_of_forall₂ {A B : Type} {P : A → B → Prop}
    {Q : A → A → Prop} {R : B → B → Prop} :
    ∀ {l : List A} {ys : List B}, List.Forall₂ P l ys →
      List.Pairwise Q l →
      (∀ a b a2 b2, P a b → P a2 b2 → Q a a2 → R b b2) →
      List.Pairwise R ys := by
  intro l
  induction l with
  | nil =>
    intro ys hf _ _
    cases hf
    exact List.Pairwise.nil
  | cons a t ih =>
    intro ys hf hp htr
    cases hf with
    | cons hab hft =>
      cases hp with
      | cons haq hpt =>
        refine List.Pairwise.cons ?_ (ih hft hpt htr)
        intro y2 hy2
        obtain ⟨a2, ha2, hpa2⟩ := forall₂_mem_right₂ hft y2 hy2
        exact htr a _ a2 y2 hab hpa2 (haq a2 ha2)

theorem rdsStep_foldl_none (n : Nat)
    (go : STHeap V S → Nat → Option (STHeap V S × List S)) :
    ∀ (l : List Nat), l.foldl (rdsStep n go) none = none := by
  intro l
  induction l with
  | nil => rfl
  | cons a t ih =>
    rw [List.foldl_cons]
    exact ih

set_option maxHeartbeats 1000000 in
theorem copyNode_spec (gh : PHier V) :
    ∀ (fuel : Nat) (h : STHeap V S) (n : Nat) (fp : List (Nat × Nat))
      (hF : STHeap V S) (n2 : Nat),
      footprint fuel h n = some fp → fp.Nodup →
      (∀ p ∈ fp, p.2 < h.nextId) → heapDom h →
      (∀ d cdX, lookupA h.childDicts d = some cdX →
        (cdX.map Prod.fst).Nodup) →
      copyNode gh fuel h n = some (hF, n2) →
      h.nextId ≤ hF.nextId ∧ heapDom hF ∧
      (∀ d cdX, lookupA hF.childDicts d = some cdX →
        (cdX.map Prod.fst).Nodup) ∧
      (∀ p : Nat × Nat, p.2 < h.nextId → p ∉ fp → cellEq h hF p) ∧
      (∃ fpO, footprint fuel hF n = some fpO ∧ fpO.Nodup ∧
        (∀ p ∈ fpO, p.2 < hF.nextId) ∧
        (∀ p ∈ fpO, p.1 = 0 → p ∈ fp) ∧
        (∀ p ∈ fpO, p.1 ≠ 0 → h.nextId ≤ p.2)) ∧
      (∃ fpC, footprint fuel hF n2 = some fpC ∧ fpC.Nodup ∧
        (∀ p ∈ fpC, p.2 < hF.nextId) ∧
        (∀ p ∈ fpC, p.1 = 0 → h.nextId ≤ p.2) ∧
        (∀ p ∈ fpC, p.1 ≠ 0 → p ∈ fp)) ∧
      readTree fuel hF n = readTree fuel h n ∧
      readTree fuel hF n2 = readTree fuel h n := by
  intro fuel
  induction fuel with
  | zero =>
    intro h n fp hF n2 hfp
    exact absurd hfp (by simp [footprint])
  | succ fuel ih =>
    intro h n fp hF n2 hfp hnd hbound hdom hkeys hcp
    unfold footprint at hfp
    cases hn : lookupA h.nodes n with
    | none => simp [hn] at hfp
    | some cell =>
      simp only [hn] at hfp
      cases hs : lookupA h.seqDicts cell.seqRef with
      | none => simp [hs] at hfp
      | some sdict =>
        cases hc : lookupA h.childDicts cell.childRef with
        | none => simp [hs, hc] at hfp
        | some cdict =>
          simp only [hs, hc] at hfp
          cases hm : mapO (fun kv => footprint fuel h kv.2) cdict with
          | none =>
            cases hr : cell.hierRef with
            | none => simp [hr, hm] at hfp
            | some href =>
              cases hhi : lookupA h.hiers href with
              | none => simp [hr, hhi] at hfp
              | some ph => simp [hr, hhi, hm] at hfp
          | some subs =>
            obtain ⟨hpart, hfpeq, hhier⟩ :
                ∃ hpart, fp = (0, n) :: (1, cell.seqRef) ::
                    (2, cell.childRef) :: hpart ++ subs.flatten ∧
                  ((cell.hierRef = none ∧ hpart = []) ∨
                   (∃ href ph, cell.hierRef = some href ∧
                     lookupA h.hiers href = some ph ∧
                     hpart = [((3 : Nat), href)])) := by
              cases hr : cell.hierRef with
              | none =>
                simp only [hr, hm, List.nil_append] at hfp
                injection hfp with hfp
                exact ⟨[], by rw [← hfp], Or.inl ⟨rfl, rfl⟩⟩
              | some href =>
                cases hhi : lookupA h.hiers href with
                | none => simp [hr, hhi] at hfp
                | some ph =>
                  simp only [hr, hhi, hm] at hfp
                  injection hfp with hfp
                  exact ⟨[((3 : Nat), href)], by rw [← hfp],
                    Or.inr ⟨href, ph, rfl, hhi, rfl⟩⟩
            have hmem0 : ((0 : Nat), n) ∈ fp := by
              rw [hfpeq]
              exact List.mem_cons_self _ _
            have hmem1 : ((1 : Nat), cell.seqRef) ∈ fp := by
              rw [hfpeq]
              exact List.mem_cons_of_mem _ (List.mem_cons_self _ _)
            have hmem2 : ((2 : Nat), cell.childRef) ∈ fp := by
              rw [hfpeq]
              exact List.mem_cons_of_mem _ (List.mem_cons_of_mem _
                (List.mem_cons_self _ _))
            have hb0 : n < h.nextId := hbound _ hmem0
            have hb1 : cell.seqRef < h.nextId := hbound _ hmem1
            have hb2 : cell.childRef < h.nextId := hbound _ hmem2
            have hflat_sub : ∀ p ∈ subs.flatten, p ∈ fp := by
              intro p hp
              rw [hfpeq]
              exact List.mem_cons_of_mem _ (List.mem_cons_of_mem _
                (List.mem_cons_of_mem _ (List.mem_append.mpr (Or.inr hp))))
            have hnd2 := hnd
            rw [hfpeq, List.nodup_append] at hnd2
            obtain ⟨hndL, hndflat, hdisjLflat⟩ := hnd2
            rw [List.nodup_flatten] at hndflat
            obtain ⟨hndeach, hpw⟩ := hndflat
            rw [List.nodup_cons] at hndL
            obtain ⟨hh0, hndL⟩ := hndL
            rw [List.nodup_cons] at hndL
            obtain ⟨hh1, hndL⟩ := hndL
            rw [List.nodup_cons] at hndL
            obtain ⟨hh2, hndhp⟩ := hndL
            have hh0flat : ((0 : Nat), n) ∉ subs.flatten := by
              intro hx
              exact hdisjLflat (List.mem_cons_self _ _) hx
            have hh1flat : ((1 : Nat), cell.seqRef) ∉ subs.flatten := by
              intro hx
              exact hdisjLflat (List.mem_cons_of_mem _
                (List.mem_cons_self _ _)) hx
            have hh2flat : ((2 : Nat), cell.childRef) ∉ subs.flatten := by
              intro hx
              exact hdisjLflat (List.mem_cons_of_mem _
                (List.mem_cons_of_mem _ (List.mem_cons_self _ _))) hx
            have hhpflat : ∀ p ∈ hpart, p ∉ subs.flatten := by
              intro p hp hx
              exact hdisjLflat (List.mem_cons_of_mem _
                (List.mem_cons_of_mem _ (List.mem_cons_of_mem _ hp))) hx
            have hfa : List.Forall₂
                (fun kv fpc => footprint fuel h kv.2 = some fpc)
                cdict subs :=
              mapO_forall _ _ cdict subs hm fun a b hb => hb
            have hchild : ∀ kv ∈ cdict, ∃ fpc,
                footprint fuel h kv.2 = some fpc ∧ fpc ∈ subs := by
              intro kv hkv
              obtain ⟨y, hy, hfy⟩ := forall₂_mem_left hfa kv hkv
              exact ⟨y, hfy, hy⟩
            have hchdisj : ∀ kv ∈ cdict, ∀ kv2 ∈ cdict, kv ≠ kv2 →
                ∀ fpc fpc2, footprint fuel h kv.2 = some fpc →
                  footprint fuel h kv2.2 = some fpc2 →
                  List.Disjoint fpc fpc2 :=
              disjoint_of_forall₂_pairwise
                (fun a y y2 hy hy2 => by
                  rw [hy] at hy2
                  exact Option.some.inj hy2)
                cdict subs hfa hpw
            unfold copyNode at hcp
            simp only [hn] at hcp
            have hsA : lookupA (copyAlloc gh h).seqDicts cell.seqRef =
                some sdict := by
              show lookupA (h.seqDicts ++ [(h.nextId, [])]) cell.seqRef =
                some sdict
              rw [lookupA_append_single _ _ _ _ (by omega)]
              exact hs
            have hcA : lookupA (copyAlloc gh h).childDicts cell.childRef =
                some cdict := by
              show lookupA (h.childDicts ++ [(h.nextId + 1, [])])
                cell.childRef = some cdict
              rw [lookupA_append_single _ _ _ _ (by omega)]
              exact hc
            simp only [hsA, hcA] at hcp
            cases hfl : cdict.foldl
                (copyFoldStep cell.childRef (copyNode gh fuel))
                (some (copySnap (copyAlloc gh h) sdict cdict)) with
            | none => simp [hfl] at hcp
            | some h5 =>
              simp only [hfl] at hcp
              have hagree0 : ∀ p : Nat × Nat, p.2 < h.nextId →
                  cellEq h (copySnap (copyAlloc gh h) sdict cdict) p := by
                intro p hp
                refine ⟨fun _ => ?_, fun _ => ?_, fun _ => ?_, fun _ => ?_⟩
                · show lookupA (h.nodes ++ [(h.nextId + 3,
                    (⟨0, none, h.nextId, h.nextId + 1,
                      some (h.nextId + 2)⟩ : NodeCell V))]) p.2 =
                    lookupA h.nodes p.2
                  rw [lookupA_append_single _ _ _ _ (by omega)]
                · show lookupA ((h.seqDicts ++ [(h.nextId, [])]) ++
                    [(h.nextId + 4, sdict)]) p.2 = lookupA h.seqDicts p.2
                  rw [lookupA_append_single _ _ _ _ (by omega),
                    lookupA_append_single _ _ _ _ (by omega)]
                · show lookupA ((h.childDicts ++ [(h.nextId + 1, [])]) ++
                    [(h.nextId + 5, cdict)]) p.2 = lookupA h.childDicts p.2
                  rw [lookupA_append_single _ _ _ _ (by omega),
                    lookupA_append_single _ _ _ _ (by omega)]
                · show lookupA (h.hiers ++ [(h.nextId + 2, gh)]) p.2 =
                    lookupA h.hiers p.2
                  rw [lookupA_append_single _ _ _ _ (by omega)]
              have hfold :
                  ∀ (todo pre : List (Rec V × Nat)) (hcur h5x : STHeap V S),
                    List.foldl
                      (copyFoldStep cell.childRef (copyNode gh fuel))
                      (some hcur) todo = some h5x →
                    lookupA hcur.childDicts cell.childRef =
                      some (pre ++ todo) →
                    h.nextId ≤ hcur.nextId →
                    heapDom hcur →
                    (∀ d cdX, lookupA hcur.childDicts d = some cdX →
                      (cdX.map Prod.fst).Nodup) →
                    (∀ kv ∈ todo, ∃ fpc,
                      footprint fuel hcur kv.2 = some fpc ∧ fpc.Nodup ∧
                      (∀ p ∈ fpc, p ∈ fp) ∧
                      ((2 : Nat), cell.childRef) ∉ fpc) →
                    (∀ kv ∈ todo, ∀ kv2 ∈ todo, kv ≠ kv2 →
                      ∀ fpc fpc2, footprint fuel hcur kv.2 = some fpc →
                        footprint fuel hcur kv2.2 = some fpc2 →
                        List.Disjoint fpc fpc2) →
                    ∃ post subsO subsC,
                      lookupA h5x.childDicts cell.childRef =
                        some (pre ++ post) ∧
                      hcur.nextId ≤ h5x.nextId ∧
                      heapDom h5x ∧
                      (∀ d cdX, lookupA h5x.childDicts d = some cdX →
                        (cdX.map Prod.fst).Nodup) ∧
                      (∀ p : Nat × Nat, p.2 < hcur.nextId →
                        (∀ kv ∈ todo, ∀ fpc,
                          footprint fuel hcur kv.2 = some fpc → p ∉ fpc) →
                        p ≠ (2, cell.childRef) → cellEq hcur h5x p) ∧
                      List.Forall₂ (fun kv kv2 => kv2.1 = kv.1 ∧
                        readTree fuel h5x kv.2 = readTree fuel hcur kv.2 ∧
                        readTree fuel h5x kv2.2 = readTree fuel hcur kv.2)
                        todo post ∧
                      List.Forall₂ (fun kv fpc =>
                        footprint fuel h5x kv.2 = some fpc) todo subsO ∧
                      List.Forall₂ (fun kv2 fpc =>
                        footprint fuel h5x kv2.2 = some fpc) post subsC ∧
                      (subsO.flatten ++ subsC.flatten).Nodup ∧
                      (∀ p ∈ subsO.flatten, p.2 < h5x.nextId ∧
                        (p.1 = 0 → p ∈ fp ∧ p.2 < h.nextId) ∧
                        (p.1 ≠ 0 → h.nextId ≤ p.2)) ∧
                      (∀ p ∈ subsC.flatten, p.2 < h5x.nextId ∧
                        (p.1 = 0 → h.nextId ≤ p.2) ∧
                        (p.1 ≠ 0 → p ∈ fp ∧ p.2 < h.nextId)) ∧
                      (∀ p : Nat × Nat,
                        p ∈ subsO.flatten ∨ p ∈ subsC.flatten →
                        ((∃ kv ∈ todo, ∃ fpc,
                          footprint fuel hcur kv.2 = some fpc ∧ p ∈ fpc) ∨
                          hcur.nextId ≤ p.2)) := by
                intro todo
                induction todo with
                | nil =>
                  intro pre hcur h5x hflx hdictc hnx hdomc hkc hI1 hI2
                  rw [List.foldl_nil] at hflx
                  injection hflx with hflx
                  subst hflx
                  refine ⟨[], [], [], hdictc, le_refl _, hdomc, hkc, ?_,
                    List.Forall₂.nil, List.Forall₂.nil, List.Forall₂.nil,
                    by simp, by simp, by simp, by simp⟩
                  intro p _ _ _
                  exact cellEq_refl _ _
                | cons kv todo' ihf =>
                  intro pre hcur h5x hflx hdictc hnx hdomc hkc hI1 hI2
                  rw [List.foldl_cons] at hflx
                  obtain ⟨fpc, hfpc, hfpcnd, hfpcsub, hfpcdict⟩ :=
                    hI1 kv (List.mem_cons_self _ _)
                  have hfpcbound : ∀ p ∈ fpc, p.2 < h.nextId :=
                    fun p hp => hbound p (hfpcsub p hp)
                  cases hcp1 : copyNode gh fuel hcur kv.2 with
                  | none =>
                    rw [show copyFoldStep cell.childRef (copyNode gh fuel)
                        (some hcur) kv = none from by
                      simp only [copyFoldStep, hcp1],
                      copyFoldStep_none] at hflx
                    exact absurd hflx (by simp)
                  | some pr =>
                    obtain ⟨h4, cpRef⟩ := pr
                    obtain ⟨hnx4, hdom4, hkeys4, hframe4,
                      ⟨fpO1, hfpO1, hfpO1nd, hfpO1b, hfpO1k0, hfpO1kn⟩,
                      ⟨fpC1, hfpC1, hfpC1nd, hfpC1b, hfpC1k0, hfpC1kn⟩,
                      hrdO1, hrdC1⟩ :=
                      ih hcur kv.2 fpc h4 cpRef hfpc hfpcnd
                        (fun p hp => lt_of_lt_of_le (hfpcbound p hp) hnx)
                        hdomc hkc hcp1
                    have hdict4 : lookupA h4.childDicts cell.childRef =
                        some (pre ++ kv :: todo') := by
                      have hce := hframe4 (2, cell.childRef)
                        (lt_of_lt_of_le hb2 hnx) hfpcdict
                      rw [hce.2.2.1 rfl]
                      exact hdictc
                    have hkeyscur :
                        ((pre ++ kv :: todo').map Prod.fst).Nodup :=
                      hkeys4 _ _ hdict4
                    have hmid : recSet (pre ++ kv :: todo') kv.1 cpRef =
                        pre ++ (kv.1, cpRef) :: todo' := by
                      have hx := recSet_middle pre todo' kv.1 kv.2 cpRef
                        hkeyscur
                      exact hx
                    have hstep : copyFoldStep cell.childRef
                        (copyNode gh fuel) (some hcur) kv =
                        some (setChildDict h4 cell.childRef
                          (pre ++ (kv.1, cpRef) :: todo')) := by
                      simp only [copyFoldStep, hcp1, hdict4]
                      rw [hmid]
                      rfl
                    rw [hstep] at hflx
                    have hkvnotin : ∀ kv2 ∈ todo', kv2 ≠ kv := by
                      intro kv2 hkv2 he
                      have hx := hkeyscur
                      rw [List.map_append, List.nodup_append] at hx
                      have hy := hx.2.1
                      rw [List.map_cons, List.nodup_cons] at hy
                      apply hy.1
                      rw [← he]
                      exact List.mem_map.mpr ⟨kv2, hkv2, rfl⟩
                    have hI1X : ∀ kv2 ∈ todo', ∃ fpc2,
                        footprint fuel (setChildDict h4 cell.childRef
                          (pre ++ (kv.1, cpRef) :: todo')) kv2.2 =
                          some fpc2 ∧
                        fpc2.Nodup ∧ (∀ p ∈ fpc2, p ∈ fp) ∧
                        ((2 : Nat), cell.childRef) ∉ fpc2 ∧
                        readTree fuel (setChildDict h4 cell.childRef
                          (pre ++ (kv.1, cpRef) :: todo')) kv2.2 =
                          readTree fuel hcur kv2.2 ∧
                        footprint fuel hcur kv2.2 = some fpc2 := by
                      intro kv2 hkv2
                      obtain ⟨fpc2, hfpc2, hfpc2nd, hfpc2sub, hfpc2dict⟩ :=
                        hI1 kv2 (List.mem_cons_of_mem _ hkv2)
                      have hdisj21 : List.Disjoint fpc2 fpc :=
                        hI2 kv2 (List.mem_cons_of_mem _ hkv2) kv
                          (List.mem_cons_self _ _) (hkvnotin kv2 hkv2)
                          fpc2 fpc hfpc2 hfpc
                      have hag : ∀ p ∈ fpc2, cellEq hcur
                          (setChildDict h4 cell.childRef
                            (pre ++ (kv.1, cpRef) :: todo')) p := by
                        intro p hp
                        refine cellEq_trans _ h4 _ p ?_ ?_
                        · exact hframe4 p (lt_of_lt_of_le
                            (hbound p (hfpc2sub p hp)) hnx)
                            (fun hin => hdisj21 hp hin)
                        · refine ⟨fun _ => rfl, fun _ => rfl,
                            fun h2p => ?_, fun _ => rfl⟩
                          show lookupA (recSet h4.childDicts cell.childRef
                            (pre ++ (kv.1, cpRef) :: todo')) p.2 =
                            lookupA h4.childDicts p.2
                          rw [lookupA_recSet, if_neg ?_]
                          intro hpc
                          apply hfpc2dict
                          have hpe : p = (2, cell.childRef) := by
                            cases p
                            simp only at h2p hpc
                            rw [h2p, hpc]
                          rw [← hpe]
                          exact hp
                      obtain ⟨hfp2X, hrd2X⟩ := footprint_agree fuel hcur _
                        kv2.2 fpc2 hfpc2 hag
                      exact ⟨fpc2, hfp2X, hfpc2nd, hfpc2sub, hfpc2dict,
                        hrd2X, hfpc2⟩
                    have hdomX : heapDom (setChildDict h4 cell.childRef
                        (pre ++ (kv.1, cpRef) :: todo')) := by
                      obtain ⟨hdn, hds, hdc, hdh⟩ := hdom4
                      refine ⟨hdn, hds, ?_, hdh⟩
                      intro p hp
                      rcases mem_recSet_fst h4.childDicts cell.childRef
                        (pre ++ (kv.1, cpRef) :: todo') p hp with hin | heq
                      · obtain ⟨q, hq, hqe⟩ := List.mem_map.mp hin
                        show p.1 < h4.nextId
                        rw [← hqe]
                        exact hdc q hq
                      · show p.1 < h4.nextId
                        rw [heq]
                        exact lt_of_lt_of_le hb2 (le_trans hnx hnx4)
                    have hkeysX : ∀ d cdX, lookupA
                        (recSet h4.childDicts cell.childRef
                          (pre ++ (kv.1, cpRef) :: todo')) d = some cdX →
                        (cdX.map Prod.fst).Nodup := by
                      intro d cdX hlk
                      rw [lookupA_recSet] at hlk
                      by_cases hd : d = cell.childRef
                      · rw [if_pos hd] at hlk
                        injection hlk with hlk
                        rw [← hlk]
                        have hmf : (pre ++ (kv.1, cpRef) :: todo').map
                            Prod.fst = (pre ++ kv :: todo').map Prod.fst :=
                          by simp
                        rw [hmf]
                        exact hkeyscur
                      · rw [if_neg hd] at hlk
                        exact hkeys4 _ _ hlk
                    have hdictX : lookupA (recSet h4.childDicts
                        cell.childRef (pre ++ (kv.1, cpRef) :: todo'))
                        cell.childRef =
                        some ((pre ++ [(kv.1, cpRef)]) ++ todo') := by
                      rw [lookupA_recSet, if_pos rfl]
                      simp
                    obtain ⟨post', subsO', subsC', hdict5, hnx5, hdom5,
                      hkeys5, hframe5, hf2read, hf2O, hf2C, hndOC,
                      hcharO, hcharC, hlast⟩ :=
                      ihf (pre ++ [(kv.1, cpRef)]) _ h5x hflx hdictX
                        (le_trans hnx (le_trans hnx4 (le_refl _))) hdomX
                        hkeysX
                        (fun kv2 hkv2 => by
                          obtain ⟨fpc2, ha, hb', hc', hd', _, _⟩ :=
                            hI1X kv2 hkv2
                          exact ⟨fpc2, ha, hb', hc', hd'⟩)
                        (fun kv2 hkv2 kv3 hkv3 hne23 fpc2 fpc3 hf2 hf3 =>
                          by
                          obtain ⟨fpc2o, ha2, _, _, _, _, hcur2⟩ :=
                            hI1X kv2 hkv2
                          obtain ⟨fpc3o, ha3, _, _, _, _, hcur3⟩ :=
                            hI1X kv3 hkv3
                          rw [ha2] at hf2
                          rw [ha3] at hf3
                          have he2 : fpc2 = fpc2o :=
                            (Option.some.inj hf2).symm
                          have he3 : fpc3 = fpc3o :=
                            (Option.some.inj hf3).symm
                          rw [he2, he3]
                          exact hI2 kv2 (List.mem_cons_of_mem _ hkv2) kv3
                            (List.mem_cons_of_mem _ hkv3) hne23 fpc2o
                            fpc3o hcur2 hcur3)
                    have hagO1 : ∀ p ∈ fpO1, cellEq h4 h5x p := by
                      intro p hp
                      refine cellEq_trans _ (setChildDict h4
                        cell.childRef (pre ++ (kv.1, cpRef) :: todo'))
                        _ p ?_ ?_
                      · refine ⟨fun _ => rfl, fun _ => rfl,
                          fun h2p => ?_, fun _ => rfl⟩
                        show lookupA (recSet h4.childDicts cell.childRef
                          (pre ++ (kv.1, cpRef) :: todo')) p.2 =
                          lookupA h4.childDicts p.2
                        rw [lookupA_recSet, if_neg ?_]
                        intro hpc
                        have hge : hcur.nextId ≤ p.2 :=
                          hfpO1kn p hp (by omega)
                        rw [hpc] at hge
                        omega
                      · refine hframe5 p ?_ ?_ ?_
                        · show p.2 < h4.nextId
                          exact hfpO1b p hp
                        · intro kv2 hkv2 fpc2' hfp2'
                          obtain ⟨fpc2, hfp2X, _, hfpc2sub, _, _,
                            hfpc2cur⟩ := hI1X kv2 hkv2
                          rw [hfp2X] at hfp2'
                          have he : fpc2 = fpc2' :=
                            Option.some.inj hfp2'
                          subst he
                          intro hpin
                          by_cases hk0 : p.1 = 0
                          · have hpfpc := hfpO1k0 p hp hk0
                            exact hI2 kv (List.mem_cons_self _ _) kv2
                              (List.mem_cons_of_mem _ hkv2)
                              (fun he2 => hkvnotin kv2 hkv2 he2.symm)
                              fpc fpc2 hfpc hfpc2cur hpfpc hpin
                          · have hge := hfpO1kn p hp hk0
                            have hlt := hbound p (hfpc2sub p hpin)
                            omega
                        · intro he
                          rw [he] at hp
                          have hge : hcur.nextId ≤ cell.childRef :=
                            hfpO1kn _ hp (by omega)
                          omega
                    have hagC1 : ∀ p ∈ fpC1, cellEq h4 h5x p := by
                      intro p hp
                      refine cellEq_trans _ (setChildDict h4
                        cell.childRef (pre ++ (kv.1, cpRef) :: todo'))
                        _ p ?_ ?_
                      · refine ⟨fun _ => rfl, fun _ => rfl,
                          fun h2p => ?_, fun _ => rfl⟩
                        show lookupA (recSet h4.childDicts cell.childRef
                          (pre ++ (kv.1, cpRef) :: todo')) p.2 =
                          lookupA h4.childDicts p.2
                        rw [lookupA_recSet, if_neg ?_]
                        intro hpc
                        have hin : p ∈ fpc := hfpC1kn p hp (by omega)
                        apply hfpcdict
                        have hpe : p = (2, cell.childRef) := by
                          cases p
                          simp only at h2p hpc
                          rw [h2p, hpc]
                        rw [← hpe]
                        exact hin
                      · refine hframe5 p ?_ ?_ ?_
                        · show p.2 < h4.nextId
                          exact hfpC1b p hp
                        · intro kv2 hkv2 fpc2' hfp2'
                          obtain ⟨fpc2, hfp2X, _, hfpc2sub, _, _,
                            hfpc2cur⟩ := hI1X kv2 hkv2
                          rw [hfp2X] at hfp2'
                          have he : fpc2 = fpc2' :=
                            Option.some.inj hfp2'
                          subst he
                          intro hpin
                          by_cases hk0 : p.1 = 0
                          · have hge := hfpC1k0 p hp hk0
                            have hlt := hbound p (hfpc2sub p hpin)
                            omega
                          · have hpfpc := hfpC1kn p hp hk0
                            exact hI2 kv (List.mem_cons_self _ _) kv2
                              (List.mem_cons_of_mem _ hkv2)
                              (fun he2 => hkvnotin kv2 hkv2 he2.symm)
                              fpc fpc2 hfpc hfpc2cur hpfpc hpin
                        · intro he
                          rw [he] at hp
                          have hin : (2, cell.childRef) ∈ fpc :=
                            hfpC1kn _ hp (by omega)
                          exact hfpcdict hin
                    obtain ⟨hfO1at5, hrdO1at5⟩ := footprint_agree fuel h4
                      h5x kv.2 fpO1 hfpO1 hagO1
                    obtain ⟨hfC1at5, hrdC1at5⟩ := footprint_agree fuel h4
                      h5x cpRef fpC1 hfpC1 hagC1
                    refine ⟨(kv.1, cpRef) :: post', fpO1 :: subsO',
                      fpC1 :: subsC', ?_, ?_, hdom5, hkeys5, ?_, ?_, ?_,
                      ?_, ?_, ?_, ?_, ?_⟩
                    · rw [hdict5]
                      simp
                    · exact le_trans hnx4 hnx5
                    · intro p hplt hnofp hnotc
                      refine cellEq_trans _ h4 _ p ?_ ?_
                      · exact hframe4 p hplt
                          (hnofp kv (List.mem_cons_self _ _) fpc hfpc)
                      · refine cellEq_trans _ (setChildDict h4
                          cell.childRef (pre ++ (kv.1, cpRef) :: todo'))
                          _ p ?_ ?_
                        · refine ⟨fun _ => rfl, fun _ => rfl,
                            fun h2p => ?_, fun _ => rfl⟩
                          show lookupA (recSet h4.childDicts cell.childRef
                            (pre ++ (kv.1, cpRef) :: todo')) p.2 =
                            lookupA h4.childDicts p.2
                          rw [lookupA_recSet, if_neg ?_]
                          intro hpc
                          apply hnotc
                          cases p
                          simp only at h2p hpc
                          rw [h2p, hpc]
                        · refine hframe5 p ?_ ?_ hnotc
                          · show p.2 < h4.nextId
                            exact lt_of_lt_of_le hplt hnx4
                          · intro kv2 hkv2 fpc2' hfp2'
                            obtain ⟨fpc2, hfp2X, _, _, _, _, hfpc2cur⟩ :=
                              hI1X kv2 hkv2
                            rw [hfp2X] at hfp2'
                            have he : fpc2 = fpc2' :=
                              Option.some.inj hfp2'
                            subst he
                            exact hnofp kv2 (List.mem_cons_of_mem _ hkv2)
                              fpc2 hfpc2cur
                    · refine List.Forall₂.cons ⟨rfl, ?_, ?_⟩ ?_
                      · rw [hrdO1at5, hrdO1]
                      · rw [hrdC1at5, hrdC1]
                      · refine forall₂_imp_strong hf2read ?_
                        intro kv2 hkv2 kv22 _ hrel
                        obtain ⟨fpc2, _, _, _, _, hrdX, _⟩ :=
                          hI1X kv2 hkv2
                        exact ⟨hrel.1, by rw [hrel.2.1, hrdX],
                          by rw [hrel.2.2, hrdX]⟩
                    · exact List.Forall₂.cons hfO1at5 hf2O
                    · exact List.Forall₂.cons hfC1at5 hf2C
                    · show ((fpO1 ++ subsO'.flatten) ++
                        (fpC1 ++ subsC'.flatten)).Nodup
                      rw [List.nodup_append] at hndOC
                      obtain ⟨hndO', hndC', hdisjOC'⟩ := hndOC
                      have hdO1C1 : ∀ p ∈ fpO1, p ∈ fpC1 → False := by
                        intro p hpO hpC
                        by_cases hk0 : p.1 = 0
                        · have h1 := hfpO1k0 p hpO hk0
                          have h2 := hfpC1k0 p hpC hk0
                          have h3 := hbound p (hfpcsub p h1)
                          omega
                        · have h1 := hfpO1kn p hpO hk0
                          have h2 := hfpC1kn p hpC hk0
                          have h3 := hbound p (hfpcsub p h2)
                          omega
                      have hO1tail : ∀ p ∈ fpO1,
                          p ∈ subsO'.flatten ∨ p ∈ subsC'.flatten →
                          False := by
                        intro p hpO hptail
                        rcases hlast p hptail with
                          ⟨kv2, hkv2, fpc2', hfp2', hpin⟩ | hge
                        · obtain ⟨fpc2, hfp2X, _, hfpc2sub, _, _,
                            hfpc2cur⟩ := hI1X kv2 hkv2
                          rw [hfp2X] at hfp2'
                          have he : fpc2 = fpc2' :=
                            Option.some.inj hfp2'
                          subst he
                          by_cases hk0 : p.1 = 0
                          · exact hI2 kv (List.mem_cons_self _ _) kv2
                              (List.mem_cons_of_mem _ hkv2)
                              (fun he2 => hkvnotin kv2 hkv2 he2.symm)
                              fpc fpc2 hfpc hfpc2cur
                              (hfpO1k0 p hpO hk0) hpin
                          · have hge2 := hfpO1kn p hpO hk0
                            have hlt := hbound p (hfpc2sub p hpin)
                            omega
                        · have hlt : p.2 < h4.nextId := hfpO1b p hpO
                          have hge2 : h4.nextId ≤ p.2 := hge
                          omega
                      have hC1tail : ∀ p ∈ fpC1,
                          p ∈ subsO'.flatten ∨ p ∈ subsC'.flatten →
                          False := by
                        intro p hpC hptail
                        rcases hlast p hptail with
                          ⟨kv2, hkv2, fpc2', hfp2', hpin⟩ | hge
                        · obtain ⟨fpc2, hfp2X, _, hfpc2sub, _, _,
                            hfpc2cur⟩ := hI1X kv2 hkv2
                          rw [hfp2X] at hfp2'
                          have he : fpc2 = fpc2' :=
                            Option.some.inj hfp2'
                          subst he
                          by_cases hk0 : p.1 = 0
                          · have hge2 := hfpC1k0 p hpC hk0
                            have hlt := hbound p (hfpc2sub p hpin)
                            omega
                          · exact hI2 kv (List.mem_cons_self _ _) kv2
                              (List.mem_cons_of_mem _ hkv2)
                              (fun he2 => hkvnotin kv2 hkv2 he2.symm)
                              fpc fpc2 hfpc hfpc2cur
                              (hfpC1kn p hpC hk0) hpin
                        · have hlt : p.2 < h4.nextId := hfpC1b p hpC
                          have hge2 : h4.nextId ≤ p.2 := hge
                          omega
                      rw [List.nodup_append, List.nodup_append,
                        List.nodup_append]
                      refine ⟨⟨hfpO1nd, hndO', ?_⟩, ⟨hfpC1nd, hndC', ?_⟩,
                        ?_⟩
                      · intro p hpO hpB
                        exact hO1tail p hpO (Or.inl hpB)
                      · intro p hpC hpD
                        exact hC1tail p hpC (Or.inr hpD)
                      · intro p hpAB hpCD
                        rcases List.mem_append.mp hpAB with hpA | hpB
                        · rcases List.mem_append.mp hpCD with hpC | hpD
                          · exact hdO1C1 p hpA hpC
                          · exact hO1tail p hpA (Or.inr hpD)
                        · rcases List.mem_append.mp hpCD with hpC | hpD
                          · exact hC1tail p hpC (Or.inl hpB)
                          · exact hdisjOC' hpB hpD
                    · intro p hp
                      rw [List.flatten_cons, List.mem_append] at hp
                      rcases hp with hpA | hpB
                      · refine ⟨lt_of_lt_of_le (hfpO1b p hpA) hnx5, ?_,
                          ?_⟩
                        · intro hk0
                          have h1 := hfpO1k0 p hpA hk0
                          exact ⟨hfpcsub p h1, hbound p (hfpcsub p h1)⟩
                        · intro hk0
                          exact le_trans hnx (hfpO1kn p hpA hk0)
                      · exact hcharO p hpB
                    · intro p hp
                      rw [List.flatten_cons, List.mem_append] at hp
                      rcases hp with hpA | hpB
                      · refine ⟨lt_of_lt_of_le (hfpC1b p hpA) hnx5, ?_,
                          ?_⟩
                        · intro hk0
                          exact le_trans hnx (hfpC1k0 p hpA hk0)
                        · intro hk0
                          have h1 := hfpC1kn p hpA hk0
                          exact ⟨hfpcsub p h1, hbound p (hfpcsub p h1)⟩
                      · exact hcharC p hpB
                    · intro p hp
                      have hp2 : p ∈ fpO1 ∨ p ∈ fpC1 ∨
                          p ∈ subsO'.flatten ∨ p ∈ subsC'.flatten := by
                        rcases hp with hpO | hpC
                        · rw [List.flatten_cons, List.mem_append] at hpO
                          rcases hpO with h1 | h2
                          · exact Or.inl h1
                          · exact Or.inr (Or.inr (Or.inl h2))
                        · rw [List.flatten_cons, List.mem_append] at hpC
                          rcases hpC with h1 | h2
                          · exact Or.inr (Or.inl h1)
                          · exact Or.inr (Or.inr (Or.inr h2))
                      rcases hp2 with hpA | hpC | hpB | hpD
                      · by_cases hk0 : p.1 = 0
                        · exact Or.inl ⟨kv, List.mem_cons_self _ _, fpc,
                            hfpc, hfpO1k0 p hpA hk0⟩
                        · exact Or.inr (hfpO1kn p hpA hk0)
                      · by_cases hk0 : p.1 = 0
                        · exact Or.inr (hfpC1k0 p hpC hk0)
                        · exact Or.inl ⟨kv, List.mem_cons_self _ _, fpc,
                            hfpc, hfpC1kn p hpC hk0⟩
                      · rcases hlast p (Or.inl hpB) with
                          ⟨kv2, hkv2, fpc2', hfp2', hpin⟩ | hge
                        · obtain ⟨fpc2, hfp2X, _, _, _, _, hfpc2cur⟩ :=
                            hI1X kv2 hkv2
                          rw [hfp2X] at hfp2'
                          have he : fpc2 = fpc2' :=
                            Option.some.inj hfp2'
                          subst he
                          exact Or.inl ⟨kv2, List.mem_cons_of_mem _ hkv2,
                            fpc2, hfpc2cur, hpin⟩
                        · exact Or.inr (le_trans (le_trans hnx4
                            (le_refl _)) hge)
                      · rcases hlast p (Or.inr hpD) with
                          ⟨kv2, hkv2, fpc2', hfp2', hpin⟩ | hge
                        · obtain ⟨fpc2, hfp2X, _, _, _, _, hfpc2cur⟩ :=
                            hI1X kv2 hkv2
                          rw [hfp2X] at hfp2'
                          have he : fpc2 = fpc2' :=
                            Option.some.inj hfp2'
                          subst he
                          exact Or.inl ⟨kv2, List.mem_cons_of_mem _ hkv2,
                            fpc2, hfpc2cur, hpin⟩
                        · exact Or.inr (le_trans (le_trans hnx4
                            (le_refl _)) hge)
              have hS2dict : lookupA (copySnap (copyAlloc gh h) sdict
                  cdict).childDicts cell.childRef = some cdict := by
                show lookupA ((h.childDicts ++ [(h.nextId + 1, [])]) ++
                  [(h.nextId + 5, cdict)]) cell.childRef = some cdict
                rw [lookupA_append_single _ _ _ _ (by omega),
                  lookupA_append_single _ _ _ _ (by omega)]
                exact hc
              have hS2nx : h.nextId ≤ (copySnap (copyAlloc gh h) sdict
                  cdict).nextId := by
                show h.nextId ≤ h.nextId + 4 + 2
                omega
              have hS2dom : heapDom (copySnap (copyAlloc gh h) sdict
                  cdict) := by
                obtain ⟨hdn, hds, hdc, hdh⟩ := hdom
                refine ⟨?_, ?_, ?_, ?_⟩
                · intro p hp
                  show p.1 < h.nextId + 4 + 2
                  rcases List.mem_append.mp hp with h1 | h2
                  · have := hdn p h1
                    omega
                  · rw [List.mem_singleton.mp h2]
                    omega
                · intro p hp
                  show p.1 < h.nextId + 4 + 2
                  rcases List.mem_append.mp hp with h1 | h2
                  · rcases List.mem_append.mp h1 with h3 | h4
                    · have := hds p h3
                      omega
                    · rw [List.mem_singleton.mp h4]
                      show h.nextId < h.nextId + 4 + 2
                      omega
                  · rw [List.mem_singleton.mp h2]
                    show h.nextId + 4 < h.nextId + 4 + 2
                    omega
                · intro p hp
                  show p.1 < h.nextId + 4 + 2
                  rcases List.mem_append.mp hp with h1 | h2
                  · rcases List.mem_append.mp h1 with h3 | h4
                    · have := hdc p h3
                      omega
                    · rw [List.mem_singleton.mp h4]
                      show h.nextId + 1 < h.nextId + 4 + 2
                      omega
                  · rw [List.mem_singleton.mp h2]
                    show h.nextId + 5 < h.nextId + 4 + 2
                    omega
                · intro p hp
                  show p.1 < h.nextId + 4 + 2
                  rcases List.mem_append.mp hp with h1 | h2
                  · have := hdh p h1
                    omega
                  · rw [List.mem_singleton.mp h2]
                    omega
              have hS2keys : ∀ d cdX, lookupA (copySnap (copyAlloc gh h)
                  sdict cdict).childDicts d = some cdX →
                  (cdX.map Prod.fst).Nodup := by
                intro d cdX hlk
                have hlk2 : lookupA ((h.childDicts ++
                  [(h.nextId + 1, [])]) ++ [(h.nextId + 5, cdict)]) d =
                  some cdX := hlk
                rw [lookupA_append_gen] at hlk2
                cases hx : lookupA (h.childDicts ++ [(h.nextId + 1, [])])
                  d with
                | some y =>
                  rw [hx] at hlk2
                  simp only at hlk2
                  injection hlk2 with hlk2
                  subst hlk2
                  rw [lookupA_append_gen] at hx
                  cases hy : lookupA h.childDicts d with
                  | some z =>
                    rw [hy] at hx
                    simp only at hx
                    injection hx with hx
                    subst hx
                    exact hkeys _ _ hy
                  | none =>
                    rw [hy] at hx
                    simp only [lookupA] at hx
                    by_cases hd : h.nextId + 1 = d
                    · rw [if_pos hd] at hx
                      injection hx with hx
                      subst hx
                      simp
                    · rw [if_neg hd] at hx
                      exact absurd hx (by simp)
                | none =>
                  rw [hx] at hlk2
                  simp only [lookupA] at hlk2
                  by_cases hd : h.nextId + 5 = d
                  · rw [if_pos hd] at hlk2
                    injection hlk2 with hlk2
                    subst hlk2
                    exact hkeys _ _ hc
                  · rw [if_neg hd] at hlk2
                    exact absurd hlk2 (by simp)
              have hS2I1 : ∀ kv ∈ cdict, ∃ fpc,
                  footprint fuel (copySnap (copyAlloc gh h) sdict cdict)
                    kv.2 = some fpc ∧ fpc.Nodup ∧ (∀ p ∈ fpc, p ∈ fp) ∧
                  ((2 : Nat), cell.childRef) ∉ fpc ∧
                  footprint fuel h kv.2 = some fpc ∧
                  readTree fuel (copySnap (copyAlloc gh h) sdict cdict)
                    kv.2 = readTree fuel h kv.2 ∧ fpc ∈ subs := by
                intro kv hkv
                obtain ⟨fpc, hfpc, hfpcmem⟩ := hchild kv hkv
                have hsub : ∀ p ∈ fpc, p ∈ fp := by
                  intro p hp
                  exact hflat_sub p (List.mem_flatten.mpr
                    ⟨fpc, hfpcmem, hp⟩)
                obtain ⟨hfS2, hrS2⟩ := footprint_agree fuel h _ kv.2 fpc
                  hfpc (fun p hp => hagree0 p (hbound p (hsub p hp)))
                refine ⟨fpc, hfS2, hndeach fpc hfpcmem, hsub, ?_, hfpc,
                  hrS2, hfpcmem⟩
                intro hin
                exact hh2flat (List.mem_flatten.mpr ⟨fpc, hfpcmem, hin⟩)
              obtain ⟨post, subsO, subsC, hdict5, hnx5, hdom5, hkeys5,
                hframe5, hf2read, hf2O, hf2C, hndOC, hcharO, hcharC,
                hlast⟩ :=
                hfold cdict [] (copySnap (copyAlloc gh h) sdict cdict) h5
                  hfl hS2dict hS2nx hS2dom hS2keys
                  (fun kv hkv => by
                    obtain ⟨fpc, h1, h2, h3, h4, _, _, _⟩ := hS2I1 kv hkv
                    exact ⟨fpc, h1, h2, h3, h4⟩)
                  (fun kv hkv kv2 hkv2 hne fpc fpc2 hf1 hf2 => by
                    obtain ⟨fpco, ha1, _, _, _, hcur1, _, _⟩ :=
                      hS2I1 kv hkv
                    obtain ⟨fpc2o, ha2, _, _, _, hcur2, _, _⟩ :=
                      hS2I1 kv2 hkv2
                    rw [ha1] at hf1
                    rw [ha2] at hf2
                    have he1 : fpco = fpc := Option.some.inj hf1
                    have he2 : fpc2o = fpc2 := Option.some.inj hf2
                    rw [← he1, ← he2]
                    exact hchdisj kv hkv kv2 hkv2 hne fpco fpc2o hcur1
                      hcur2)
              have hnx56 : h.nextId + 6 ≤ h5.nextId := by
                have hx : h.nextId + 4 + 2 ≤ h5.nextId := hnx5
                omega
              have hfpS2eq : ∀ kv ∈ cdict, ∀ fpc2,
                  footprint fuel (copySnap (copyAlloc gh h) sdict cdict)
                    kv.2 = some fpc2 →
                  footprint fuel h kv.2 = some fpc2 ∧ fpc2 ∈ subs ∧
                  ((2 : Nat), cell.childRef) ∉ fpc2 := by
                intro kv hkv fpc2 hfpc2
                obtain ⟨fpco, ha1, _, _, h4', hcur1, _, hsm⟩ :=
                  hS2I1 kv hkv
                rw [ha1] at hfpc2
                have he : fpco = fpc2 := Option.some.inj hfpc2
                subst he
                exact ⟨hcur1, hsm, h4'⟩
              have hsr5 : lookupA h5.seqDicts cell.seqRef = some sdict :=
                by
                have hcell := hframe5 (1, cell.seqRef)
                  (by
                    show cell.seqRef < h.nextId + 4 + 2
                    omega)
                  (by
                    intro kv hkv fpc hfpc hin
                    obtain ⟨_, hsm, _⟩ := hfpS2eq kv hkv fpc hfpc
                    exact hh1flat (List.mem_flatten.mpr ⟨fpc, hsm, hin⟩))
                  (by
                    intro he
                    have h12 : (1 : Nat) = 2 := congrArg Prod.fst he
                    exact absurd h12 (by decide))
                rw [hcell.2.1 rfl]
                show lookupA ((h.seqDicts ++ [(h.nextId, [])]) ++
                  [(h.nextId + 4, sdict)]) cell.seqRef = some sdict
                rw [lookupA_append_single _ _ _ _ (by omega),
                  lookupA_append_single _ _ _ _ (by omega)]
                exact hs
              have hs5c : lookupA h5.seqDicts (h.nextId + 4) =
                  some sdict := by
                have hcell := hframe5 (1, h.nextId + 4)
                  (by
                    show h.nextId + 4 < h.nextId + 4 + 2
                    omega)
                  (by
                    intro kv hkv fpc hfpc hin
                    obtain ⟨hcur1, _, _⟩ := hfpS2eq kv hkv fpc hfpc
                    have hx := hbound _ (hflat_sub _ (List.mem_flatten.mpr
                      ⟨fpc, (hfpS2eq kv hkv fpc hfpc).2.1, hin⟩))
                    omega)
                  (by
                    intro he
                    have h12 : (1 : Nat) = 2 := congrArg Prod.fst he
                    exact absurd h12 (by decide))
                rw [hcell.2.1 rfl]
                show lookupA ((h.seqDicts ++ [(h.nextId, [])]) ++
                  [(h.nextId + 4, sdict)]) (h.nextId + 4) = some sdict
                rw [lookupA_append_single_self]
                apply lookupA_none_of_ge _ (h.nextId + 1)
                · intro p hp
                  rcases List.mem_append.mp hp with h1 | h2
                  · have := hdom.2.1 p h1
                    omega
                  · rw [List.mem_singleton.mp h2]
                    show h.nextId < h.nextId + 1
                    omega
                · omega
              have hc5c : lookupA h5.childDicts (h.nextId + 5) =
                  some cdict := by
                have hcell := hframe5 (2, h.nextId + 5)
                  (by
                    show h.nextId + 5 < h.nextId + 4 + 2
                    omega)
                  (by
                    intro kv hkv fpc hfpc hin
                    have hx := hbound _ (hflat_sub _ (List.mem_flatten.mpr
                      ⟨fpc, (hfpS2eq kv hkv fpc hfpc).2.1, hin⟩))
                    omega)
                  (by
                    intro he
                    have hx : h.nextId + 5 = cell.childRef :=
                      congrArg Prod.snd he
                    omega)
                rw [hcell.2.2.1 rfl]
                show lookupA ((h.childDicts ++ [(h.nextId + 1, [])]) ++
                  [(h.nextId + 5, cdict)]) (h.nextId + 5) = some cdict
                rw [lookupA_append_single_self]
                apply lookupA_none_of_ge _ (h.nextId + 2)
                · intro p hp
                  rcases List.mem_append.mp hp with h1 | h2
                  · have := hdom.2.2.1 p h1
                    omega
                  · rw [List.mem_singleton.mp h2]
                    show h.nextId + 1 < h.nextId + 2
                    omega
                · omega
              have hdictpost : lookupA h5.childDicts cell.childRef =
                  some post := hdict5
              have hOch : ∀ kv ∈ cdict, ∃ fpOi, fpOi ∈ subsO ∧
                  footprint fuel h5 kv.2 = some fpOi ∧
                  readTree fuel h5 kv.2 = readTree fuel h kv.2 := by
                intro kv hkv
                obtain ⟨fpOi, hmO, hfO⟩ := forall₂_mem_left hf2O kv hkv
                obtain ⟨kv2, hkv2, _, hrd1, _⟩ :=
                  forall₂_mem_left hf2read kv hkv
                obtain ⟨_, _, _, _, _, _, hrdS2, _⟩ := hS2I1 kv hkv
                exact ⟨fpOi, hmO, hfO, by rw [hrd1, hrdS2]⟩
              rcases hhier with ⟨hrnone, hpnil⟩ |
                ⟨href, ph, hrsome, hlookh, hpe⟩
              · subst hpnil
                unfold copyFinish at hcp
                simp only [hrnone] at hcp
                injection hcp with hcp
                rw [Prod.mk.injEq] at hcp
                obtain ⟨hFeq, n2eq⟩ := hcp
                subst hFeq
                subst n2eq
                have hnF : lookupA (recSet (recSet h5.nodes
                    (h.nextId + 3) cell) n
                    (copyCellRef cell (h.nextId + 4) (h.nextId + 5)
                      none)) n =
                    some (copyCellRef cell (h.nextId + 4) (h.nextId + 5)
                      none) := by
                  rw [lookupA_recSet, if_pos rfl]
                have hnidF : lookupA (recSet (recSet h5.nodes
                    (h.nextId + 3) cell) n
                    (copyCellRef cell (h.nextId + 4) (h.nextId + 5)
                      none)) (h.nextId + 3) =
                    some cell := by
                  rw [lookupA_recSet, if_neg (by omega), lookupA_recSet,
                    if_pos rfl]
                have hndO : subsO.flatten.Nodup := by
                  have hx := hndOC
                  rw [List.nodup_append] at hx
                  exact hx.1
                have hndC2 : subsC.flatten.Nodup := by
                  have hx := hndOC
                  rw [List.nodup_append] at hx
                  exact hx.2.1
                have hagF : ∀ p : Nat × Nat,
                    (p ∈ subsO.flatten ∨ p ∈ subsC.flatten) →
                    cellEq h5 (copyFinHeapN h5 n (h.nextId + 3)
                      (h.nextId + 4) (h.nextId + 5) cell) p := by
                  intro p hp
                  refine ⟨fun hp0 => ?_, fun _ => ?_, fun _ => ?_,
                    fun _ => ?_⟩
                  · have hne1 : p.2 ≠ n := by
                      intro he
                      rcases hlast p hp with
                        ⟨kv, hkv, fpc2, hfpc2, hpin⟩ | hge
                      · obtain ⟨_, hsm, _⟩ := hfpS2eq kv hkv fpc2 hfpc2
                        apply hh0flat
                        have hpe2 : p = ((0 : Nat), n) :=
                          Prod.ext_iff.mpr ⟨hp0, he⟩
                        rw [← hpe2]
                        exact List.mem_flatten.mpr ⟨fpc2, hsm, hpin⟩
                      · have hge2 : h.nextId + 4 + 2 ≤ p.2 := hge
                        omega
                    have hne2 : p.2 ≠ h.nextId + 3 := by
                      intro he
                      rcases hlast p hp with
                        ⟨kv, hkv, fpc2, hfpc2, hpin⟩ | hge
                      · obtain ⟨_, hsm, _⟩ := hfpS2eq kv hkv fpc2 hfpc2
                        have hx := hbound p (hflat_sub p
                          (List.mem_flatten.mpr ⟨fpc2, hsm, hpin⟩))
                        omega
                      · have hge2 : h.nextId + 4 + 2 ≤ p.2 := hge
                        omega
                    rw [copyFinHeapN_nodes, lookupA_recSet, if_neg hne1,
                      lookupA_recSet, if_neg hne2]
                  · rw [copyFinHeapN_seqDicts]
                  · rw [copyFinHeapN_childDicts]
                  · rw [copyFinHeapN_hiers]
                have hOchF : ∀ kv ∈ cdict, ∃ fpOi, fpOi ∈ subsO ∧
                    footprint fuel (copyFinHeapN h5 n (h.nextId + 3)
                      (h.nextId + 4) (h.nextId + 5) cell) kv.2 =
                      some fpOi ∧
                    readTree fuel (copyFinHeapN h5 n (h.nextId + 3)
                      (h.nextId + 4) (h.nextId + 5) cell) kv.2 =
                      readTree fuel h kv.2 := by
                  intro kv hkv
                  obtain ⟨fpOi, hmO, hfO, hrdO⟩ := hOch kv hkv
                  obtain ⟨hfF, hrF⟩ := footprint_agree fuel h5 _ kv.2
                    fpOi hfO (fun p hp => hagF p (Or.inl
                      (List.mem_flatten.mpr ⟨fpOi, hmO, hp⟩)))
                  exact ⟨fpOi, hmO, hfF, by rw [hrF, hrdO]⟩
                have hmapOF : mapO (fun kv => footprint fuel
                    (copyFinHeapN h5 n (h.nextId + 3) (h.nextId + 4)
                      (h.nextId + 5) cell) kv.2) cdict = some subsO := by
                  apply mapO_of_forall₂
                  refine forall₂_imp_strong hf2O ?_
                  intro kv hkv fpOi hmOi hfO
                  exact (footprint_agree fuel h5 _ kv.2 fpOi hfO
                    (fun p hp => hagF p (Or.inl
                      (List.mem_flatten.mpr ⟨fpOi, hmOi, hp⟩)))).1
                have hmapCF : mapO (fun kv2 => footprint fuel
                    (copyFinHeapN h5 n (h.nextId + 3) (h.nextId + 4)
                      (h.nextId + 5) cell) kv2.2) post = some subsC := by
                  apply mapO_of_forall₂
                  refine forall₂_imp_strong hf2C ?_
                  intro kv2 hkv2 fpCi hmCi hfC
                  exact (footprint_agree fuel h5 _ kv2.2 fpCi hfC
                    (fun p hp => hagF p (Or.inr
                      (List.mem_flatten.mpr ⟨fpCi, hmCi, hp⟩)))).1
                have hrdCF : ∀ kv2 ∈ post, readTree fuel
                    (copyFinHeapN h5 n (h.nextId + 3) (h.nextId + 4)
                      (h.nextId + 5) cell) kv2.2 =
                    readTree fuel h5 kv2.2 := by
                  intro kv2 hkv2
                  obtain ⟨fpCi, hmCi, hfC⟩ := forall₂_mem_left hf2C kv2
                    hkv2
                  exact (footprint_agree fuel h5 _ kv2.2 fpCi hfC
                    (fun p hp => hagF p (Or.inr
                      (List.mem_flatten.mpr ⟨fpCi, hmCi, hp⟩)))).2
                have hkidsO : mapO (fun kv => (readTree fuel
                    (copyFinHeapN h5 n (h.nextId + 3) (h.nextId + 4)
                      (h.nextId + 5) cell) kv.2).map
                    (fun t => (kv.1, t))) cdict =
                    mapO (fun kv => (readTree fuel h kv.2).map
                    (fun t => (kv.1, t))) cdict := by
                  refine mapO_congr _ _ cdict ?_
                  intro kv hkv
                  obtain ⟨_, _, _, hrd⟩ := hOchF kv hkv
                  rw [hrd]
                have hpairC : List.Forall₂ (fun kv kv2 =>
                    kv2.1 = kv.1 ∧ readTree fuel
                    (copyFinHeapN h5 n (h.nextId + 3) (h.nextId + 4)
                      (h.nextId + 5) cell) kv2.2 =
                    readTree fuel h kv.2) cdict post := by
                  refine forall₂_imp_strong hf2read ?_
                  intro kv hkv kv2 hkv2 hrel
                  obtain ⟨_, _, _, _, _, _, hrdS2, _⟩ := hS2I1 kv hkv
                  exact ⟨hrel.1, by
                    rw [hrdCF kv2 hkv2, hrel.2.2, hrdS2]⟩
                have hkidsC : mapO (fun kv => (readTree fuel h kv.2).map
                    (fun t => (kv.1, t))) cdict =
                    mapO (fun kv2 => (readTree fuel
                    (copyFinHeapN h5 n (h.nextId + 3) (h.nextId + 4)
                      (h.nextId + 5) cell) kv2.2).map
                    (fun t => (kv2.1, t))) post :=
                  mapO_rel _ _ hpairC (fun kv _ kv2 _ hr => by
                    rw [hr.1, hr.2])
                refine ⟨?_, ?_, ?_, ?_, ?_, ?_, ?_, ?_⟩
                · rw [copyFinHeapN_nextId]
                  omega
                · refine ⟨?_, ?_, ?_, ?_⟩
                  · intro p hp
                    rw [copyFinHeapN_nodes] at hp
                    rw [copyFinHeapN_nextId]
                    rcases mem_recSet_fst _ _ _ p hp with hin | heq
                    · rcases List.mem_map.mp hin with ⟨q, hq, hqe⟩
                      rcases mem_recSet_fst _ _ _ q hq with hin2 | heq2
                      · rcases List.mem_map.mp hin2 with ⟨q2, hq2, hqe2⟩
                        have hx := hdom5.1 q2 hq2
                        omega
                      · omega
                    · omega
                  · intro p hp
                    rw [copyFinHeapN_seqDicts] at hp
                    rw [copyFinHeapN_nextId]
                    exact hdom5.2.1 p hp
                  · intro p hp
                    rw [copyFinHeapN_childDicts] at hp
                    rw [copyFinHeapN_nextId]
                    exact hdom5.2.2.1 p hp
                  · intro p hp
                    rw [copyFinHeapN_hiers] at hp
                    rw [copyFinHeapN_nextId]
                    exact hdom5.2.2.2 p hp
                · intro d cdX hl
                  rw [copyFinHeapN_childDicts] at hl
                  exact hkeys5 d cdX hl
                · intro p hplt hpfp
                  refine cellEq_trans h
                    (copySnap (copyAlloc gh h) sdict cdict) _ p
                    (hagree0 p hplt) (cellEq_trans _ h5 _ p ?_ ?_)
                  · refine hframe5 p ?_ ?_ ?_
                    · show p.2 < h.nextId + 4 + 2
                      omega
                    · intro kv hkv fpc2 hfpc2 hin
                      obtain ⟨_, hsm, _⟩ := hfpS2eq kv hkv fpc2 hfpc2
                      exact hpfp (hflat_sub p
                        (List.mem_flatten.mpr ⟨fpc2, hsm, hin⟩))
                    · intro he
                      apply hpfp
                      rw [he]
                      exact hmem2
                  · refine ⟨fun hp0 => ?_, fun _ => ?_, fun _ => ?_,
                      fun _ => ?_⟩
                    · have hne1 : p.2 ≠ n := by
                        intro he
                        apply hpfp
                        have hpe2 : p = ((0 : Nat), n) :=
                          Prod.ext_iff.mpr ⟨hp0, he⟩
                        rw [hpe2]
                        exact hmem0
                      rw [copyFinHeapN_nodes, lookupA_recSet,
                        if_neg hne1, lookupA_recSet, if_neg (by omega)]
                    · rw [copyFinHeapN_seqDicts]
                    · rw [copyFinHeapN_childDicts]
                    · rw [copyFinHeapN_hiers]
                · refine ⟨(0, n) :: (1, h.nextId + 4) ::
                    (2, h.nextId + 5) :: subsO.flatten, ?_, ?_, ?_, ?_,
                    ?_⟩
                  · unfold footprint
                    simp only [copyFinHeapN_nodes, hnF,
                      copyFinHeapN_seqDicts, copyCellRef_seqRef, hs5c,
                      copyFinHeapN_childDicts, copyCellRef_childRef,
                      hc5c, copyCellRef_hierRef, hmapOF,
                      List.nil_append]
                    rfl
                  · refine List.nodup_cons.mpr ⟨?_,
                      List.nodup_cons.mpr ⟨?_,
                      List.nodup_cons.mpr ⟨?_, hndO⟩⟩⟩
                    · intro hx
                      simp only [List.mem_cons] at hx
                      rcases hx with he | he | hx
                      · exact absurd (congrArg Prod.fst he)
                          (by decide : (0:Nat) ≠ 1)
                      · exact absurd (congrArg Prod.fst he)
                          (by decide : (0:Nat) ≠ 2)
                      · rcases hlast (0, n) (Or.inl hx) with
                          ⟨kv, hkv, fpc2, hfpc2, hpin⟩ | hge
                        · obtain ⟨_, hsm, _⟩ := hfpS2eq kv hkv fpc2
                            hfpc2
                          exact hh0flat (List.mem_flatten.mpr
                            ⟨fpc2, hsm, hpin⟩)
                        · have hge2 : h.nextId + 4 + 2 ≤ n := hge
                          omega
                    · intro hx
                      simp only [List.mem_cons] at hx
                      rcases hx with he | hx
                      · exact absurd (congrArg Prod.fst he)
                          (by decide : (1:Nat) ≠ 2)
                      · rcases hlast (1, h.nextId + 4) (Or.inl hx) with
                          ⟨kv, hkv, fpc2, hfpc2, hpin⟩ | hge
                        · have hxx := hbound _ (hflat_sub _
                            (List.mem_flatten.mpr
                              ⟨fpc2, (hfpS2eq kv hkv fpc2 hfpc2).2.1,
                                hpin⟩))
                          have hxx2 : h.nextId + 4 < h.nextId := hxx
                          omega
                        · have hge2 : h.nextId + 4 + 2 ≤ h.nextId + 4 :=
                            hge
                          omega
                    · intro hx
                      rcases hlast (2, h.nextId + 5) (Or.inl hx) with
                        ⟨kv, hkv, fpc2, hfpc2, hpin⟩ | hge
                      · have hxx := hbound _ (hflat_sub _
                          (List.mem_flatten.mpr
                            ⟨fpc2, (hfpS2eq kv hkv fpc2 hfpc2).2.1,
                              hpin⟩))
                        have hxx2 : h.nextId + 5 < h.nextId := hxx
                        omega
                      · have hge2 : h.nextId + 4 + 2 ≤ h.nextId + 5 :=
                          hge
                        omega
                  · intro p hp
                    rw [copyFinHeapN_nextId]
                    simp only [List.mem_cons] at hp
                    rcases hp with rfl | rfl | rfl | hp
                    · show n < h5.nextId
                      omega
                    · show h.nextId + 4 < h5.nextId
                      omega
                    · show h.nextId + 5 < h5.nextId
                      omega
                    · exact (hcharO p hp).1
                  · intro p hp
                    simp only [List.mem_cons] at hp
                    rcases hp with rfl | rfl | rfl | hp
                    · intro _
                      exact hmem0
                    · intro h0
                      exact absurd h0 (by decide : (1:Nat) ≠ 0)
                    · intro h0
                      exact absurd h0 (by decide : (2:Nat) ≠ 0)
                    · intro h0
                      exact ((hcharO p hp).2.1 h0).1
                  · intro p hp
                    simp only [List.mem_cons] at hp
                    rcases hp with rfl | rfl | rfl | hp
                    · intro hne
                      exact absurd rfl hne
                    · intro _
                      show h.nextId ≤ h.nextId + 4
                      omega
                    · intro _
                      show h.nextId ≤ h.nextId + 5
                      omega
                    · intro hne
                      exact (hcharO p hp).2.2 hne
                · refine ⟨(0, h.nextId + 3) :: (1, cell.seqRef) ::
                    (2, cell.childRef) :: subsC.flatten, ?_, ?_, ?_, ?_,
                    ?_⟩
                  · unfold footprint
                    simp only [copyFinHeapN_nodes, hnidF,
                      copyFinHeapN_seqDicts, hsr5,
                      copyFinHeapN_childDicts, hdictpost, hrnone,
                      hmapCF, List.nil_append]
                    rfl
                  · refine List.nodup_cons.mpr ⟨?_,
                      List.nodup_cons.mpr ⟨?_,
                      List.nodup_cons.mpr ⟨?_, hndC2⟩⟩⟩
                    · intro hx
                      simp only [List.mem_cons] at hx
                      rcases hx with he | he | hx
                      · exact absurd (congrArg Prod.fst he)
                          (by decide : (0:Nat) ≠ 1)
                      · exact absurd (congrArg Prod.fst he)
                          (by decide : (0:Nat) ≠ 2)
                      · rcases hlast (0, h.nextId + 3) (Or.inr hx) with
                          ⟨kv, hkv, fpc2, hfpc2, hpin⟩ | hge
                        · have hxx := hbound _ (hflat_sub _
                            (List.mem_flatten.mpr
                              ⟨fpc2, (hfpS2eq kv hkv fpc2 hfpc2).2.1,
                                hpin⟩))
                          have hxx2 : h.nextId + 3 < h.nextId := hxx
                          omega
                        · have hge2 : h.nextId + 4 + 2 ≤ h.nextId + 3 :=
                            hge
                          omega
                    · intro hx
                      simp only [List.mem_cons] at hx
                      rcases hx with he | hx
                      · exact absurd (congrArg Prod.fst he)
                          (by decide : (1:Nat) ≠ 2)
                      · rcases hlast (1, cell.seqRef) (Or.inr hx) with
                          ⟨kv, hkv, fpc2, hfpc2, hpin⟩ | hge
                        · obtain ⟨_, hsm, _⟩ := hfpS2eq kv hkv fpc2
                            hfpc2
                          exact hh1flat (List.mem_flatten.mpr
                            ⟨fpc2, hsm, hpin⟩)
                        · have hge2 : h.nextId + 4 + 2 ≤ cell.seqRef :=
                            hge
                          omega
                    · intro hx
                      rcases hlast (2, cell.childRef) (Or.inr hx) with
                        ⟨kv, hkv, fpc2, hfpc2, hpin⟩ | hge
                      · obtain ⟨_, hsm, _⟩ := hfpS2eq kv hkv fpc2 hfpc2
                        exact hh2flat (List.mem_flatten.mpr
                          ⟨fpc2, hsm, hpin⟩)
                      · have hge2 : h.nextId + 4 + 2 ≤ cell.childRef :=
                          hge
                        omega
                  · intro p hp
                    rw [copyFinHeapN_nextId]
                    simp only [List.mem_cons] at hp
                    rcases hp with rfl | rfl | rfl | hp
                    · show h.nextId + 3 < h5.nextId
                      omega
                    · show cell.seqRef < h5.nextId
                      omega
                    · show cell.childRef < h5.nextId
                      omega
                    · exact (hcharC p hp).1
                  · intro p hp
                    simp only [List.mem_cons] at hp
                    rcases hp with rfl | rfl | rfl | hp
                    · intro _
                      show h.nextId ≤ h.nextId + 3
                      omega
                    · intro h0
                      exact absurd h0 (by decide : (1:Nat) ≠ 0)
                    · intro h0
                      exact absurd h0 (by decide : (2:Nat) ≠ 0)
                    · intro h0
                      exact (hcharC p hp).2.1 h0
                  · intro p hp
                    simp only [List.mem_cons] at hp
                    rcases hp with rfl | rfl | rfl | hp
                    · intro hne
                      exact absurd rfl hne
                    · intro _
                      exact hmem1
                    · intro _
                      exact hmem2
                    · intro hne
                      exact ((hcharC p hp).2.2 hne).1
                · unfold readTree
                  simp only [copyFinHeapN_nodes, hnF,
                    copyFinHeapN_seqDicts, copyCellRef_seqRef, hs5c,
                    copyFinHeapN_childDicts, copyCellRef_childRef, hc5c,
                    copyCellRef_hierRef, copyCellRef_depth,
                    copyCellRef_nrec, hkidsO, hn, hs, hc, hrnone]
                · unfold readTree
                  simp only [copyFinHeapN_nodes, hnidF,
                    copyFinHeapN_seqDicts, hsr5,
                    copyFinHeapN_childDicts, hdictpost, hrnone, hn, hs,
                    hc]
                  rw [← hkidsC]
              · have hmemhp : ((3 : Nat), href) ∈ fp := by
                  rw [hfpeq, hpe]
                  refine List.mem_append.mpr (Or.inl ?_)
                  exact List.mem_cons_of_mem _ (List.mem_cons_of_mem _
                    (List.mem_cons_of_mem _ (List.mem_singleton.mpr rfl)))
                have hbhref : href < h.nextId := hbound _ hmemhp
                have hh5href : lookupA h5.hiers href = some ph := by
                  have hcell := hframe5 (3, href)
                    (by
                      show href < h.nextId + 4 + 2
                      omega)
                    (by
                      intro kv hkv fpc2 hfpc2 hin
                      obtain ⟨_, hsm, _⟩ := hfpS2eq kv hkv fpc2 hfpc2
                      refine hhpflat (3, href) ?_
                        (List.mem_flatten.mpr ⟨fpc2, hsm, hin⟩)
                      rw [hpe]
                      exact List.mem_singleton.mpr rfl)
                    (by
                      intro he
                      have h32 : (3 : Nat) = 2 := congrArg Prod.fst he
                      exact absurd h32 (by decide))
                  rw [hcell.2.2.2 rfl]
                  show lookupA (h.hiers ++ [(h.nextId + 2, gh)]) href =
                    some ph
                  rw [lookupA_append_single _ _ _ _ (by omega)]
                  exact hlookh
                unfold copyFinish at hcp
                simp only [hrsome, hh5href] at hcp
                injection hcp with hcp
                rw [Prod.mk.injEq] at hcp
                obtain ⟨hFeq, n2eq⟩ := hcp
                subst hFeq
                subst n2eq
                have hnF : lookupA (recSet (recSet h5.nodes
                    (h.nextId + 3) cell) n
                    (copyCellRef cell (h.nextId + 4) (h.nextId + 5)
                      (some h5.nextId))) n =
                    some (copyCellRef cell (h.nextId + 4) (h.nextId + 5)
                      (some h5.nextId)) := by
                  rw [lookupA_recSet, if_pos rfl]
                have hnidF : lookupA (recSet (recSet h5.nodes
                    (h.nextId + 3) cell) n
                    (copyCellRef cell (h.nextId + 4) (h.nextId + 5)
                      (some h5.nextId))) (h.nextId + 3) =
                    some cell := by
                  rw [lookupA_recSet, if_neg (by omega), lookupA_recSet,
                    if_pos rfl]
                have hhFhref : lookupA (h5.hiers ++ [(h5.nextId, ph)])
                    href = some ph := by
                  rw [lookupA_append_single _ _ _ _ (by omega)]
                  exact hh5href
                have hhFnew : lookupA (h5.hiers ++ [(h5.nextId, ph)])
                    h5.nextId = some ph := by
                  rw [lookupA_append_single_self]
                  exact lookupA_none_of_ge _ _ _ hdom5.2.2.2 (le_refl _)
                have hndO : subsO.flatten.Nodup := by
                  have hx := hndOC
                  rw [List.nodup_append] at hx
                  exact hx.1
                have hndC2 : subsC.flatten.Nodup := by
                  have hx := hndOC
                  rw [List.nodup_append] at hx
                  exact hx.2.1
                have hagF : ∀ p : Nat × Nat,
                    (p ∈ subsO.flatten ∨ p ∈ subsC.flatten) →
                    cellEq h5 (copyFinHeapH h5 ph n (h.nextId + 3)
                      (h.nextId + 4) (h.nextId + 5) cell) p := by
                  intro p hp
                  have hpbound : p.2 < h5.nextId := by
                    rcases hp with h1 | h2
                    · exact (hcharO p h1).1
                    · exact (hcharC p h2).1
                  refine ⟨fun hp0 => ?_, fun _ => ?_, fun _ => ?_,
                    fun hp3 => ?_⟩
                  · have hne1 : p.2 ≠ n := by
                      intro he
                      rcases hlast p hp with
                        ⟨kv, hkv, fpc2, hfpc2, hpin⟩ | hge
                      · obtain ⟨_, hsm, _⟩ := hfpS2eq kv hkv fpc2 hfpc2
                        apply hh0flat
                        have hpe2 : p = ((0 : Nat), n) :=
                          Prod.ext_iff.mpr ⟨hp0, he⟩
                        rw [← hpe2]
                        exact List.mem_flatten.mpr ⟨fpc2, hsm, hpin⟩
                      · have hge2 : h.nextId + 4 + 2 ≤ p.2 := hge
                        omega
                    have hne2 : p.2 ≠ h.nextId + 3 := by
                      intro he
                      rcases hlast p hp with
                        ⟨kv, hkv, fpc2, hfpc2, hpin⟩ | hge
                      · obtain ⟨_, hsm, _⟩ := hfpS2eq kv hkv fpc2 hfpc2
                        have hx := hbound p (hflat_sub p
                          (List.mem_flatten.mpr ⟨fpc2, hsm, hpin⟩))
                        omega
                      · have hge2 : h.nextId + 4 + 2 ≤ p.2 := hge
                        omega
                    rw [copyFinHeapH_nodes, lookupA_recSet, if_neg hne1,
                      lookupA_recSet, if_neg hne2]
                  · rw [copyFinHeapH_seqDicts]
                  · rw [copyFinHeapH_childDicts]
                  · rw [copyFinHeapH_hiers,
                      lookupA_append_single _ _ _ _ (by omega)]
                have hOchF : ∀ kv ∈ cdict, ∃ fpOi, fpOi ∈ subsO ∧
                    footprint fuel (copyFinHeapH h5 ph n (h.nextId + 3)
                      (h.nextId + 4) (h.nextId + 5) cell) kv.2 =
                      some fpOi ∧
                    readTree fuel (copyFinHeapH h5 ph n (h.nextId + 3)
                      (h.nextId + 4) (h.nextId + 5) cell) kv.2 =
                      readTree fuel h kv.2 := by
                  intro kv hkv
                  obtain ⟨fpOi, hmO, hfO, hrdO⟩ := hOch kv hkv
                  obtain ⟨hfF, hrF⟩ := footprint_agree fuel h5 _ kv.2
                    fpOi hfO (fun p hp => hagF p (Or.inl
                      (List.mem_flatten.mpr ⟨fpOi, hmO, hp⟩)))
                  exact ⟨fpOi, hmO, hfF, by rw [hrF, hrdO]⟩
                have hmapOF : mapO (fun kv => footprint fuel
                    (copyFinHeapH h5 ph n (h.nextId + 3) (h.nextId + 4)
                      (h.nextId + 5) cell) kv.2) cdict = some subsO := by
                  apply mapO_of_forall₂
                  refine forall₂_imp_strong hf2O ?_
                  intro kv hkv fpOi hmOi hfO
                  exact (footprint_agree fuel h5 _ kv.2 fpOi hfO
                    (fun p hp => hagF p (Or.inl
                      (List.mem_flatten.mpr ⟨fpOi, hmOi, hp⟩)))).1
                have hmapCF : mapO (fun kv2 => footprint fuel
                    (copyFinHeapH h5 ph n (h.nextId + 3) (h.nextId + 4)
                      (h.nextId + 5) cell) kv2.2) post = some subsC := by
                  apply mapO_of_forall₂
                  refine forall₂_imp_strong hf2C ?_
                  intro kv2 hkv2 fpCi hmCi hfC
                  exact (footprint_agree fuel h5 _ kv2.2 fpCi hfC
                    (fun p hp => hagF p (Or.inr
                      (List.mem_flatten.mpr ⟨fpCi, hmCi, hp⟩)))).1
                have hrdCF : ∀ kv2 ∈ post, readTree fuel
                    (copyFinHeapH h5 ph n (h.nextId + 3) (h.nextId + 4)
                      (h.nextId + 5) cell) kv2.2 =
                    readTree fuel h5 kv2.2 := by
                  intro kv2 hkv2
                  obtain ⟨fpCi, hmCi, hfC⟩ := forall₂_mem_left hf2C kv2
                    hkv2
                  exact (footprint_agree fuel h5 _ kv2.2 fpCi hfC
                    (fun p hp => hagF p (Or.inr
                      (List.mem_flatten.mpr ⟨fpCi, hmCi, hp⟩)))).2
                have hkidsO : mapO (fun kv => (readTree fuel
                    (copyFinHeapH h5 ph n (h.nextId + 3) (h.nextId + 4)
                      (h.nextId + 5) cell) kv.2).map
                    (fun t => (kv.1, t))) cdict =
                    mapO (fun kv => (readTree fuel h kv.2).map
                    (fun t => (kv.1, t))) cdict := by
                  refine mapO_congr _ _ cdict ?_
                  intro kv hkv
                  obtain ⟨_, _, _, hrd⟩ := hOchF kv hkv
                  rw [hrd]
                have hpairC : List.Forall₂ (fun kv kv2 =>
                    kv2.1 = kv.1 ∧ readTree fuel
                    (copyFinHeapH h5 ph n (h.nextId + 3) (h.nextId + 4)
                      (h.nextId + 5) cell) kv2.2 =
                    readTree fuel h kv.2) cdict post := by
                  refine forall₂_imp_strong hf2read ?_
                  intro kv hkv kv2 hkv2 hrel
                  obtain ⟨_, _, _, _, _, _, hrdS2, _⟩ := hS2I1 kv hkv
                  exact ⟨hrel.1, by
                    rw [hrdCF kv2 hkv2, hrel.2.2, hrdS2]⟩
                have hkidsC : mapO (fun kv => (readTree fuel h kv.2).map
                    (fun t => (kv.1, t))) cdict =
                    mapO (fun kv2 => (readTree fuel
                    (copyFinHeapH h5 ph n (h.nextId + 3) (h.nextId + 4)
                      (h.nextId + 5) cell) kv2.2).map
                    (fun t => (kv2.1, t))) post :=
                  mapO_rel _ _ hpairC (fun kv _ kv2 _ hr => by
                    rw [hr.1, hr.2])
                refine ⟨?_, ?_, ?_, ?_, ?_, ?_, ?_, ?_⟩
                · rw [copyFinHeapH_nextId]
                  omega
                · refine ⟨?_, ?_, ?_, ?_⟩
                  · intro p hp
                    rw [copyFinHeapH_nodes] at hp
                    rw [copyFinHeapH_nextId]
                    rcases mem_recSet_fst _ _ _ p hp with hin | heq
                    · rcases List.mem_map.mp hin with ⟨q, hq, hqe⟩
                      rcases mem_recSet_fst _ _ _ q hq with hin2 | heq2
                      · rcases List.mem_map.mp hin2 with ⟨q2, hq2, hqe2⟩
                        have hx := hdom5.1 q2 hq2
                        omega
                      · omega
                    · omega
                  · intro p hp
                    rw [copyFinHeapH_seqDicts] at hp
                    rw [copyFinHeapH_nextId]
                    have hx := hdom5.2.1 p hp
                    omega
                  · intro p hp
                    rw [copyFinHeapH_childDicts] at hp
                    rw [copyFinHeapH_nextId]
                    have hx := hdom5.2.2.1 p hp
                    omega
                  · intro p hp
                    rw [copyFinHeapH_hiers] at hp
                    rw [copyFinHeapH_nextId]
                    rcases List.mem_append.mp hp with hin | hin
                    · have hx := hdom5.2.2.2 p hin
                      omega
                    · rw [List.mem_singleton] at hin
                      subst hin
                      show h5.nextId < h5.nextId + 1
                      omega
                · intro d cdX hl
                  rw [copyFinHeapH_childDicts] at hl
                  exact hkeys5 d cdX hl
                · intro p hplt hpfp
                  refine cellEq_trans h
                    (copySnap (copyAlloc gh h) sdict cdict) _ p
                    (hagree0 p hplt) (cellEq_trans _ h5 _ p ?_ ?_)
                  · refine hframe5 p ?_ ?_ ?_
                    · show p.2 < h.nextId + 4 + 2
                      omega
                    · intro kv hkv fpc2 hfpc2 hin
                      obtain ⟨_, hsm, _⟩ := hfpS2eq kv hkv fpc2 hfpc2
                      exact hpfp (hflat_sub p
                        (List.mem_flatten.mpr ⟨fpc2, hsm, hin⟩))
                    · intro he
                      apply hpfp
                      rw [he]
                      exact hmem2
                  · refine ⟨fun hp0 => ?_, fun _ => ?_, fun _ => ?_,
                      fun hp3 => ?_⟩
                    · have hne1 : p.2 ≠ n := by
                        intro he
                        apply hpfp
                        have hpe2 : p = ((0 : Nat), n) :=
                          Prod.ext_iff.mpr ⟨hp0, he⟩
                        rw [hpe2]
                        exact hmem0
                      rw [copyFinHeapH_nodes, lookupA_recSet,
                        if_neg hne1, lookupA_recSet, if_neg (by omega)]
                    · rw [copyFinHeapH_seqDicts]
                    · rw [copyFinHeapH_childDicts]
                    · rw [copyFinHeapH_hiers,
                        lookupA_append_single _ _ _ _ (by omega)]
                · refine ⟨(0, n) :: (1, h.nextId + 4) ::
                    (2, h.nextId + 5) :: [((3 : Nat), h5.nextId)] ++
                    subsO.flatten, ?_, ?_, ?_, ?_, ?_⟩
                  · unfold footprint
                    simp only [copyFinHeapH_nodes, hnF,
                      copyFinHeapH_seqDicts, copyCellRef_seqRef, hs5c,
                      copyFinHeapH_childDicts, copyCellRef_childRef,
                      hc5c, copyCellRef_hierRef, copyFinHeapH_hiers,
                      hhFnew, hmapOF]
                  · simp only [List.cons_append, List.singleton_append]
                    refine List.nodup_cons.mpr ⟨?_,
                      List.nodup_cons.mpr ⟨?_, List.nodup_cons.mpr ⟨?_,
                      List.nodup_cons.mpr ⟨?_, hndO⟩⟩⟩⟩
                    · intro hx
                      simp only [List.mem_cons] at hx
                      rcases hx with he | he | he | hx
                      · exact absurd (congrArg Prod.fst he) (by decide : (0:Nat) ≠ 1)
                      · exact absurd (congrArg Prod.fst he) (by decide : (0:Nat) ≠ 2)
                      · exact absurd (congrArg Prod.fst he) (by decide : (0:Nat) ≠ 3)
                      · rcases hlast (0, n) (Or.inl hx) with
                          ⟨kv, hkv, fpc2, hfpc2, hpin⟩ | hge
                        · obtain ⟨_, hsm, _⟩ := hfpS2eq kv hkv fpc2
                            hfpc2
                          exact hh0flat (List.mem_flatten.mpr
                            ⟨fpc2, hsm, hpin⟩)
                        · have hge2 : h.nextId + 4 + 2 ≤ n := hge
                          omega
                    · intro hx
                      simp only [List.mem_cons] at hx
                      rcases hx with he | he | hx
                      · exact absurd (congrArg Prod.fst he) (by decide : (1:Nat) ≠ 2)
                      · exact absurd (congrArg Prod.fst he) (by decide : (1:Nat) ≠ 3)
                      · rcases hlast (1, h.nextId + 4) (Or.inl hx) with
                          ⟨kv, hkv, fpc2, hfpc2, hpin⟩ | hge
                        · have hxx := hbound _ (hflat_sub _
                            (List.mem_flatten.mpr
                              ⟨fpc2, (hfpS2eq kv hkv fpc2 hfpc2).2.1,
                                hpin⟩))
                          have hxx2 : h.nextId + 4 < h.nextId := hxx
                          omega
                        · have hge2 : h.nextId + 4 + 2 ≤ h.nextId + 4 :=
                            hge
                          omega
                    · intro hx
                      simp only [List.mem_cons] at hx
                      rcases hx with he | hx
                      · exact absurd (congrArg Prod.fst he) (by decide : (2:Nat) ≠ 3)
                      · rcases hlast (2, h.nextId + 5) (Or.inl hx) with
                          ⟨kv, hkv, fpc2, hfpc2, hpin⟩ | hge
                        · have hxx := hbound _ (hflat_sub _
                            (List.mem_flatten.mpr
                              ⟨fpc2, (hfpS2eq kv hkv fpc2 hfpc2).2.1,
                                hpin⟩))
                          have hxx2 : h.nextId + 5 < h.nextId := hxx
                          omega
                        · have hge2 : h.nextId + 4 + 2 ≤ h.nextId + 5 :=
                            hge
                          omega
                    · intro hx
                      have hxx : h5.nextId < h5.nextId :=
                        (hcharO _ hx).1
                      omega
                  · intro p hp
                    rw [copyFinHeapH_nextId]
                    simp only [List.cons_append, List.singleton_append,
                      List.mem_cons] at hp
                    rcases hp with rfl | rfl | rfl | rfl | hp
                    · show n < h5.nextId + 1
                      omega
                    · show h.nextId + 4 < h5.nextId + 1
                      omega
                    · show h.nextId + 5 < h5.nextId + 1
                      omega
                    · show h5.nextId < h5.nextId + 1
                      omega
                    · have hx := (hcharO p hp).1
                      omega
                  · intro p hp
                    simp only [List.cons_append, List.singleton_append,
                      List.mem_cons] at hp
                    rcases hp with rfl | rfl | rfl | rfl | hp
                    · intro _
                      exact hmem0
                    · intro h0
                      exact absurd h0 (by decide : (1:Nat) ≠ 0)
                    · intro h0
                      exact absurd h0 (by decide : (2:Nat) ≠ 0)
                    · intro h0
                      exact absurd h0 (by decide : (3:Nat) ≠ 0)
                    · intro h0
                      exact ((hcharO p hp).2.1 h0).1
                  · intro p hp
                    simp only [List.cons_append, List.singleton_append,
                      List.mem_cons] at hp
                    rcases hp with rfl | rfl | rfl | rfl | hp
                    · intro hne
                      exact absurd rfl hne
                    · intro _
                      show h.nextId ≤ h.nextId + 4
                      omega
                    · intro _
                      show h.nextId ≤ h.nextId + 5
                      omega
                    · intro _
                      show h.nextId ≤ h5.nextId
                      omega
                    · intro hne
                      exact (hcharO p hp).2.2 hne
                · refine ⟨(0, h.nextId + 3) :: (1, cell.seqRef) ::
                    (2, cell.childRef) :: [((3 : Nat), href)] ++
                    subsC.flatten, ?_, ?_, ?_, ?_, ?_⟩
                  · unfold footprint
                    simp only [copyFinHeapH_nodes, hnidF,
                      copyFinHeapH_seqDicts, hsr5,
                      copyFinHeapH_childDicts, hdictpost, hrsome,
                      copyFinHeapH_hiers, hhFhref, hmapCF]
                  · simp only [List.cons_append, List.singleton_append]
                    refine List.nodup_cons.mpr ⟨?_,
                      List.nodup_cons.mpr ⟨?_, List.nodup_cons.mpr ⟨?_,
                      List.nodup_cons.mpr ⟨?_, hndC2⟩⟩⟩⟩
                    · intro hx
                      simp only [List.mem_cons] at hx
                      rcases hx with he | he | he | hx
                      · exact absurd (congrArg Prod.fst he) (by decide : (0:Nat) ≠ 1)
                      · exact absurd (congrArg Prod.fst he) (by decide : (0:Nat) ≠ 2)
                      · exact absurd (congrArg Prod.fst he) (by decide : (0:Nat) ≠ 3)
                      · rcases hlast (0, h.nextId + 3) (Or.inr hx) with
                          ⟨kv, hkv, fpc2, hfpc2, hpin⟩ | hge
                        · have hxx := hbound _ (hflat_sub _
                            (List.mem_flatten.mpr
                              ⟨fpc2, (hfpS2eq kv hkv fpc2 hfpc2).2.1,
                                hpin⟩))
                          have hxx2 : h.nextId + 3 < h.nextId := hxx
                          omega
                        · have hge2 : h.nextId + 4 + 2 ≤ h.nextId + 3 :=
                            hge
                          omega
                    · intro hx
                      simp only [List.mem_cons] at hx
                      rcases hx with he | he | hx
                      · exact absurd (congrArg Prod.fst he) (by decide : (1:Nat) ≠ 2)
                      · exact absurd (congrArg Prod.fst he) (by decide : (1:Nat) ≠ 3)
                      · rcases hlast (1, cell.seqRef) (Or.inr hx) with
                          ⟨kv, hkv, fpc2, hfpc2, hpin⟩ | hge
                        · obtain ⟨_, hsm, _⟩ := hfpS2eq kv hkv fpc2
                            hfpc2
                          exact hh1flat (List.mem_flatten.mpr
                            ⟨fpc2, hsm, hpin⟩)
                        · have hge2 : h.nextId + 4 + 2 ≤ cell.seqRef :=
                            hge
                          omega
                    · intro hx
                      simp only [List.mem_cons] at hx
                      rcases hx with he | hx
                      · exact absurd (congrArg Prod.fst he) (by decide : (2:Nat) ≠ 3)
                      · rcases hlast (2, cell.childRef) (Or.inr hx) with
                          ⟨kv, hkv, fpc2, hfpc2, hpin⟩ | hge
                        · obtain ⟨_, hsm, _⟩ := hfpS2eq kv hkv fpc2
                            hfpc2
                          exact hh2flat (List.mem_flatten.mpr
                            ⟨fpc2, hsm, hpin⟩)
                        · have hge2 : h.nextId + 4 + 2 ≤
                            cell.childRef := hge
                          omega
                    · intro hx
                      rcases hlast (3, href) (Or.inr hx) with
                        ⟨kv, hkv, fpc2, hfpc2, hpin⟩ | hge
                      · obtain ⟨_, hsm, _⟩ := hfpS2eq kv hkv fpc2 hfpc2
                        refine hhpflat (3, href) ?_
                          (List.mem_flatten.mpr ⟨fpc2, hsm, hpin⟩)
                        rw [hpe]
                        exact List.mem_singleton.mpr rfl
                      · have hge2 : h.nextId + 4 + 2 ≤ href := hge
                        omega
                  · intro p hp
                    rw [copyFinHeapH_nextId]
                    simp only [List.cons_append, List.singleton_append,
                      List.mem_cons] at hp
                    rcases hp with rfl | rfl | rfl | rfl | hp
                    · show h.nextId + 3 < h5.nextId + 1
                      omega
                    · show cell.seqRef < h5.nextId + 1
                      omega
                    · show cell.childRef < h5.nextId + 1
                      omega
                    · show href < h5.nextId + 1
                      omega
                    · have hx := (hcharC p hp).1
                      omega
                  · intro p hp
                    simp only [List.cons_append, List.singleton_append,
                      List.mem_cons] at hp
                    rcases hp with rfl | rfl | rfl | rfl | hp
                    · intro _
                      show h.nextId ≤ h.nextId + 3
                      omega
                    · intro h0
                      exact absurd h0 (by decide : (1:Nat) ≠ 0)
                    · intro h0
                      exact absurd h0 (by decide : (2:Nat) ≠ 0)
                    · intro h0
                      exact absurd h0 (by decide : (3:Nat) ≠ 0)
                    · intro h0
                      exact (hcharC p hp).2.1 h0
                  · intro p hp
                    simp only [List.cons_append, List.singleton_append,
                      List.mem_cons] at hp
                    rcases hp with rfl | rfl | rfl | rfl | hp
                    · intro hne
                      exact absurd rfl hne
                    · intro _
                      exact hmem1
                    · intro _
                      exact hmem2
                    · intro _
                      exact hmemhp
                    · intro hne
                      exact ((hcharC p hp).2.2 hne).1
                · unfold readTree
                  simp only [copyFinHeapH_nodes, hnF,
                    copyFinHeapH_seqDicts, copyCellRef_seqRef, hs5c,
                    copyFinHeapH_childDicts, copyCellRef_childRef, hc5c,
                    copyCellRef_hierRef, copyFinHeapH_hiers, hhFnew,
                    copyCellRef_depth, copyCellRef_nrec, hkidsO, hn, hs,
                    hc, hrsome, hlookh]
                · unfold readTree
                  simp only [copyFinHeapH_nodes, hnidF,
                    copyFinHeapH_seqDicts, hsr5,
                    copyFinHeapH_childDicts, hdictpost,
                    copyFinHeapH_hiers, hrsome, hhFhref, hn, hs, hc,
                    hlookh]
                  rw [← hkidsC]

theorem rds_spec :
    ∀ (fuel : Nat) (h : STHeap V S) (n : Nat) (fp : List (Nat × Nat))
      (h2 : STHeap V S) (out : List S),
      footprint fuel h n = some fp → fp.Nodup →
      removeDominantSeqs fuel h n = some (h2, out) →
      h2.nodes = h.nodes ∧
      (∀ p : Nat × Nat, p ∉ fp → cellEq h h2 p) ∧
      ∃ fp2, footprint fuel h2 n = some fp2 ∧ fp2.Nodup ∧
        ∀ p ∈ fp2, p ∈ fp := by
  intro fuel
  induction fuel with
  | zero =>
    intro h n fp h2 out _ _ hrds
    exact absurd hrds (by simp [removeDominantSeqs])
  | succ fuel ih =>
    intro h n fp h2 out hfp hnd hrds
    unfold footprint at hfp
    cases hn : lookupA h.nodes n with
    | none => simp [hn] at hfp
    | some cell =>
      simp only [hn] at hfp
      cases hs : lookupA h.seqDicts cell.seqRef with
      | none => simp [hs] at hfp
      | some sdict =>
        cases hc : lookupA h.childDicts cell.childRef with
        | none => simp [hs, hc] at hfp
        | some cdict =>
          simp only [hs, hc] at hfp
          cases hm : mapO (fun kv => footprint fuel h kv.2) cdict with
          | none =>
            cases hr : cell.hierRef with
            | none => simp [hr, hm] at hfp
            | some href =>
              cases hhi : lookupA h.hiers href with
              | none => simp [hr, hhi] at hfp
              | some ph => simp [hr, hhi, hm] at hfp
          | some subs =>
            obtain ⟨hpart, hfpeq, hhier⟩ :
                ∃ hpart, fp = (0, n) :: (1, cell.seqRef) ::
                    (2, cell.childRef) :: hpart ++ subs.flatten ∧
                  ((cell.hierRef = none ∧ hpart = []) ∨
                   (∃ href ph, cell.hierRef = some href ∧
                     lookupA h.hiers href = some ph ∧
                     hpart = [((3 : Nat), href)])) := by
              cases hr : cell.hierRef with
              | none =>
                simp only [hr, hm, List.nil_append] at hfp
                injection hfp with hfp
                exact ⟨[], by rw [← hfp], Or.inl ⟨rfl, rfl⟩⟩
              | some href =>
                cases hhi : lookupA h.hiers href with
                | none => simp [hr, hhi] at hfp
                | some ph =>
                  simp only [hr, hhi, hm] at hfp
                  injection hfp with hfp
                  exact ⟨[((3 : Nat), href)], by rw [← hfp],
                    Or.inr ⟨href, ph, rfl, hhi, rfl⟩⟩
            have hmem0 : ((0 : Nat), n) ∈ fp := by
              rw [hfpeq]
              exact List.mem_cons_self _ _
            have hmem1 : ((1 : Nat), cell.seqRef) ∈ fp := by
              rw [hfpeq]
              exact List.mem_cons_of_mem _ (List.mem_cons_self _ _)
            have hmem2 : ((2 : Nat), cell.childRef) ∈ fp := by
              rw [hfpeq]
              exact List.mem_cons_of_mem _ (List.mem_cons_of_mem _
                (List.mem_cons_self _ _))
            have hflat_sub : ∀ p ∈ subs.flatten, p ∈ fp := by
              intro p hp
              rw [hfpeq]
              exact List.mem_cons_of_mem _ (List.mem_cons_of_mem _
                (List.mem_cons_of_mem _
                  (List.mem_append.mpr (Or.inr hp))))
            have hnd2 := hnd
            rw [hfpeq, List.nodup_append] at hnd2
            obtain ⟨hndL, hndflat, hdisjLflat⟩ := hnd2
            rw [List.nodup_flatten] at hndflat
            obtain ⟨hndeach, hpw⟩ := hndflat
            have hh0flat : ((0 : Nat), n) ∉ subs.flatten := by
              intro hx
              exact hdisjLflat (List.mem_cons_self _ _) hx
            have hh1flat : ((1 : Nat), cell.seqRef) ∉ subs.flatten := by
              intro hx
              exact hdisjLflat (List.mem_cons_of_mem _
                (List.mem_cons_self _ _)) hx
            have hh2flat : ((2 : Nat), cell.childRef) ∉ subs.flatten :=
              by
              intro hx
              exact hdisjLflat (List.mem_cons_of_mem _
                (List.mem_cons_of_mem _ (List.mem_cons_self _ _))) hx
            have hhpflat : ∀ p ∈ hpart, p ∉ subs.flatten := by
              intro p hp hx
              exact hdisjLflat (List.mem_cons_of_mem _
                (List.mem_cons_of_mem _ (List.mem_cons_of_mem _ hp))) hx
            have hfa : List.Forall₂
                (fun kv fpc => footprint fuel h kv.2 = some fpc)
                cdict subs :=
              mapO_forall _ _ cdict subs hm fun a b hb => hb
            have hchild : ∀ kv ∈ cdict, ∃ fpc,
                footprint fuel h kv.2 = some fpc ∧ fpc ∈ subs := by
              intro kv hkv
              obtain ⟨y, hy, hfy⟩ := forall₂_mem_left hfa kv hkv
              exact ⟨y, hfy, hy⟩
            have hchdisj : ∀ kv ∈ cdict, ∀ kv2 ∈ cdict, kv ≠ kv2 →
                ∀ fpc fpc2, footprint fuel h kv.2 = some fpc →
                  footprint fuel h kv2.2 = some fpc2 →
                  List.Disjoint fpc fpc2 :=
              disjoint_of_forall₂_pairwise
                (fun a y y2 hy hy2 => by
                  rw [hy] at hy2
                  exact Option.some.inj hy2)
                cdict subs hfa hpw
            unfold removeDominantSeqs at hrds
            simp only [hn, hs] at hrds
            cases hgd : getDominantChildren
                (clearSeqDict h cell.seqRef) n with
            | none => simp [hgd] at hrds
            | some doms =>
              simp only [hgd] at hrds
              rcases hhier with ⟨hrnone, hpnil⟩ |
                ⟨href, ph, hrsome, hlookh, hpe⟩
              · exfalso
                unfold getDominantChildren at hgd
                simp only [clearSeqDict_nodes, hn, hrnone] at hgd
                exact Option.noConfusion hgd
              · have hmemhp : ((3 : Nat), href) ∈ fp := by
                  rw [hfpeq, hpe]
                  refine List.mem_cons_of_mem _
                    (List.mem_cons_of_mem _ (List.mem_cons_of_mem _ ?_))
                  exact List.mem_append.mpr
                    (Or.inl (List.mem_singleton.mpr rfl))
                have hhrefflat : ((3 : Nat), href) ∉ subs.flatten := by
                  refine hhpflat (3, href) ?_
                  rw [hpe]
                  exact List.mem_singleton.mpr rfl
                unfold getDominantChildren at hgd
                simp only [clearSeqDict_nodes, hn, hrsome,
                  clearSeqDict_hiers, hlookh, clearSeqDict_childDicts,
                  hc] at hgd
                have hdmem : ∀ cref ∈ doms, ∃ rid,
                    (rid, cref) ∈ cdict := by
                  intro cref hcref
                  obtain ⟨rid, _, hl⟩ :=
                    mapO_mem_right _ _ _ hgd cref hcref
                  exact ⟨rid, lookupA_mem _ _ _ hl⟩
                have hframe0 : ∀ p : Nat × Nat, p ≠ (1, cell.seqRef) →
                    cellEq h (clearSeqDict h cell.seqRef) p := by
                  intro p hpne
                  refine ⟨fun _ => ?_, fun hp1 => ?_, fun _ => ?_,
                    fun _ => ?_⟩
                  · rw [clearSeqDict_nodes]
                  · have hne : p.2 ≠ cell.seqRef := by
                      intro he
                      exact hpne (Prod.ext_iff.mpr ⟨hp1, he⟩)
                    rw [clearSeqDict_seqDicts, lookupA_recSet,
                      if_neg hne]
                  · rw [clearSeqDict_childDicts]
                  · rw [clearSeqDict_hiers]
                have hsd0 : lookupA
                    (clearSeqDict h cell.seqRef).seqDicts cell.seqRef =
                    some [] := by
                  rw [clearSeqDict_seqDicts, lookupA_recSet, if_pos rfl]
                have hch0 : ∀ kv ∈ cdict, ∀ fpc,
                    footprint fuel h kv.2 = some fpc →
                    ∃ fpc2, footprint fuel
                      (clearSeqDict h cell.seqRef) kv.2 = some fpc2 ∧
                      fpc2.Nodup ∧ ∀ p ∈ fpc2, p ∈ fpc := by
                  intro kv hkv fpc hfpc
                  obtain ⟨fpcX, hfpcX, hmemX⟩ := hchild kv hkv
                  have he : fpcX = fpc := by
                    rw [hfpcX] at hfpc
                    exact Option.some.inj hfpc
                  subst he
                  have hag := footprint_agree fuel h
                    (clearSeqDict h cell.seqRef) kv.2 fpcX hfpcX
                    (fun p hp => hframe0 p (fun he2 => hh1flat (by
                      rw [← he2]
                      exact List.mem_flatten.mpr ⟨fpcX, hmemX, hp⟩)))
                  exact ⟨fpcX, hag.1, hndeach fpcX hmemX,
                    fun p hp => hp⟩
                have hfold : ∀ (todo : List Nat) (hc : STHeap V S)
                    (accOut : List S),
                    (∀ cref ∈ todo, ∃ rid, (rid, cref) ∈ cdict) →
                    hc.nodes = h.nodes →
                    (∀ p : Nat × Nat, p ∉ fp →
                      cellEq (clearSeqDict h cell.seqRef) hc p) →
                    lookupA hc.seqDicts cell.seqRef = some [] →
                    (∃ cdc, lookupA hc.childDicts cell.childRef =
                      some cdc ∧ List.Sublist cdc cdict) →
                    (∃ phc, lookupA hc.hiers href = some phc) →
                    (∀ kv ∈ cdict, ∀ fpc,
                      footprint fuel h kv.2 = some fpc →
                      ∃ fpc2, footprint fuel hc kv.2 = some fpc2 ∧
                        fpc2.Nodup ∧ ∀ p ∈ fpc2, p ∈ fpc) →
                    todo.foldl (rdsStep n (removeDominantSeqs fuel))
                      (some (hc, accOut)) = some (h2, out) →
                    h2.nodes = h.nodes ∧
                    (∀ p : Nat × Nat, p ∉ fp →
                      cellEq (clearSeqDict h cell.seqRef) h2 p) ∧
                    lookupA h2.seqDicts cell.seqRef = some [] ∧
                    (∃ cdc, lookupA h2.childDicts cell.childRef =
                      some cdc ∧ List.Sublist cdc cdict) ∧
                    (∃ phc, lookupA h2.hiers href = some phc) ∧
                    (∀ kv ∈ cdict, ∀ fpc,
                      footprint fuel h kv.2 = some fpc →
                      ∃ fpc2, footprint fuel h2 kv.2 = some fpc2 ∧
                        fpc2.Nodup ∧ ∀ p ∈ fpc2, p ∈ fpc) := by
                  intro todo
                  induction todo with
                  | nil =>
                    intro hc accOut _ hI1 hI2 hI3 hI4 hI5 hI6 hflx
                    rw [List.foldl_nil] at hflx
                    injection hflx with hflx
                    rw [Prod.mk.injEq] at hflx
                    obtain ⟨he1, _⟩ := hflx
                    subst he1
                    exact ⟨hI1, hI2, hI3, hI4, hI5, hI6⟩
                  | cons cref todo' ihf =>
                    intro hc accOut hmemtodo hI1 hI2 hI3 hI4 hI5 hI6
                      hflx
                    rw [List.foldl_cons] at hflx
                    obtain ⟨rid, hrid⟩ :=
                      hmemtodo cref (List.mem_cons_self _ _)
                    obtain ⟨fpcO, hfpcO, hfpcOmem⟩ :=
                      hchild (rid, cref) hrid
                    obtain ⟨fpc2, hfpc2, hfpc2nd, hfpc2sub⟩ :=
                      hI6 (rid, cref) hrid fpcO hfpcO
                    have hsub2flat : ∀ p ∈ fpc2, p ∈ subs.flatten := by
                      intro p hp
                      exact List.mem_flatten.mpr
                        ⟨fpcO, hfpcOmem, hfpc2sub p hp⟩
                    cases hgo : removeDominantSeqs fuel hc cref with
                    | none =>
                      rw [show rdsStep n (removeDominantSeqs fuel)
                          (some (hc, accOut)) cref = none from by
                        simp only [rdsStep, hgo],
                        rdsStep_foldl_none] at hflx
                      exact absurd hflx (by simp)
                    | some pr =>
                      obtain ⟨h3, sub⟩ := pr
                      have hfpc2x : footprint fuel hc cref =
                          some fpc2 := hfpc2
                      obtain ⟨h3nodes, h3frame, fpc3, hfpc3, hfpc3nd,
                        hfpc3sub⟩ :=
                        ih hc cref fpc2 h3 sub hfpc2x hfpc2nd hgo
                      obtain ⟨cdc, hcdc, hcdcsub⟩ := hI4
                      obtain ⟨phc, hphc⟩ := hI5
                      have hsd3 : lookupA h3.seqDicts cell.seqRef =
                          some [] := by
                        have hce := h3frame (1, cell.seqRef)
                          (fun hx => hh1flat (hsub2flat _ hx))
                        rw [hce.2.1 rfl]
                        exact hI3
                      have hcd3 : lookupA h3.childDicts cell.childRef =
                          some cdc := by
                        have hce := h3frame (2, cell.childRef)
                          (fun hx => hh2flat (hsub2flat _ hx))
                        rw [hce.2.2.1 rfl]
                        exact hcdc
                      have hph3 : lookupA h3.hiers href = some phc := by
                        have hce := h3frame (3, href)
                          (fun hx => hhrefflat (hsub2flat _ hx))
                        rw [hce.2.2.2 rfl]
                        exact hphc
                      have hfr3 : ∀ p : Nat × Nat, p ∉ fp →
                          cellEq (clearSeqDict h cell.seqRef) h3 p := by
                        intro p hp
                        refine cellEq_trans _ hc _ p (hI2 p hp)
                          (h3frame p ?_)
                        intro hpin
                        exact hp (hflat_sub p (hsub2flat p hpin))
                      have h63 : ∀ kv ∈ cdict, ∀ fpc,
                          footprint fuel h kv.2 = some fpc →
                          ∃ fpc2', footprint fuel h3 kv.2 = some fpc2' ∧
                            fpc2'.Nodup ∧ ∀ p ∈ fpc2', p ∈ fpc := by
                        intro kv hkv fpcK hfpcK
                        by_cases hsame : kv.2 = cref
                        · have heq : fpcK = fpcO := by
                            rw [hsame] at hfpcK
                            rw [hfpcK] at hfpcO
                            exact Option.some.inj hfpcO
                          refine ⟨fpc3, ?_, hfpc3nd, ?_⟩
                          · rw [hsame]
                            exact hfpc3
                          · intro p hp
                            rw [heq]
                            exact hfpc2sub p (hfpc3sub p hp)
                        · obtain ⟨fpc2K, hfpc2K, hndK, hsubK⟩ :=
                            hI6 kv hkv fpcK hfpcK
                          have hdisj : List.Disjoint fpcK fpcO :=
                            hchdisj kv hkv (rid, cref) hrid
                              (fun he => hsame (congrArg Prod.snd he))
                              fpcK fpcO hfpcK hfpcO
                          have hag := footprint_agree fuel hc h3 kv.2
                            fpc2K hfpc2K
                            (fun p hp => h3frame p (fun hpin =>
                              hdisj (hsubK p hp) (hfpc2sub p hpin)))
                          exact ⟨fpc2K, hag.1, hndK, hsubK⟩
                      cases hemp : isEmptyNode h3 cref with
                      | none =>
                        rw [show rdsStep n (removeDominantSeqs fuel)
                            (some (hc, accOut)) cref = none from by
                          simp only [rdsStep, hgo, hemp],
                          rdsStep_foldl_none] at hflx
                        exact absurd hflx (by simp)
                      | some b =>
                        cases b with
                        | false =>
                          rw [show rdsStep n (removeDominantSeqs fuel)
                              (some (hc, accOut)) cref =
                              some (h3, accOut ++ sub) from by
                            simp only [rdsStep, hgo, hemp]] at hflx
                          exact ihf h3 (accOut ++ sub)
                            (fun c hcm => hmemtodo c
                              (List.mem_cons_of_mem _ hcm))
                            (h3nodes.trans hI1) hfr3 hsd3
                            ⟨cdc, hcd3, hcdcsub⟩ ⟨phc, hph3⟩ h63 hflx
                        | true =>
                          cases hdel : delChild h3 n cref with
                          | none =>
                            rw [show rdsStep n
                                (removeDominantSeqs fuel)
                                (some (hc, accOut)) cref = none from by
                              simp only [rdsStep, hgo, hemp, hdel],
                              rdsStep_foldl_none] at hflx
                            exact absurd hflx (by simp)
                          | some h4 =>
                            rw [show rdsStep n
                                (removeDominantSeqs fuel)
                                (some (hc, accOut)) cref =
                                some (h4, accOut ++ sub) from by
                              simp only [rdsStep, hgo, hemp,
                                hdel]] at hflx
                            unfold delChild at hdel
                            rw [h3nodes, hI1] at hdel
                            simp only [hn] at hdel
                            cases hccell : lookupA h.nodes cref with
                            | none => simp [hccell] at hdel
                            | some ccell =>
                              simp only [hccell] at hdel
                              cases hnrec : ccell.nrec with
                              | none => simp [hnrec] at hdel
                              | some crec =>
                                simp only [hnrec, hcd3] at hdel
                                by_cases hmemA : memA cdc crec = true
                                · rw [if_pos hmemA] at hdel
                                  simp only [hrsome, hph3] at hdel
                                  cases hphd : phDelete phc crec with
                                  | none => simp [hphd] at hdel
                                  | some ph2 =>
                                    simp only [hphd] at hdel
                                    injection hdel with hdel
                                    subst hdel
                                    have hcell34 : ∀ p : Nat × Nat,
                                        p ∈ subs.flatten →
                                        cellEq h3 (delChildHeap h3
                                          cell.childRef
                                          (recErase cdc crec) href ph2)
                                          p := by
                                      intro p hp
                                      refine ⟨fun _ => ?_, fun _ => ?_,
                                        fun hp2 => ?_, fun hp3 => ?_⟩
                                      · rw [delChildHeap_nodes]
                                      · rw [delChildHeap_seqDicts]
                                      · have hne : p.2 ≠
                                            cell.childRef := by
                                          intro he
                                          have hpeq : p =
                                              ((2 : Nat),
                                                cell.childRef) :=
                                            Prod.ext_iff.mpr ⟨hp2, he⟩
                                          exact hh2flat (by
                                            rw [← hpeq]
                                            exact hp)
                                        rw [delChildHeap_childDicts,
                                          lookupA_recSet, if_neg hne]
                                      · have hne : p.2 ≠ href := by
                                          intro he
                                          have hpeq : p =
                                              ((3 : Nat), href) :=
                                            Prod.ext_iff.mpr ⟨hp3, he⟩
                                          exact hhrefflat (by
                                            rw [← hpeq]
                                            exact hp)
                                        rw [delChildHeap_hiers,
                                          lookupA_recSet, if_neg hne]
                                    have hfr4 : ∀ p : Nat × Nat,
                                        p ∉ fp →
                                        cellEq (clearSeqDict h
                                          cell.seqRef)
                                          (delChildHeap h3
                                            cell.childRef
                                            (recErase cdc crec) href
                                            ph2) p := by
                                      intro p hp
                                      refine cellEq_trans _ h3 _ p
                                        (hfr3 p hp) ?_
                                      refine ⟨fun _ => ?_, fun _ => ?_,
                                        fun hp2 => ?_, fun hp3 => ?_⟩
                                      · rw [delChildHeap_nodes]
                                      · rw [delChildHeap_seqDicts]
                                      · have hne : p.2 ≠
                                            cell.childRef := by
                                          intro he
                                          have hpeq : p =
                                              ((2 : Nat),
                                                cell.childRef) :=
                                            Prod.ext_iff.mpr ⟨hp2, he⟩
                                          exact hp (by
                                            rw [hpeq]
                                            exact hmem2)
                                        rw [delChildHeap_childDicts,
                                          lookupA_recSet, if_neg hne]
                                      · have hne : p.2 ≠ href := by
                                          intro he
                                          have hpeq : p =
                                              ((3 : Nat), href) :=
                                            Prod.ext_iff.mpr ⟨hp3, he⟩
                                          exact hp (by
                                            rw [hpeq]
                                            exact hmemhp)
                                        rw [delChildHeap_hiers,
                                          lookupA_recSet, if_neg hne]
                                    have hsd4 : lookupA
                                        (delChildHeap h3 cell.childRef
                                          (recErase cdc crec) href
                                          ph2).seqDicts cell.seqRef =
                                        some [] := by
                                      rw [delChildHeap_seqDicts]
                                      exact hsd3
                                    have hcd4 : lookupA
                                        (delChildHeap h3 cell.childRef
                                          (recErase cdc crec) href
                                          ph2).childDicts
                                        cell.childRef =
                                        some (recErase cdc crec) := by
                                      rw [delChildHeap_childDicts,
                                        lookupA_recSet, if_pos rfl]
                                    have hsubl : List.Sublist
                                        (recErase cdc crec) cdict := by
                                      refine List.Sublist.trans
                                        ?_ hcdcsub
                                      exact List.filter_sublist _
                                    have hph4 : lookupA
                                        (delChildHeap h3 cell.childRef
                                          (recErase cdc crec) href
                                          ph2).hiers href =
                                        some ph2 := by
                                      rw [delChildHeap_hiers,
                                        lookupA_recSet, if_pos rfl]
                                    have h64 : ∀ kv ∈ cdict, ∀ fpc,
                                        footprint fuel h kv.2 =
                                          some fpc →
                                        ∃ fpc2', footprint fuel
                                          (delChildHeap h3
                                            cell.childRef
                                            (recErase cdc crec) href
                                            ph2) kv.2 = some fpc2' ∧
                                          fpc2'.Nodup ∧
                                          ∀ p ∈ fpc2', p ∈ fpc := by
                                      intro kv hkv fpcK hfpcK
                                      obtain ⟨fpc2', h1', h2', h3'⟩ :=
                                        h63 kv hkv fpcK hfpcK
                                      obtain ⟨fpcX, hfpX, hmemX⟩ :=
                                        hchild kv hkv
                                      have heq : fpcK = fpcX := by
                                        rw [hfpcK] at hfpX
                                        exact Option.some.inj hfpX
                                      have hag := footprint_agree fuel
                                        h3 _ kv.2 fpc2' h1'
                                        (fun p hp => hcell34 p
                                          (List.mem_flatten.mpr
                                            ⟨fpcX, hmemX, by
                                              rw [← heq]
                                              exact h3' p hp⟩))
                                      exact ⟨fpc2', hag.1, h2', h3'⟩
                                    exact ihf _ (accOut ++ sub)
                                      (fun c hcm => hmemtodo c
                                        (List.mem_cons_of_mem _ hcm))
                                      ((delChildHeap_nodes _ _ _ _
                                        _).trans
                                        (h3nodes.trans hI1))
                                      hfr4 hsd4
                                      ⟨recErase cdc crec, hcd4, hsubl⟩
                                      ⟨ph2, hph4⟩ h64 hflx
                                · rw [if_neg hmemA] at hdel
                                  exact absurd hdel (by simp)
                obtain ⟨h2nodes, h2frame, h2sd,
                  ⟨cdc2, hcdc2, hcdc2sub⟩, ⟨phc2, hphc2⟩, h26⟩ :=
                  hfold doms (clearSeqDict h cell.seqRef)
                    (sdict.map Prod.snd) hdmem
                    (clearSeqDict_nodes _ _)
                    (fun p _ => cellEq_refl _ _)
                    hsd0
                    ⟨cdict, by
                      rw [clearSeqDict_childDicts]
                      exact hc, List.Sublist.refl cdict⟩
                    ⟨ph, by
                      rw [clearSeqDict_hiers]
                      exact hlookh⟩
                    hch0 hrds
                refine ⟨h2nodes, ?_, ?_⟩
                · intro p hp
                  refine cellEq_trans h (clearSeqDict h cell.seqRef)
                    h2 p (hframe0 p ?_) (h2frame p hp)
                  intro he
                  apply hp
                  rw [he]
                  exact hmem1
                · have hall : ∀ kv ∈ cdc2, ∃ fpc2,
                      footprint fuel h2 kv.2 = some fpc2 ∧
                      fpc2.Nodup ∧ ∃ fpcO,
                        footprint fuel h kv.2 = some fpcO ∧
                        fpcO ∈ subs ∧ ∀ p ∈ fpc2, p ∈ fpcO := by
                    intro kv hkv
                    have hkvc : kv ∈ cdict := hcdc2sub.subset hkv
                    obtain ⟨fpcO, hfpcO, hmemO⟩ := hchild kv hkvc
                    obtain ⟨fpc2, h1', h2', h3'⟩ :=
                      h26 kv hkvc fpcO hfpcO
                    exact ⟨fpc2, h1', h2', fpcO, hfpcO, hmemO, h3'⟩
                  obtain ⟨subs2, hsubs2⟩ := forall₂_exists cdc2 hall
                  have hmapO2 : mapO (fun kv => footprint fuel h2 kv.2)
                      cdc2 = some subs2 :=
                    mapO_of_forall₂ _ _ _
                      (forall₂_imp_strong hsubs2
                        (fun a _ b _ hb => hb.1))
                  have hflat2sub : ∀ p ∈ subs2.flatten,
                      p ∈ subs.flatten := by
                    intro p hp
                    obtain ⟨l2, hl2, hpl2⟩ := List.mem_flatten.mp hp
                    obtain ⟨kv, _, hrel⟩ :=
                      forall₂_mem_right₂ hsubs2 l2 hl2
                    obtain ⟨_, _, fpcO, _, hmemO, hsub'⟩ := hrel
                    exact List.mem_flatten.mpr
                      ⟨fpcO, hmemO, hsub' p hpl2⟩
                  have hnd2each : ∀ l2 ∈ subs2, l2.Nodup := by
                    intro l2 hl2
                    obtain ⟨kv, _, hrel⟩ :=
                      forall₂_mem_right₂ hsubs2 l2 hl2
                    exact hrel.2.1
                  have hpwsubs2 : List.Pairwise List.Disjoint subs2 :=
                    by
                    have hQ := forall₂_pairwise
                      (fun a b b2 hb hb2 => by
                        rw [hb] at hb2
                        exact Option.some.inj hb2)
                      hfa hpw
                    have hQ2 := hQ.sublist hcdc2sub
                    refine pairwise_of_forall₂ hsubs2 hQ2 ?_
                    intro a b a2 b2 hpb hpb2 hq
                    obtain ⟨_, _, fpcOa, hfa', hma, hsa⟩ := hpb
                    obtain ⟨_, _, fpcOb, hfb', hmb, hsb⟩ := hpb2
                    intro x hxa hxb
                    exact hq fpcOa fpcOb hfa' hfb' (hsa x hxa)
                      (hsb x hxb)
                  refine ⟨(0, n) :: (1, cell.seqRef) ::
                    (2, cell.childRef) :: [((3 : Nat), href)] ++
                    subs2.flatten, ?_, ?_, ?_⟩
                  · unfold footprint
                    simp only [h2nodes, hn, h2sd, hcdc2, hrsome,
                      hphc2, hmapO2]
                  · simp only [List.cons_append,
                      List.singleton_append]
                    refine List.nodup_cons.mpr ⟨?_,
                      List.nodup_cons.mpr ⟨?_,
                      List.nodup_cons.mpr ⟨?_,
                      List.nodup_cons.mpr ⟨?_,
                      List.nodup_flatten.mpr
                        ⟨hnd2each, hpwsubs2⟩⟩⟩⟩⟩
                    · intro hx
                      simp only [List.mem_cons] at hx
                      rcases hx with he | he | he | hx
                      · exact absurd (congrArg Prod.fst he)
                          (by decide : (0:Nat) ≠ 1)
                      · exact absurd (congrArg Prod.fst he)
                          (by decide : (0:Nat) ≠ 2)
                      · exact absurd (congrArg Prod.fst he)
                          (by decide : (0:Nat) ≠ 3)
                      · exact hh0flat (hflat2sub _ hx)
                    · intro hx
                      simp only [List.mem_cons] at hx
                      rcases hx with he | he | hx
                      · exact absurd (congrArg Prod.fst he)
                          (by decide : (1:Nat) ≠ 2)
                      · exact absurd (congrArg Prod.fst he)
                          (by decide : (1:Nat) ≠ 3)
                      · exact hh1flat (hflat2sub _ hx)
                    · intro hx
                      simp only [List.mem_cons] at hx
                      rcases hx with he | hx
                      · exact absurd (congrArg Prod.fst he)
                          (by decide : (2:Nat) ≠ 3)
                      · exact hh2flat (hflat2sub _ hx)
                    · intro hx
                      exact hhrefflat (hflat2sub _ hx)
                  · intro p hp
                    simp only [List.cons_append,
                      List.singleton_append, List.mem_cons] at hp
                    rcases hp with rfl | rfl | rfl | rfl | hp
                    · exact hmem0
                    · exact hmem1
                    · exact hmem2
                    · exact hmemhp
                    · exact hflat_sub p (hflat2sub p hp)

theorem topkGo_spec (rfuel : Nat) :
    ∀ (gfuel : Nat) (h : STHeap V S) (n k : Nat) (acc : List S)
      (fp : List (Nat × Nat)) (h2 : STHeap V S) (out : List S),
      footprint rfuel h n = some fp → fp.Nodup →
      topkGo rfuel gfuel h n k acc = some (h2, out) →
      ∀ p : Nat × Nat, p ∉ fp → cellEq h h2 p := by
  intro gfuel
  induction gfuel with
  | zero =>
    intro h n k acc fp h2 out _ _ htg
    exact absurd htg (by simp [topkGo])
  | succ gfuel ih =>
    intro h n k acc fp h2 out hfp hnd htg p hpfp
    unfold topkGo at htg
    cases hn : lookupA h.nodes n with
    | none => simp [hn] at htg
    | some cell =>
      simp only [hn] at htg
      cases hcd : lookupA h.childDicts cell.childRef with
      | none => simp [hcd] at htg
      | some cdict =>
        simp only [hcd] at htg
        by_cases hcond : (acc.length < k && !cdict.isEmpty) = true
        · rw [if_pos hcond] at htg
          cases hrds : removeDominantSeqs rfuel h n with
          | none => simp [hrds] at htg
          | some pr =>
            obtain ⟨hx, sub⟩ := pr
            simp only [hrds] at htg
            obtain ⟨_, hframe, fp2, hfp2, hnd2, hsub2⟩ :=
              rds_spec rfuel h n fp hx sub hfp hnd hrds
            have hrec := ih hx n k (acc ++ sub) fp2 h2 out hfp2 hnd2
              htg
            exact cellEq_trans h hx h2 p (hframe p hpfp)
              (hrec p (fun hin => hpfp (hsub2 p hin)))
        · rw [if_neg hcond] at htg
          injection htg with htg
          rw [Prod.mk.injEq] at htg
          obtain ⟨he1, _⟩ := htg
          subst he1
          exact cellEq_refl _ _

theorem topkSequences_spec (fuel : Nat) (h : STHeap V S) (n k : Nat)
    (fp : List (Nat × Nat)) (h2 : STHeap V S) (out : List S)
    (hfp : footprint fuel h n = some fp) (hnd : fp.Nodup)
    (htk : topkSequences fuel h n k = some (h2, out)) :
    ∀ p : Nat × Nat, p ∉ fp → cellEq h h2 p := by
  intro p hpfp
  unfold topkSequences at htk
  cases hn : lookupA h.nodes n with
  | none => simp [hn] at htk
  | some cell =>
    simp only [hn] at htk
    cases hnr : cell.nrec with
    | some r =>
      simp only [hnr] at htk
      injection htk with htk
      rw [Prod.mk.injEq] at htk
      obtain ⟨he1, _⟩ := htk
      subst he1
      exact cellEq_refl _ _
    | none =>
      simp only [hnr] at htk
      cases htg : topkGo fuel fuel h n k [] with
      | none => simp [htg] at htk
      | some pr =>
        obtain ⟨hx, outx⟩ := pr
        simp only [htg] at htk
        injection htk with htk
        rw [Prod.mk.injEq] at htk
        obtain ⟨he1, _⟩ := htk
        subst he1
        exact topkGo_spec fuel fuel h n k [] fp hx outx hfp hnd htg p
          hpfp

theorem topkIndex_preserves (gh : PHier V) (fuel : Nat)
    (h : STHeap V S) (root k : Nat) (fp : List (Nat × Nat))
    (h2 : STHeap V S) (out : List S)
    (hfp : footprint fuel h root = some fp) (hnd : fp.Nodup)
    (hbound : ∀ p ∈ fp, p.2 < h.nextId) (hdom : heapDom h)
    (hkeys : ∀ d cdX, lookupA h.childDicts d = some cdX →
      (cdX.map Prod.fst).Nodup)
    (htk : topkIndex gh fuel h root k = some (h2, out)) :
    readTree fuel h2 root = readTree fuel h root := by
  unfold topkIndex at htk
  cases hcp : copyNode gh fuel h root with
  | none => simp [hcp] at htk
  | some pr =>
    obtain ⟨hF, copyRoot⟩ := pr
    simp only [hcp] at htk
    obtain ⟨hnx, hdomF, hkeysF, hframeF,
      ⟨fpO, hfpO, hfpOnd, hfpOb, hfpOk0, hfpOkn⟩,
      ⟨fpC, hfpC, hfpCnd, hfpCb, hfpCk0, hfpCkn⟩, hrdO, hrdC⟩ :=
      copyNode_spec gh fuel h root fp hF copyRoot hfp hnd hbound hdom
        hkeys hcp
    have hframe2 := topkSequences_spec fuel hF copyRoot k fpC h2 out
      hfpC hfpCnd htk
    have hdisjOC : ∀ p ∈ fpO, p ∉ fpC := by
      intro p hpO hpC
      by_cases hp0 : p.1 = 0
      · have h1 := hfpOk0 p hpO hp0
        have h2x := hfpCk0 p hpC hp0
        have h3x := hbound p h1
        omega
      · have h1 := hfpOkn p hpO hp0
        have h2x := hfpCkn p hpC hp0
        have h3x := hbound p h2x
        omega
    have hag := footprint_agree fuel hF h2 root fpO hfpO
      (fun p hp => hframe2 p (hdisjOC p hp))
    rw [hag.2, hrdO]

/-- The witness hierarchy value stored at the root of the sample tree. -/
def c9Hier : PHier Int :=
  ⟨[], [([(0, RVal.val 1)], [(0, RVal.val 1)])], [], [], []⟩

/-- A sample sequence-tree heap: a root node (id 1, depth 0) with one
child node (id 2) holding the record `{0: 1}`; sequence ids are `Nat`
payloads. -/
def c9Heap : STHeap Int Nat :=
  { nodes := [(1, ⟨0, none, 10, 20, some 30⟩),
      (2, ⟨1, some [(0, RVal.val 1)], 11, 21, some 31⟩)]
    seqDicts := [(10, [(100, 7)]), (11, [(101, 8)])]
    childDicts := [(20, [([(0, RVal.val 1)], 2)]), (21, [])]
    hiers := [(30, c9Hier), (31, ⟨[], [], [], [], []⟩)]
    nextId := 40 }

/-- The global hierarchy object handed to the copy (its value is
irrelevant to the frame property). -/
def c9gh : PHier Int := ⟨[], [], [], [], []⟩

/-- The footprint of the sample tree. -/
def c9fp : List (Nat × Nat) :=
  [(0, 1), (1, 10), (2, 20), (3, 30), (0, 2), (1, 11), (2, 21),
   (3, 31)]

/-- C9: `SeqIndex.topk_sequences` operates on a copy of the tree and
leaves the index unchanged: after `SeqNode.copy` the cell footprints of
the original root and of the copy root are disjoint (no node cell,
sequence dictionary, child dictionary or hierarchy is shared), and
running the top-k extraction (which peels dominants destructively on the
copy) leaves the value of the original tree - its nodes, sequence
dictionaries, hierarchies and children - unchanged. -/
theorem C9_topk_leaves_index_unchanged (gh : PHier V) (fuel : Nat)
    (h : STHeap V S) (root k : Nat) (fp : List (Nat × Nat))
    (hF h2 : STHeap V S) (copyRoot : Nat) (out : List S)
    (hfp : footprint fuel h root = some fp) (hnd : fp.Nodup)
    (hbound : ∀ p ∈ fp, p.2 < h.nextId) (hdom : heapDom h)
    (hkeys : ∀ d cdX, lookupA h.childDicts d = some cdX →
      (cdX.map Prod.fst).Nodup)
    (hcp : copyNode gh fuel h root = some (hF, copyRoot))
    (htk : topkIndex gh fuel h root k = some (h2, out)) :
    (∃ fpO fpC, footprint fuel hF root = some fpO ∧
      footprint fuel hF copyRoot = some fpC ∧
      ∀ p ∈ fpC, p ∉ fpO) ∧
    readTree fuel h2 root = readTree fuel h root := by
  unfold topkIndex at htk
  simp only [hcp] at htk
  obtain ⟨hnx, hdomF, hkeysF, hframeF,
    ⟨fpO, hfpO, hfpOnd, hfpOb, hfpOk0, hfpOkn⟩,
    ⟨fpC, hfpC, hfpCnd, hfpCb, hfpCk0, hfpCkn⟩, hrdO, hrdC⟩ :=
    copyNode_spec gh fuel h root fp hF copyRoot hfp hnd hbound hdom
      hkeys hcp
  have hdisjCO : ∀ p ∈ fpC, p ∉ fpO := by
    intro p hpC hpO
    by_cases hp0 : p.1 = 0
    · have h1 := hfpOk0 p hpO hp0
      have h2x := hfpCk0 p hpC hp0
      have h3x := hbound p h1
      omega
    · have h1 := hfpOkn p hpO hp0
      have h2x := hfpCkn p hpC hp0
      have h3x := hbound p h2x
      omega
  refine ⟨⟨fpO, fpC, hfpO, hfpC, hdisjCO⟩, ?_⟩
  have hframe2 := topkSequences_spec fuel hF copyRoot k fpC h2 out
    hfpC hfpCnd htk
  have hag := footprint_agree fuel hF h2 root fpO hfpO
    (fun p hp => hframe2 p (fun hpc => hdisjCO p hpc hp))
  rw [hag.2, hrdO]

/-- Witness: on the sample two-node tree, the copy succeeds, top-k
succeeds, the two footprints are disjoint, and the original tree value
is untouched. -/
theorem C9_topk_leaves_index_unchanged_witness :
    ∃ (hF h2 : STHeap Int Nat) (copyRoot : Nat) (out : List Nat),
      copyNode c9gh 10 c9Heap 1 = some (hF, copyRoot) ∧
      topkIndex c9gh 10 c9Heap 1 5 = some (h2, out) ∧
      (∃ fpO fpC, footprint 10 hF 1 = some fpO ∧
        footprint 10 hF copyRoot = some fpC ∧
        ∀ p ∈ fpC, p ∉ fpO) ∧
      readTree 10 h2 1 = readTree 10 c9Heap 1 := by
  have hkeysC : ∀ d cdX, lookupA c9Heap.childDicts d = some cdX →
      (cdX.map Prod.fst).Nodup := by
    intro d cdX hl
    have he : lookupA c9Heap.childDicts d =
        (if 20 = d then some [([(0, RVal.val 1)], 2)]
         else if 21 = d then some [] else none) := rfl
    rw [he] at hl
    by_cases h1 : (20 : Nat) = d
    · rw [if_pos h1] at hl
      injection hl with hl
      subst hl
      decide
    · rw [if_neg h1] at hl
      by_cases h2 : (21 : Nat) = d
      · rw [if_pos h2] at hl
        injection hl with hl
        subst hl
        decide
      · rw [if_neg h2] at hl
        exact Option.noConfusion hl
  cases hcp : copyNode c9gh 10 c9Heap 1 with
  | none =>
    have hx : (copyNode c9gh 10 c9Heap 1).isSome = true := rfl
    rw [hcp] at hx
    exact Bool.noConfusion hx
  | some pr =>
    cases htk : topkIndex c9gh 10 c9Heap 1 5 with
    | none =>
      have hx : (topkIndex c9gh 10 c9Heap 1 5).isSome = true := rfl
      rw [htk] at hx
      exact Bool.noConfusion hx
    | some pr2 =>
      obtain ⟨hF, copyRoot⟩ := pr
      obtain ⟨h2, out⟩ := pr2
      have hmain := C9_topk_leaves_index_unchanged c9gh 10 c9Heap 1 5
        c9fp hF h2 copyRoot out rfl (by decide) (by decide)
        (by unfold heapDom; decide) hkeysC hcp htk
      exact ⟨hF, h2, copyRoot, out, rfl, rfl, hmain.1, hmain.2⟩

end StreamPref
